import Mathlib

/-!
Shallow embedding of the scanning core of the `disk-usage-analyzer-cli`
repository (Rust), together with proofs and refutations of the frozen claims
about it.

Modelling conventions:
* `Instant` and `Duration` are modelled as `Nat` nanoseconds; `u64` counters
  are modelled as `Nat` (the code's counters are `u64`; where the source uses
  an explicit `saturating_add` the model saturates at `U64MAX`, otherwise the
  model is exact below `2^64`, which covers every physically realisable scan).
* `f32` appears only as the constant `1.0` stored in
  `estimated_completion_ratio : Option<f32>`; it is modelled as `Option Rat`
  carrying the exact value `1`.
* Stateful Rust code (`&mut self`, the shared `TraversalContext`) is modelled
  by explicit state passing.  The traversal strategies are modelled in their
  single-threaded (sequential) execution order, which is the order the legacy
  strategy uses and a representative schedule of the POSIX strategy.
* Filesystem access is modelled by a finite tree (`FsTree`) whose nodes carry
  the metadata the code reads via `symlink_metadata` and fault flags for each
  distinct system call the code performs (stat, read-dir, open).
-/

/-- `u64::MAX`. -/
def U64MAX : Nat := 2 ^ 64 - 1

/-- `u64` saturating addition (`saturating_add` in the source). -/
def satAdd64 (a b : Nat) : Nat := min (a + b) U64MAX

/-- `u32` saturating addition (`saturating_add` on `u32` counters). -/
def satAdd32 (a b : Nat) : Nat := min (a + b) (2 ^ 32 - 1)

/-- The error kinds the code distinguishes (`std::io::ErrorKind`): `NotFound`,
`PermissionDenied`, everything else. -/
inductive IoErr where
  | notFound
  | permissionDenied
  | otherErr
deriving DecidableEq, Repr

/-- Rendering of an `std::io::Error` via `to_string` (the exact text never
matters to any claim; a fixed rendering per kind is used). -/
def ioErrMessage : IoErr → String
  | .notFound => "entity not found"
  | .permissionDenied => "permission denied"
  | .otherErr => "i/o error"

/-- `models::DirectoryEntry`. -/
structure DirectoryEntry where
  path : String
  parent_path : Option String
  depth : Nat
  size_bytes : Nat
  file_count : Nat
  dir_count : Nat
deriving DecidableEq, Repr

/-- `models::ErrorItem`. -/
structure ErrorItem where
  path : String
  code : String
  message : String
deriving DecidableEq, Repr

/-- `models::ProgressSnapshot`.  `estimated_completion_ratio : Option<f32>`
only ever holds the exact value `1.0`, modelled as `(1 : Rat)`. -/
structure ProgressSnapshot where
  timestamp_ms : Nat
  processed_entries : Nat
  processed_bytes : Nat
  estimated_completion_ratio : Option Rat
  recent_throughput_bytes_per_sec : Option Nat
deriving DecidableEq, Repr

/-- `models::SnapshotMeta`. -/
structure SnapshotMeta where
  scan_root : String
  started_at : String
  finished_at : String
  size_basis : String
  hardlink_policy : String
  excludes : List String
  strategy : String
deriving DecidableEq, Repr

/-- `FileId` (device, inode), from `services::traverse::legacy`. -/
structure FileId where
  dev : Nat
  ino : Nat
deriving DecidableEq, Repr

/-! ## Progress throttler (`services/traverse/progress.rs`) -/

/-- `MIN_INTERVAL`: 100 ms, in nanoseconds. -/
def MIN_INTERVAL : Nat := 100 * 1000000

/-- `MIN_BYTE_TRIGGER`: 64 KiB. -/
def MIN_BYTE_TRIGGER : Nat := 64 * 1024

/-- `DEFAULT_BYTE_TRIGGER`. -/
def DEFAULT_BYTE_TRIGGER : Nat := 1000000

/-- `ProgressThrottler` state: interval and byte trigger plus last-emission
bookkeeping.  Times are `Nat` nanoseconds. -/
structure ProgressThrottler where
  interval : Nat
  byte_trigger : Nat
  last_emit : Option Nat
  last_emit_bytes : Nat
deriving DecidableEq, Repr

/-- `ProgressThrottler::with_interval_and_trigger`. -/
def ProgressThrottler.with_interval_and_trigger (interval byte_trigger : Nat) :
    ProgressThrottler :=
  { interval := max interval MIN_INTERVAL
    byte_trigger := max byte_trigger MIN_BYTE_TRIGGER
    last_emit := none
    last_emit_bytes := 0 }

/-- `compute_throughput`: `bytes_delta * 1e9 / elapsed_ns`, `None` on zero
elapsed time, clamped into `u64`. -/
def compute_throughput (bytes_delta elapsed : Nat) : Option Nat :=
  if elapsed = 0 then none
  else some (min (bytes_delta * 1000000000 / elapsed) U64MAX)

/-- `ProgressThrottler::consider`.  Returns the optional snapshot and the
updated throttler (the Rust method mutates `&mut self`). -/
def ProgressThrottler.consider (th : ProgressThrottler)
    (now processed_bytes processed_entries timestamp_ms : Nat) :
    Option ProgressSnapshot × ProgressThrottler :=
  match th.last_emit with
  | none =>
    (none, { th with last_emit := some now, last_emit_bytes := processed_bytes })
  | some last_emit =>
    let elapsed := now - last_emit
    let bytes_delta := processed_bytes - th.last_emit_bytes
    let byte_gate := max (th.interval / 2) MIN_INTERVAL
    if th.interval ≤ elapsed ∨
        (th.byte_trigger ≠ U64MAX ∧ byte_gate ≤ elapsed ∧
          th.byte_trigger ≤ bytes_delta) then
      (some { timestamp_ms := timestamp_ms
              processed_entries := processed_entries
              processed_bytes := processed_bytes
              estimated_completion_ratio := none
              recent_throughput_bytes_per_sec := compute_throughput bytes_delta elapsed },
        { th with last_emit := some now, last_emit_bytes := processed_bytes })
    else
      (none, th)

/-- `ProgressThrottler::estimate_throughput`. -/
def ProgressThrottler.estimate_throughput (th : ProgressThrottler)
    (now processed_bytes : Nat) : Option Nat :=
  match th.last_emit with
  | none => none
  | some last_emit =>
    compute_throughput (processed_bytes - th.last_emit_bytes) (now - last_emit)

/-- `ProgressThrottler::force_emit`: always produces a snapshot, with
`estimated_completion_ratio = Some(1.0)`. -/
def ProgressThrottler.force_emit (th : ProgressThrottler)
    (now processed_bytes processed_entries timestamp_ms : Nat) :
    Option ProgressSnapshot × ProgressThrottler :=
  let throughput := th.estimate_throughput now processed_bytes
  (some { timestamp_ms := timestamp_ms
          processed_entries := processed_entries
          processed_bytes := processed_bytes
          estimated_completion_ratio := some 1
          recent_throughput_bytes_per_sec := throughput },
    { th with last_emit := some now, last_emit_bytes := processed_bytes })

/-! ## Progress bookkeeping of the traversal context
(`services/traverse/legacy.rs`, lines 206-284).  The scan start instant is
taken as time `0`, so `elapsed_ms(now) = now / 1e6` clamped into `u64`. -/

/-- `TraversalContext::elapsed_ms` with `start_instant = 0`. -/
def elapsed_ms (now : Nat) : Nat := min (now / 1000000) U64MAX

/-- The progress-related slice of `TraversalContext` state: the two atomic
counters, the appended snapshot trace and the throttler. -/
structure ProgCtx where
  processed_entries : Nat
  processed_bytes : Nat
  progress_events : List ProgressSnapshot
  progress_throttler : ProgressThrottler
deriving DecidableEq, Repr

/-- Initial progress state for a scan with the given interval and trigger
(`TraversalContext::new`). -/
def ProgCtx.init (interval byte_trigger : Nat) : ProgCtx :=
  { processed_entries := 0
    processed_bytes := 0
    progress_events := []
    progress_throttler := .with_interval_and_trigger interval byte_trigger }

/-- `TraversalContext::maybe_emit_progress`: consult the throttler and append
the snapshot to the trace when one is produced. -/
def ProgCtx.maybe_emit_progress (c : ProgCtx) (now : Nat) : ProgCtx :=
  match c.progress_throttler.consider now c.processed_bytes c.processed_entries
      (elapsed_ms now) with
  | (some snapshot, th) =>
    { c with progress_throttler := th
             progress_events := c.progress_events ++ [snapshot] }
  | (none, th) => { c with progress_throttler := th }

/-- `TraversalContext::register_file_progress` at wall time `now`.  The
`u64` counters (`AtomicU64::fetch_add` plus a plain `+`) wrap at `2 ^ 64`. -/
def ProgCtx.register_file_progress (c : ProgCtx) (size_bytes now : Nat) : ProgCtx :=
  ProgCtx.maybe_emit_progress
    { c with processed_entries := (c.processed_entries + 1) % 2 ^ 64
             processed_bytes := (c.processed_bytes + size_bytes) % 2 ^ 64 } now

/-- `TraversalContext::register_directory_progress` at wall time `now`; the
wrapping `u64` entry counter advances, the byte counter is only loaded. -/
def ProgCtx.register_directory_progress (c : ProgCtx) (now : Nat) : ProgCtx :=
  ProgCtx.maybe_emit_progress
    { c with processed_entries := (c.processed_entries + 1) % 2 ^ 64 } now

/-- `TraversalContext::finalize_progress` at wall time `now`: force-emit a
terminal snapshot, but append it only when it differs from the last recorded
snapshot in `processed_entries` or `processed_bytes`. -/
def ProgCtx.finalize_progress (c : ProgCtx) (now : Nat) : ProgCtx :=
  match c.progress_throttler.force_emit now c.processed_bytes c.processed_entries
      (elapsed_ms now) with
  | (some snapshot, th) =>
    let should_append :=
      match c.progress_events.getLast? with
      | none => true
      | some last =>
        last.processed_entries ≠ snapshot.processed_entries ∨
          last.processed_bytes ≠ snapshot.processed_bytes
    if should_append then
      { c with progress_throttler := th
               progress_events := c.progress_events ++ [snapshot] }
    else
      { c with progress_throttler := th }
  | (none, th) => { c with progress_throttler := th }

/-- One progress-relevant event of a scan: a file emission (with its
attributed byte count) or a directory finalization, each stamped with the wall
time at which the register call runs. -/
inductive ProgOp where
  | file (size_bytes : Nat) (now : Nat)
  | dir (now : Nat)
deriving DecidableEq, Repr

/-- Total bytes a sequence of register calls attributes. -/
def opsBytes : List ProgOp → Nat
  | [] => 0
  | .file size_bytes _ :: rest => size_bytes + opsBytes rest
  | .dir _ :: rest => opsBytes rest

/-- Replay one progress event. -/
def ProgCtx.step (c : ProgCtx) : ProgOp → ProgCtx
  | .file size_bytes now => c.register_file_progress size_bytes now
  | .dir now => c.register_directory_progress now

/-- The progress trace a scan leaves behind: replay all register calls in
order, then `finalize_progress` at time `fin`. -/
def scanProgressTrace (interval byte_trigger : Nat) (ops : List ProgOp)
    (fin : Nat) : List ProgressSnapshot :=
  ((ops.foldl ProgCtx.step (ProgCtx.init interval byte_trigger)).finalize_progress
    fin).progress_events

/-! ## Filesystem model

A finite tree of filesystem nodes.  Each node carries the metadata the code
obtains from `symlink_metadata` plus one fault flag per distinct system call
the traversals perform on it: `statErr` (symlink_metadata / DirEntry
metadata), `readDirErr` (`fs::read_dir` / `Dir::read_from`), `openErr`
(`rfs::openat`).  A directory's child slot optionally carries an iterator
error (`ReadDir` yielding `Err`), in which case the name and subtree are
never observed by the code. -/

inductive NodeKind where
  | file
  | dir
  | symlink
  | otherKind
deriving DecidableEq, Repr

/-- The metadata fields of one node that the code reads. -/
structure Meta where
  kind : NodeKind
  len : Nat
  blocks : Nat
  dev : Nat
  fid : Option FileId
  statErr : Option IoErr
deriving DecidableEq, Repr

mutual
inductive FsTree where
  | node (meta : Meta) (readDirErr : Option IoErr) (openErr : Option IoErr)
      (children : ChildList)
inductive ChildList where
  | nil
  | cons (iterErr : Option IoErr) (name : String) (sub : FsTree) (rest : ChildList)
end

def FsTree.meta : FsTree → Meta
  | .node m _ _ _ => m

def FsTree.readDirErr : FsTree → Option IoErr
  | .node _ e _ _ => e

def FsTree.openErr : FsTree → Option IoErr
  | .node _ _ e _ => e

def FsTree.children : FsTree → ChildList
  | .node _ _ _ cs => cs

/-- Paths are lists of components from the top; rendered with `/` separators
(`normalize_path` is the identity on the rendered string on POSIX). -/
def pathStr (p : List String) : String := String.intercalate "/" p

/-- `Path::parent`, for a scan rooted at a single top component. -/
def parentOf (p : List String) : Option (List String) :=
  if p.length ≤ 1 then none else some p.dropLast

/-! ## Scan options and traversal context (`lib.rs`, `traverse/legacy.rs`) -/

inductive SizeBasis where
  | physical
  | logical
deriving DecidableEq, Repr

inductive HardlinkPolicy where
  | dedupe
  | count
deriving DecidableEq, Repr

structure ScanOptions where
  basis : SizeBasis
  max_depth : Option Nat
  hardlink_policy : HardlinkPolicy
  follow_symlinks : Bool
  cross_filesystem : Bool
deriving DecidableEq, Repr

/-- Association-list update mirroring `HashMap::insert` under the unique-keys
invariant: replace the existing binding, otherwise append. -/
def alInsert (m : List (List String × DirectoryEntry)) (k : List String)
    (v : DirectoryEntry) : List (List String × DirectoryEntry) :=
  match m with
  | [] => [(k, v)]
  | kv :: rest => if kv.1 = k then (k, v) :: rest else kv :: alInsert rest k v

def alLookup (m : List (List String × DirectoryEntry)) (k : List String) :
    Option DirectoryEntry :=
  match m with
  | [] => none
  | kv :: rest => if kv.1 = k then some kv.2 else alLookup rest k

/-- The traversal slice of `TraversalContext` state (the progress slice is
modelled above by `ProgCtx`). -/
structure TraversalContext where
  root_device : Option Nat
  seen_inodes : List FileId
  entries : List (List String × DirectoryEntry)
  errors : List ErrorItem
  options : ScanOptions
  max_depth : Option Nat
deriving Repr

/-- A fresh context for a scan (`TraversalContext::new`). -/
def TraversalContext.init (options : ScanOptions) : TraversalContext :=
  { root_device := none
    seen_inodes := []
    entries := []
    errors := []
    options := options
    max_depth := options.max_depth }

/-- `TraversalContext::set_root_device_if_absent`. -/
def TraversalContext.set_root_device_if_absent (c : TraversalContext)
    (device : Nat) : TraversalContext :=
  if c.options.cross_filesystem then c
  else
    match c.root_device with
    | some _ => c
    | none => { c with root_device := some device }

/-- `TraversalContext::should_count_file`: under `Count` always true; under
`Dedupe`, insert-and-test on the seen set when a `FileId` is available,
otherwise true. -/
def TraversalContext.should_count_file (c : TraversalContext) (m : Meta) :
    Bool × TraversalContext :=
  match c.options.hardlink_policy with
  | .count => (true, c)
  | .dedupe =>
    match m.fid with
    | some file_id =>
      if file_id ∈ c.seen_inodes then (false, c)
      else (true, { c with seen_inodes := file_id :: c.seen_inodes })
    | none => (true, c)

/-- `TraversalContext::get_size` (Unix build): logical length or
512-byte-block physical size. -/
def TraversalContext.get_size (c : TraversalContext) (m : Meta) : Nat :=
  match c.options.basis with
  | .logical => m.len
  | .physical => m.blocks * 512

/-- The error-code taxonomy of `TraversalContext::record_error`. -/
def errCode : IoErr → String
  | .notFound => "ENOENT"
  | .permissionDenied => "EACCES"
  | .otherErr => "IO"

/-- `TraversalContext::record_error`. -/
def TraversalContext.record_error (c : TraversalContext) (path : List String)
    (e : IoErr) : TraversalContext :=
  { c with errors := c.errors ++
      [{ path := pathStr path, code := errCode e, message := ioErrMessage e }] }

/-- `TraversalContext::insert_entry`. -/
def TraversalContext.insert_entry (c : TraversalContext) (path : List String)
    (entry : DirectoryEntry) : TraversalContext :=
  { c with entries := alInsert c.entries path entry }

/-- The `max_depth` guard `depth > max_depth` at the top of both traversals. -/
def depthExceeds : Option Nat → Nat → Bool
  | some md, d => md < d
  | none, _ => false

/-- `context.max_depth.is_none_or(|max| file_depth <= max)`. -/
def withinDepth : Option Nat → Nat → Bool
  | some md, d => d ≤ md
  | none, _ => true

/-- The filesystem-boundary refusal: not crossing filesystems and the node's
device differs from the recorded root device. -/
def deviceMismatch (c : TraversalContext) (m : Meta) : Bool :=
  !c.options.cross_filesystem &&
    (match c.root_device with
     | some root_dev => m.dev != root_dev
     | none => false)

/-! ## Legacy traversal (`services/traverse/legacy.rs`, lines 414-563)

`traverse_recursive` is split into the node function and the child-loop
function; the per-file child block (lines 507-532) is factored out verbatim
as `legacyFileChild`.  The result type mirrors `io::Result<u64>`; every error
site of the source recovers locally, the only `?` is on the recursive call.
Progress registration touches only the `ProgCtx` slice and is modelled by the
progress machine above. -/

/-- The file-child block of `traverse_recursive` (hardlink check, size
attribution, conditional emission under the depth limit). -/
def legacyFileChild (c : TraversalContext) (current child_path : List String)
    (m : Meta) (depth : Nat) : TraversalContext × Nat :=
  let sc := c.should_count_file m
  let file_size := if sc.1 then sc.2.get_size m else 0
  let c := sc.2
  let file_depth := depth + 1
  if withinDepth c.max_depth file_depth then
    let file_entry : DirectoryEntry :=
      { path := pathStr child_path
        parent_path := some (pathStr current)
        depth := file_depth
        size_bytes := file_size
        file_count := 0
        dir_count := 0 }
    (c.insert_entry child_path file_entry, file_size)
  else (c, file_size)

mutual

/-- `traverse_recursive(current, depth, context)`. -/
def traverse_recursive (current : List String) (t : FsTree) (depth : Nat)
    (c : TraversalContext) : TraversalContext × Except IoErr Nat :=
  match t with
  | .node meta readDirErr _openErr children =>
    if depthExceeds c.max_depth depth then (c, .ok 0)
    else
      match meta.statErr with
      | some e => (c.record_error current e, .ok 0)
      | none =>
        if meta.kind = .symlink ∧ c.options.follow_symlinks = false then (c, .ok 0)
        else if deviceMismatch c meta then (c, .ok 0)
        else if meta.kind = .file then
          let sc := c.should_count_file meta
          let size := if sc.1 then sc.2.get_size meta else 0
          (sc.2, .ok size)
        else if meta.kind = .dir then
          match readDirErr with
          | some e => (c.record_error current e, .ok 0)
          | none =>
            match legacyChildren current children depth c with
            | (c, .error e) => (c, .error e)
            | (c, .ok (total_size, file_count, dir_count)) =>
              let entry : DirectoryEntry :=
                { path := pathStr current
                  parent_path := (parentOf current).map pathStr
                  depth := depth
                  size_bytes := total_size
                  file_count := file_count
                  dir_count := dir_count }
              (c.insert_entry current entry, .ok total_size)
        else (c, .ok 0)

/-- The `for entry in entries` loop of `traverse_recursive`, accumulating
`(total_size, file_count, dir_count)`. -/
def legacyChildren (current : List String) (cs : ChildList) (depth : Nat)
    (c : TraversalContext) : TraversalContext × Except IoErr (Nat × Nat × Nat) :=
  match cs with
  | .nil => (c, .ok (0, 0, 0))
  | .cons (some e) _ _ rest =>
    legacyChildren current rest depth (c.record_error current e)
  | .cons none name child rest =>
    let child_path := current ++ [name]
    match child.meta.statErr with
    | some e => legacyChildren current rest depth (c.record_error child_path e)
    | none =>
      if child.meta.kind = .file then
        let fc := legacyFileChild c current child_path child.meta depth
        match legacyChildren current rest depth fc.1 with
        | (c, .error e) => (c, .error e)
        | (c, .ok (total, nfiles, ndirs)) =>
          (c, .ok (fc.2 + total, 1 + nfiles, ndirs))
      else if child.meta.kind = .dir then
        match traverse_recursive child_path child (depth + 1) c with
        | (c, .error e) => (c, .error e)
        | (c, .ok subdir_size) =>
          match legacyChildren current rest depth c with
          | (c, .error e) => (c, .error e)
          | (c, .ok (total, nfiles, ndirs)) =>
            (c, .ok (subdir_size + total, nfiles, 1 + ndirs))
      else legacyChildren current rest depth c

end

/-- `legacy::traverse_directory`: stat the root (recording a root error and
returning `Ok(0)` on failure), record the root device, recurse at depth 0. -/
def traverse_directory (root : List String) (t : FsTree) (c : TraversalContext) :
    TraversalContext × Except IoErr Nat :=
  match t.meta.statErr with
  | some e => (c.record_error root e, .ok 0)
  | none =>
    let c :=
      if c.options.cross_filesystem then c
      else c.set_root_device_if_absent t.meta.dev
    traverse_recursive root t 0 c

/-! ## POSIX-optimized traversal (`services/traverse/posix.rs`, lines 68-236)

`traverse_directory_fd` first enumerates the directory stream, handling files
inline and opening child-directory descriptors (recording and skipping any
child whose stat or open fails), and only then recurses into the successfully
opened child directories.  The model follows that two-phase structure: the
enumeration phase `posixChildren` performs exactly the per-child actions of
the loop, and `posixSubdirs` replays the recursion over the children that the
loop would have pushed onto `child_dirs` — a child is pushed precisely when
the pure conditions `posixCollected` hold, none of which depend on state that
the loop changes (`root_device` is write-once before the walk and the seen
set is consulted only for files).  The worker-pool fan-out is modelled in
enumeration order, a representative schedule.  Failures of `Dir::read_from`
and of the root `openat` propagate as `Err`, exactly as the `?` operators in
the source do. -/

/-- Whether the enumeration loop pushes this child slot onto `child_dirs`:
no iterator error, stat succeeded, not a skipped symlink, device accepted,
a directory, within the depth limit, and its `openat` succeeded. -/
def posixCollected (c : TraversalContext) (iterErr : Option IoErr)
    (child : FsTree) (next_depth : Nat) : Bool :=
  match iterErr with
  | some _ => false
  | none =>
    child.meta.statErr = none ∧
    ¬(child.meta.kind = .symlink ∧ c.options.follow_symlinks = false) ∧
    deviceMismatch c child.meta = false ∧
    child.meta.kind = .dir ∧
    depthExceeds c.max_depth next_depth = false ∧
    child.openErr = none

mutual

/-- `traverse_directory_fd(current, dir_fd, depth, context)`. -/
def traverse_directory_fd (current : List String) (t : FsTree) (depth : Nat)
    (c : TraversalContext) : TraversalContext × Except IoErr Nat :=
  match t with
  | .node _meta readDirErr _openErr children =>
    if depthExceeds c.max_depth depth then (c, .ok 0)
    else
      match readDirErr with
      | some e => (c, .error e)
      | none =>
        match posixChildren current children depth c with
        | (c, total_size, file_count, dir_count) =>
          match posixSubdirs current children depth c with
          | (c, .error e) => (c, .error e)
          | (c, .ok subdir_total) =>
            let total_size := satAdd64 total_size subdir_total
            let entry : DirectoryEntry :=
              { path := pathStr current
                parent_path := (parentOf current).map pathStr
                depth := depth
                size_bytes := total_size
                file_count := file_count
                dir_count := dir_count }
            (c.insert_entry current entry, .ok total_size)

/-- The enumeration loop over the directory stream: files are counted and
emitted here, child directories are counted and their descriptors opened
(open failures recorded); it never fails. -/
def posixChildren (current : List String) (cs : ChildList) (depth : Nat)
    (c : TraversalContext) : TraversalContext × Nat × Nat × Nat :=
  match cs with
  | .nil => (c, 0, 0, 0)
  | .cons (some e) _ _ rest =>
    posixChildren current rest depth (c.record_error current e)
  | .cons none name child rest =>
    let child_path := current ++ [name]
    match child.meta.statErr with
    | some e => posixChildren current rest depth (c.record_error child_path e)
    | none =>
      if child.meta.kind = .symlink ∧ c.options.follow_symlinks = false then
        posixChildren current rest depth c
      else if deviceMismatch c child.meta then
        posixChildren current rest depth c
      else if child.meta.kind = .file then
        let sc := c.should_count_file child.meta
        let file_size := if sc.1 then sc.2.get_size child.meta else 0
        let c := sc.2
        let file_depth := depth + 1
        let c :=
          if withinDepth c.max_depth file_depth then
            c.insert_entry child_path
              { path := pathStr child_path
                parent_path := some (pathStr current)
                depth := file_depth
                size_bytes := file_size
                file_count := 0
                dir_count := 0 }
          else c
        match posixChildren current rest depth c with
        | (c, total, nfiles, ndirs) =>
          (c, satAdd64 file_size total, satAdd32 1 nfiles, ndirs)
      else if child.meta.kind = .dir then
        let next_depth := depth + 1
        if depthExceeds c.max_depth next_depth then
          match posixChildren current rest depth c with
          | (c, total, nfiles, ndirs) => (c, total, nfiles, satAdd32 1 ndirs)
        else
          match child.openErr with
          | some e =>
            match posixChildren current rest depth (c.record_error child_path e) with
            | (c, total, nfiles, ndirs) => (c, total, nfiles, satAdd32 1 ndirs)
          | none =>
            match posixChildren current rest depth c with
            | (c, total, nfiles, ndirs) => (c, total, nfiles, satAdd32 1 ndirs)
      else posixChildren current rest depth c

/-- The fan-out over the collected child directories: recurse into each,
folding the subtree totals; a child's failure propagates. -/
def posixSubdirs (current : List String) (cs : ChildList) (depth : Nat)
    (c : TraversalContext) : TraversalContext × Except IoErr Nat :=
  match cs with
  | .nil => (c, .ok 0)
  | .cons iterErr name child rest =>
    if posixCollected c iterErr child (depth + 1) then
      match traverse_directory_fd (current ++ [name]) child (depth + 1) c with
      | (c, .error e) => (c, .error e)
      | (c, .ok size) =>
        match posixSubdirs current rest depth c with
        | (c, .error e) => (c, .error e)
        | (c, .ok total) => (c, .ok (satAdd64 size total))
    else posixSubdirs current rest depth c

end

/-- `posix::posix_traverse`: stat the root (recording and returning `Ok(0)`
on failure), fall back to the legacy walk for a non-directory root, record
the root device, open the root descriptor (propagating failure as `Err`),
and walk from depth 0. -/
def posix_traverse (root : List String) (t : FsTree) (c : TraversalContext) :
    TraversalContext × Except IoErr Nat :=
  match t.meta.statErr with
  | some e => (c.record_error root e, .ok 0)
  | none =>
    if t.meta.kind ≠ .dir then traverse_directory root t c
    else
      let c :=
        if c.options.cross_filesystem then c
        else c.set_root_device_if_absent t.meta.dev
      match t.openErr with
      | some e => (c, .error e)
      | none => traverse_directory_fd root t 0 c

/-! ## Memory sink (`services/sink/memory.rs`) -/

/-- `SinkFinish`. -/
structure SinkFinish where
  entries : List DirectoryEntry
  errors : List ErrorItem
  entry_count : Nat
deriving DecidableEq, Repr

/-- `HashMap<String, DirectoryEntry>` keyed by `entry.path`, as an
association list under the unique-paths invariant: `insert` replaces the
binding for an existing path and otherwise appends. -/
def msInsert : List DirectoryEntry → DirectoryEntry → List DirectoryEntry
  | [], e => [e]
  | x :: rest, e => if x.path = e.path then e :: rest else x :: msInsert rest e

/-- `MemorySink` state. -/
structure MemorySink where
  entries : List DirectoryEntry
  errors : List ErrorItem
  entry_count : Nat
  metadata : Option SnapshotMeta
deriving DecidableEq, Repr

def MemorySink.new : MemorySink :=
  { entries := [], errors := [], entry_count := 0, metadata := none }

/-- `MemorySink::record_entry`: saturating count bump, keyed insert. -/
def MemorySink.record_entry (s : MemorySink) (entry : DirectoryEntry) : MemorySink :=
  { s with entry_count := satAdd64 s.entry_count 1
           entries := msInsert s.entries entry }

/-- `MemorySink::record_error`. -/
def MemorySink.record_error (s : MemorySink) (error : ErrorItem) : MemorySink :=
  { s with errors := s.errors ++ [error] }

/-- `MemorySink::set_metadata`. -/
def MemorySink.set_metadata (s : MemorySink) (meta : SnapshotMeta) : MemorySink :=
  { s with metadata := some meta }

/-- `MemorySink::finish`: the stored entries sorted by path, the error list
in sequence, the saturating entry count. -/
def MemorySink.finish (s : MemorySink) : SinkFinish :=
  { entries := s.entries.mergeSort (fun a b => decide (a.path ≤ b.path))
    errors := s.errors
    entry_count := s.entry_count }

/-! ## Parquet snapshot codec (`io/snapshot.rs`)

The claims cite `write_snapshot` / `read_snapshot` of `io/snapshot.rs`, which
use a flat fourteen-column schema with the metadata repeated on every entry
row.  A snapshot file is modelled as its list of record batches, each batch a
list of rows over that schema. -/

/-- The Arrow data types appearing in the schema. -/
inductive ArrowType where
  | utf8
  | uint16
  | uint32
  | uint64
deriving DecidableEq, Repr

/-- One `Field::new(name, dtype, nullable)` of the schema. -/
structure SchemaField where
  name : String
  dtype : ArrowType
  nullable : Bool
deriving DecidableEq, Repr

/-- The schema `write_snapshot` constructs, field by field in source order. -/
def snapshotSchemaFields : List SchemaField :=
  [ { name := "path", dtype := .utf8, nullable := true }
  , { name := "parent_path", dtype := .utf8, nullable := true }
  , { name := "depth", dtype := .uint16, nullable := true }
  , { name := "size_bytes", dtype := .uint64, nullable := true }
  , { name := "file_count", dtype := .uint32, nullable := true }
  , { name := "dir_count", dtype := .uint32, nullable := true }
  , { name := "meta_scan_root", dtype := .utf8, nullable := true }
  , { name := "meta_started_at", dtype := .utf8, nullable := true }
  , { name := "meta_finished_at", dtype := .utf8, nullable := true }
  , { name := "meta_size_basis", dtype := .utf8, nullable := true }
  , { name := "meta_hardlink_policy", dtype := .utf8, nullable := true }
  , { name := "error_path", dtype := .utf8, nullable := true }
  , { name := "error_code", dtype := .utf8, nullable := true }
  , { name := "error_message", dtype := .utf8, nullable := true }
  ]

/-- One row over the snapshot schema; every column is nullable. -/
structure SnapRow where
  path : Option String
  parent_path : Option String
  depth : Option Nat
  size_bytes : Option Nat
  file_count : Option Nat
  dir_count : Option Nat
  meta_scan_root : Option String
  meta_started_at : Option String
  meta_finished_at : Option String
  meta_size_basis : Option String
  meta_hardlink_policy : Option String
  error_path : Option String
  error_code : Option String
  error_message : Option String
deriving DecidableEq, Repr

/-- The row `create_entries_batch` builds for one entry: the entry columns
filled, the five metadata string columns repeated, the error columns null. -/
def entryRow (meta : SnapshotMeta) (e : DirectoryEntry) : SnapRow :=
  { path := some e.path
    parent_path := e.parent_path
    depth := some e.depth
    size_bytes := some e.size_bytes
    file_count := some e.file_count
    dir_count := some e.dir_count
    meta_scan_root := some meta.scan_root
    meta_started_at := some meta.started_at
    meta_finished_at := some meta.finished_at
    meta_size_basis := some meta.size_basis
    meta_hardlink_policy := some meta.hardlink_policy
    error_path := none
    error_code := none
    error_message := none }

/-- The row `create_errors_batch` builds for one error: entry and metadata
columns null. -/
def errorRow (err : ErrorItem) : SnapRow :=
  { path := none
    parent_path := none
    depth := none
    size_bytes := none
    file_count := none
    dir_count := none
    meta_scan_root := none
    meta_started_at := none
    meta_finished_at := none
    meta_size_basis := none
    meta_hardlink_policy := none
    error_path := some err.path
    error_code := some err.code
    error_message := some err.message }

/-- `create_entries_batch`: one row per entry. -/
def create_entries_batch (entries : List DirectoryEntry) (meta : SnapshotMeta) :
    List SnapRow :=
  entries.map (entryRow meta)

/-- `create_errors_batch`: one row per error. -/
def create_errors_batch (errors : List ErrorItem) : List SnapRow :=
  errors.map errorRow

/-- `create_metadata_batch`: a single row carrying only the metadata
columns. -/
def create_metadata_batch (meta : SnapshotMeta) : List SnapRow :=
  [ { path := none
      parent_path := none
      depth := none
      size_bytes := none
      file_count := none
      dir_count := none
      meta_scan_root := some meta.scan_root
      meta_started_at := some meta.started_at
      meta_finished_at := some meta.finished_at
      meta_size_basis := some meta.size_basis
      meta_hardlink_policy := some meta.hardlink_policy
      error_path := none
      error_code := none
      error_message := none } ]

/-- `write_snapshot`: the entries batch when entries are present, then the
errors batch when errors are present, and a metadata-only batch exactly when
both are empty. -/
def write_snapshot (meta : SnapshotMeta) (entries : List DirectoryEntry)
    (errors : List ErrorItem) : List (List SnapRow) :=
  (if entries = [] then [] else [create_entries_batch entries meta]) ++
    (if errors = [] then [] else [create_errors_batch errors]) ++
    (if entries = [] ∧ errors = [] then [create_metadata_batch meta] else [])

/-- The metadata value `extract_metadata` reconstructs.  The source builds a
struct literal from the five persisted string columns with `excludes`
hard-wired to empty; it sets no `strategy` field (the writer has no strategy
column to read one from). -/
structure SnapshotMetaRead where
  scan_root : String
  started_at : String
  finished_at : String
  size_basis : String
  hardlink_policy : String
  excludes : List String
deriving DecidableEq, Repr

/-- `extract_metadata` from the first row of a batch. -/
def extract_metadata (row : SnapRow) : Except String SnapshotMetaRead :=
  match row.meta_scan_root, row.meta_started_at, row.meta_finished_at,
      row.meta_size_basis, row.meta_hardlink_policy with
  | some scan_root, some started_at, some finished_at, some size_basis,
      some hardlink_policy =>
    .ok { scan_root := scan_root
          started_at := started_at
          finished_at := finished_at
          size_basis := size_basis
          hardlink_policy := hardlink_policy
          excludes := [] }
  | none, _, _, _, _ => .error "Missing scan_root"
  | _, none, _, _, _ => .error "Missing started_at"
  | _, _, none, _, _ => .error "Missing finished_at"
  | _, _, _, none, _ => .error "Missing size_basis"
  | _, _, _, _, none => .error "Missing hardlink_policy"

/-- `extract_entry` from a row classified as an entry row. -/
def extract_entry (row : SnapRow) : Except String DirectoryEntry :=
  match row.path, row.depth, row.size_bytes, row.file_count, row.dir_count with
  | some path, some depth, some size_bytes, some file_count, some dir_count =>
    .ok { path := path
          parent_path := row.parent_path
          depth := depth
          size_bytes := size_bytes
          file_count := file_count
          dir_count := dir_count }
  | none, _, _, _, _ => .error "Missing path"
  | _, none, _, _, _ => .error "Missing depth"
  | _, _, none, _, _ => .error "Missing size_bytes"
  | _, _, _, none, _ => .error "Missing file_count"
  | _, _, _, _, none => .error "Missing dir_count"

/-- `extract_error` from a row classified as an error row. -/
def extract_error (row : SnapRow) : Except String ErrorItem :=
  match row.error_path, row.error_code, row.error_message with
  | some path, some code, some message =>
    .ok { path := path, code := code, message := message }
  | none, _, _ => .error "Missing error_path"
  | _, none, _ => .error "Missing error_code"
  | _, _, none => .error "Missing error_message"

/-- The row-classification loop of `read_snapshot` over one batch: a non-null
`error_path` makes an error row; otherwise a non-null, non-empty `path` makes
an entry row; anything else is skipped. -/
def readRows (rows : List SnapRow) (es : List DirectoryEntry)
    (errs : List ErrorItem) :
    Except String (List DirectoryEntry × List ErrorItem) :=
  match rows with
  | [] => .ok (es, errs)
  | row :: rest =>
    if row.error_path ≠ none then
      match extract_error row with
      | .error msg => .error msg
      | .ok err => readRows rest es (errs ++ [err])
    else
      match row.path with
      | some p =>
        if p ≠ "" then
          match extract_entry row with
          | .error msg => .error msg
          | .ok e => readRows rest (es ++ [e]) errs
        else readRows rest es errs
      | none => readRows rest es errs

/-- The batch loop of `read_snapshot`: metadata is taken from the first row
of the first non-empty batch (a failure there aborts the read), then every
row of every batch is classified. -/
def readBatches : List (List SnapRow) → Option SnapshotMetaRead →
    List DirectoryEntry → List ErrorItem →
    Except String (SnapshotMetaRead × List DirectoryEntry × List ErrorItem)
  | [], meta?, es, errs =>
    match meta? with
    | none => .error "No metadata found"
    | some m => .ok (m, es, errs)
  | batch :: rest, meta?, es, errs =>
    let metaStep : Except String (Option SnapshotMetaRead) :=
      match meta?, batch with
      | none, row :: _ => (extract_metadata row).map some
      | _, _ => .ok meta?
    match metaStep with
    | .error msg => .error msg
    | .ok meta? =>
      match readRows batch es errs with
      | .error msg => .error msg
      | .ok (es, errs) => readBatches rest meta? es errs

/-- `read_snapshot`. -/
def read_snapshot (batches : List (List SnapRow)) :
    Except String (SnapshotMetaRead × List DirectoryEntry × List ErrorItem) :=
  readBatches batches none [] []

/-! ## Claim C2: the `consider` emission gate -/

/-- The emission condition exactly as the claim words it: elapsed time at
least the interval, or byte trigger enabled and elapsed time at least *half
the interval* and enough bytes advanced.  (Comparison definition, written
from the claim; the code's gate differs.) -/
def claimEmitCondition (th : ProgressThrottler) (now processed_bytes : Nat) : Bool :=
  match th.last_emit with
  | none => false
  | some last_emit =>
    th.interval ≤ now - last_emit ∨
      (th.byte_trigger ≠ U64MAX ∧ th.interval / 2 ≤ now - last_emit ∧
        th.byte_trigger ≤ processed_bytes - th.last_emit_bytes)

/-- The emission condition the code actually implements: the byte path is
gated by `max(interval / 2, MIN_INTERVAL)` rather than by `interval / 2`. -/
def codeEmitCondition (th : ProgressThrottler) (now processed_bytes : Nat) : Bool :=
  match th.last_emit with
  | none => false
  | some last_emit =>
    th.interval ≤ now - last_emit ∨
      (th.byte_trigger ≠ U64MAX ∧
        max (th.interval / 2) MIN_INTERVAL ≤ now - last_emit ∧
        th.byte_trigger ≤ processed_bytes - th.last_emit_bytes)

/-- C2 (corrected): on its very first call `consider` only arms the timer and
records the byte counter, returning no snapshot; on every later call it
returns a snapshot if and only if the elapsed time is at least the interval,
or the byte trigger is enabled and the elapsed time is at least
`max(interval / 2, 100 ms)` — not plain `interval / 2` — and the byte counter
has advanced by at least the byte trigger. -/
theorem C2_consider_gate (th : ProgressThrottler) (now pb pe ts : Nat) :
    (th.last_emit = none →
      (th.consider now pb pe ts).1 = none ∧
        (th.consider now pb pe ts).2 =
          { th with last_emit := some now, last_emit_bytes := pb }) ∧
    (th.last_emit ≠ none →
      (th.consider now pb pe ts).1.isSome = codeEmitCondition th now pb) := by
  constructor
  · intro h
    simp [ProgressThrottler.consider, h]
  · intro h
    match hle : th.last_emit with
    | none => exact absurd hle h
    | some last_emit =>
      simp only [ProgressThrottler.consider, codeEmitCondition, hle]
      split
      · next hc =>
        simp only [Option.isSome_some]
        exact (decide_eq_true hc).symm
      · next hc =>
        simp only [Option.isSome_none]
        exact (decide_eq_false hc).symm

/-- Witness for C2: a fresh throttler is armed silently, and a non-first call
with the time gate satisfied emits. -/
theorem C2_consider_gate_witness :
    (ProgressThrottler.with_interval_and_trigger 100000000 65536).last_emit = none ∧
      ((ProgressThrottler.with_interval_and_trigger 100000000 65536).consider
          0 0 0 0).1 = none ∧
      (((ProgressThrottler.with_interval_and_trigger 100000000 65536).consider
            0 0 0 0).2.consider 300000000 10 2 300).1.isSome =
        codeEmitCondition
          ((ProgressThrottler.with_interval_and_trigger 100000000 65536).consider
              0 0 0 0).2 300000000 10 := by
  refine ⟨rfl, ?_, ?_⟩
  · exact (C2_consider_gate _ 0 0 0 0).1 rfl |>.1
  · exact (C2_consider_gate _ 300000000 10 2 300).2 (by decide)

/-- Counterexample for C2 as stated: with the minimum interval (100 ms) and a
64 KiB trigger, a second call 50 ms after arming with 64 KiB advanced
satisfies the claim's condition (`elapsed ≥ interval / 2` and
`delta ≥ byte_trigger`) yet `consider` returns no snapshot, because the
code's byte gate is `max(interval / 2, 100 ms) = 100 ms`. -/
theorem C2_counterexample :
    claimEmitCondition
        ((ProgressThrottler.with_interval_and_trigger 100000000 65536).consider
            0 0 0 0).2 50000000 65536 = true ∧
      (((ProgressThrottler.with_interval_and_trigger 100000000 65536).consider
            0 0 0 0).2.consider 50000000 65536 1 50).1 = none := by
  constructor
  · decide
  · decide

/-! ## Claims C7 and C8: shape of the progress trace -/

/-- What `consider` puts into a snapshot when it emits one: the passed
counters, and an unset completion ratio. -/
theorem consider_emit_spec (th : ProgressThrottler) (now pb pe ts : Nat)
    (s : ProgressSnapshot) (h : (th.consider now pb pe ts).1 = some s) :
    s.estimated_completion_ratio = none ∧
      s.processed_entries = pe ∧ s.processed_bytes = pb := by
  unfold ProgressThrottler.consider at h
  rcases hle : th.last_emit with _ | le <;> rw [hle] at h
  · simp at h
  · dsimp only at h
    split at h
    · simp only [Option.some.injEq] at h
      subst h
      exact ⟨rfl, rfl, rfl⟩
    · simp at h

/-- `force_emit` always emits, with completion ratio `1.0` and the passed
counters. -/
theorem force_emit_spec (th : ProgressThrottler) (now pb pe ts : Nat) :
    ∃ s, (th.force_emit now pb pe ts).1 = some s ∧
      s.estimated_completion_ratio = some 1 ∧
      s.processed_entries = pe ∧ s.processed_bytes = pb :=
  ⟨_, rfl, rfl, rfl, rfl⟩

/-- `maybe_emit_progress` leaves the trace alone or appends exactly the
snapshot `consider` produced. -/
theorem maybe_emit_events (c : ProgCtx) (now : Nat) :
    (c.maybe_emit_progress now).progress_events = c.progress_events ∨
      ∃ s, (c.maybe_emit_progress now).progress_events = c.progress_events ++ [s] ∧
        (c.progress_throttler.consider now c.processed_bytes c.processed_entries
            (elapsed_ms now)).1 = some s := by
  unfold ProgCtx.maybe_emit_progress
  rcases hc : c.progress_throttler.consider now c.processed_bytes
      c.processed_entries (elapsed_ms now) with ⟨os, th⟩
  rcases os with _ | s
  · left; rfl
  · right
    exact ⟨s, rfl, rfl⟩

/-- `maybe_emit_progress` does not touch the counters. -/
theorem maybe_emit_counters (c : ProgCtx) (now : Nat) :
    (c.maybe_emit_progress now).processed_entries = c.processed_entries ∧
      (c.maybe_emit_progress now).processed_bytes = c.processed_bytes := by
  unfold ProgCtx.maybe_emit_progress
  rcases c.progress_throttler.consider now c.processed_bytes
      c.processed_entries (elapsed_ms now) with ⟨os, th⟩
  rcases os with _ | s <;> exact ⟨rfl, rfl⟩

/-- The monotonicity the code actually guarantees between successive
snapshots: strictly increasing `processed_entries`, non-decreasing
`processed_bytes`. -/
@[reducible]
def progMonotone (a b : ProgressSnapshot) : Prop :=
  a.processed_entries < b.processed_entries ∧
    a.processed_bytes ≤ b.processed_bytes

/-- The relation the claim asserts between successive snapshots: both
counters strictly increase. -/
@[reducible]
def progStrictBoth (a b : ProgressSnapshot) : Prop :=
  a.processed_entries < b.processed_entries ∧
    a.processed_bytes < b.processed_bytes

/-- The inductive invariant of the progress machine: the trace is monotone,
every snapshot's counters are bounded by the live counters, and the last
snapshot cannot agree on `processed_entries` while disagreeing on
`processed_bytes`. -/
def progInv (c : ProgCtx) : Prop :=
  List.Chain' progMonotone c.progress_events ∧
    (∀ s ∈ c.progress_events,
      s.processed_entries ≤ c.processed_entries ∧
        s.processed_bytes ≤ c.processed_bytes) ∧
    (∀ last, c.progress_events.getLast? = some last →
      last.processed_entries = c.processed_entries →
      last.processed_bytes = c.processed_bytes)

/-- Bumping the counters and consulting the throttler preserves the
invariant. -/
theorem maybe_emit_progInv (c : ProgCtx) (now : Nat)
    (hchain : List.Chain' progMonotone c.progress_events)
    (hbound : ∀ s ∈ c.progress_events,
      s.processed_entries < c.processed_entries ∧
        s.processed_bytes ≤ c.processed_bytes) :
    progInv (c.maybe_emit_progress now) := by
  obtain ⟨he, hb⟩ := maybe_emit_counters c now
  rcases maybe_emit_events c now with hev | ⟨s, hev, hs⟩
  · refine ⟨by rw [hev]; exact hchain, ?_, ?_⟩
    · intro s hsmem
      rw [hev] at hsmem
      exact ⟨by rw [he]; exact (hbound s hsmem).1.le, by rw [hb]; exact (hbound s hsmem).2⟩
    · intro last hlast hee
      rw [hev] at hlast
      have := (hbound last (List.mem_of_mem_getLast? (by rw [hlast]; rfl))).1
      rw [he] at hee
      omega
  · obtain ⟨_, hse, hsb⟩ := consider_emit_spec _ _ _ _ _ _ hs
    refine ⟨?_, ?_, ?_⟩
    · rw [hev]
      rw [List.chain'_append]
      refine ⟨hchain, List.chain'_singleton _, ?_⟩
      intro x hx y hy
      simp only [List.head?_cons, Option.mem_def, Option.some.injEq] at hy
      subst hy
      have hxmem := List.mem_of_mem_getLast? hx
      exact ⟨by rw [hse]; exact (hbound x hxmem).1, by rw [hsb]; exact (hbound x hxmem).2⟩
    · intro x hx
      rw [hev] at hx
      rcases List.mem_append.1 hx with h1 | h2
      · exact ⟨by rw [he]; exact (hbound x h1).1.le, by rw [hb]; exact (hbound x h1).2⟩
      · rcases List.mem_singleton.1 h2 with rfl
        exact ⟨by rw [he, hse], by rw [hb, hsb]⟩
    · intro last hlast _
      rw [hev, List.getLast?_concat] at hlast
      cases hlast
      rw [hb, hsb]

/-- One register call preserves the invariant, provided its counter
increments do not wrap. -/
theorem step_progInv (c : ProgCtx) (op : ProgOp) (h : progInv c)
    (hent : c.processed_entries + 1 ≤ U64MAX)
    (hbyte : c.processed_bytes + opsBytes [op] ≤ U64MAX) :
    progInv (c.step op) := by
  obtain ⟨hchain, hbound, _⟩ := h
  have hU : U64MAX = 2 ^ 64 - 1 := rfl
  cases op with
  | file size_bytes now =>
    have hob : opsBytes [ProgOp.file size_bytes now] = size_bytes := rfl
    rw [hob] at hbyte
    refine maybe_emit_progInv _ now hchain ?_
    intro s hs
    have := hbound s hs
    constructor
    · simp only
      omega
    · simp only
      omega
  | dir now =>
    refine maybe_emit_progInv _ now hchain ?_
    intro s hs
    have := hbound s hs
    constructor
    · simp only
      omega
    · simp only
      omega

/-- Replaying a sequence of register calls whose totals fit in `u64`
preserves the invariant. -/
theorem foldl_step_progInv (ops : List ProgOp) :
    ∀ c : ProgCtx, progInv c →
      c.processed_entries + ops.length ≤ U64MAX →
      c.processed_bytes + opsBytes ops ≤ U64MAX →
      progInv (ops.foldl ProgCtx.step c) := by
  induction ops with
  | nil => intro c h _ _; exact h
  | cons op rest ih =>
    intro c h hent hbyte
    have hU : U64MAX = 2 ^ 64 - 1 := rfl
    have hlen : (op :: rest).length = rest.length + 1 := rfl
    cases op with
    | file sz now =>
      have hob : opsBytes (ProgOp.file sz now :: rest) = sz + opsBytes rest :=
        rfl
      have h1 : c.processed_entries + 1 ≤ U64MAX := by omega
      have h2 : c.processed_bytes + opsBytes [ProgOp.file sz now] ≤ U64MAX := by
        have hob1 : opsBytes [ProgOp.file sz now] = sz := rfl
        omega
      have hstep := step_progInv c (.file sz now) h h1 h2
      have hce : (c.step (ProgOp.file sz now)).processed_entries =
          (c.processed_entries + 1) % 2 ^ 64 := (maybe_emit_counters _ now).1
      have hcb : (c.step (ProgOp.file sz now)).processed_bytes =
          (c.processed_bytes + sz) % 2 ^ 64 := (maybe_emit_counters _ now).2
      refine ih _ hstep ?_ ?_
      · rw [hce]
        omega
      · rw [hcb]
        omega
    | dir now =>
      have hob : opsBytes (ProgOp.dir now :: rest) = opsBytes rest := rfl
      have h1 : c.processed_entries + 1 ≤ U64MAX := by omega
      have h2 : c.processed_bytes + opsBytes [ProgOp.dir now] ≤ U64MAX := by
        have hob1 : opsBytes [ProgOp.dir now] = 0 := rfl
        omega
      have hstep := step_progInv c (.dir now) h h1 h2
      have hce : (c.step (ProgOp.dir now)).processed_entries =
          (c.processed_entries + 1) % 2 ^ 64 := (maybe_emit_counters _ now).1
      have hcb : (c.step (ProgOp.dir now)).processed_bytes =
          c.processed_bytes := (maybe_emit_counters _ now).2
      refine ih _ hstep ?_ ?_
      · rw [hce]
        omega
      · rw [hcb]
        omega

/-- The initial progress state satisfies the invariant. -/
theorem init_progInv (interval byte_trigger : Nat) :
    progInv (ProgCtx.init interval byte_trigger) := by
  refine ⟨List.chain'_nil, ?_, ?_⟩ <;> intro s hs <;> simp [ProgCtx.init] at hs

/-- The terminal snapshot `finalize_progress` builds. -/
def terminalSnapshot (c : ProgCtx) (fin : Nat) : ProgressSnapshot :=
  { timestamp_ms := elapsed_ms fin
    processed_entries := c.processed_entries
    processed_bytes := c.processed_bytes
    estimated_completion_ratio := some 1
    recent_throughput_bytes_per_sec :=
      c.progress_throttler.estimate_throughput fin c.processed_bytes }

/-- `finalize_progress` appends the terminal snapshot when the trace is empty
or its last snapshot differs from the current counters. -/
theorem finalize_progress_appends (c : ProgCtx) (fin : Nat)
    (hap : c.progress_events.getLast? = none ∨
      ∃ last, c.progress_events.getLast? = some last ∧
        (last.processed_entries ≠ c.processed_entries ∨
          last.processed_bytes ≠ c.processed_bytes)) :
    (c.finalize_progress fin).progress_events =
      c.progress_events ++ [terminalSnapshot c fin] := by
  unfold ProgCtx.finalize_progress ProgressThrottler.force_emit terminalSnapshot
  rcases hap with hl | ⟨last, hl, hd⟩
  · rw [hl]
    rfl
  · rw [hl]
    simp only [ne_eq, decide_eq_true (by exact hd), if_true]

/-- `finalize_progress` suppresses the terminal snapshot when the last
recorded snapshot already carries the current counters. -/
theorem finalize_progress_skips (c : ProgCtx) (fin : Nat)
    (last : ProgressSnapshot) (hl : c.progress_events.getLast? = some last)
    (he : last.processed_entries = c.processed_entries)
    (hb : last.processed_bytes = c.processed_bytes) :
    (c.finalize_progress fin).progress_events = c.progress_events := by
  unfold ProgCtx.finalize_progress ProgressThrottler.force_emit
  rw [hl]
  have hnd : ¬(last.processed_entries ≠ c.processed_entries ∨
      last.processed_bytes ≠ c.processed_bytes) := by
    push_neg
    exact ⟨he, hb⟩
  simp only [ne_eq, decide_eq_false (by exact hnd), if_false]
  rfl

/-- Number of snapshots in a trace marked with completion ratio `1.0`. -/
def completionCount (trace : List ProgressSnapshot) : Nat :=
  trace.countP (fun s => s.estimated_completion_ratio == some 1)

/-- The progress state at the end of the register calls, before
finalization. -/
def scanProgCtx (interval byte_trigger : Nat) (ops : List ProgOp) : ProgCtx :=
  ops.foldl ProgCtx.step (ProgCtx.init interval byte_trigger)

/-- Register calls only ever append ratio-unset snapshots. -/
theorem step_ratioFree (c : ProgCtx) (op : ProgOp)
    (h : ∀ s ∈ c.progress_events, s.estimated_completion_ratio = none) :
    ∀ s ∈ (c.step op).progress_events, s.estimated_completion_ratio = none := by
  have key : ∀ (c1 : ProgCtx) (now : Nat),
      c1.progress_events = c.progress_events →
      ∀ s ∈ (c1.maybe_emit_progress now).progress_events,
        s.estimated_completion_ratio = none := by
    intro c1 now hev s hs
    rcases maybe_emit_events c1 now with he | ⟨t, he, ht⟩
    · rw [he, hev] at hs
      exact h s hs
    · rw [he, hev] at hs
      rcases List.mem_append.1 hs with h1 | h2
      · exact h s h1
      · rcases List.mem_singleton.1 h2 with rfl
        exact (consider_emit_spec _ _ _ _ _ _ ht).1
  cases op with
  | file size_bytes now => exact key _ now rfl
  | dir now => exact key _ now rfl

/-- Replaying register calls preserves ratio-freeness of the trace. -/
theorem foldl_step_ratioFree (ops : List ProgOp) :
    ∀ c : ProgCtx,
      (∀ s ∈ c.progress_events, s.estimated_completion_ratio = none) →
      ∀ s ∈ (ops.foldl ProgCtx.step c).progress_events,
        s.estimated_completion_ratio = none := by
  induction ops with
  | nil => intro c h; exact h
  | cons op rest ih => intro c h; exact ih _ (step_ratioFree c op h)

/-- C7 (corrected): snapshots emitted by `consider` always carry an unset
completion ratio, and `force_emit` always returns a snapshot with ratio
`1.0`; the trace of a scan contains at most one such snapshot — exactly one
unless the terminal snapshot would repeat the last throttled snapshot's
counters, in which case `finalize_progress` suppresses it and the trace
contains none. -/
theorem C7_completion_marking (interval byte_trigger : Nat)
    (ops : List ProgOp) (fin : Nat) :
    completionCount (scanProgressTrace interval byte_trigger ops fin) ≤ 1 ∧
    (completionCount (scanProgressTrace interval byte_trigger ops fin) = 1 ↔
      ((scanProgCtx interval byte_trigger ops).progress_events.getLast? = none ∨
        ∃ last,
          (scanProgCtx interval byte_trigger ops).progress_events.getLast? =
            some last ∧
          (last.processed_entries ≠
              (scanProgCtx interval byte_trigger ops).processed_entries ∨
            last.processed_bytes ≠
              (scanProgCtx interval byte_trigger ops).processed_bytes))) ∧
    (∀ th now pb pe ts s,
      (ProgressThrottler.consider th now pb pe ts).1 = some s →
        s.estimated_completion_ratio = none) ∧
    (∀ th now pb pe ts, ∃ s,
      (ProgressThrottler.force_emit th now pb pe ts).1 = some s ∧
        s.estimated_completion_ratio = some 1) := by
  have hfree := foldl_step_ratioFree ops (ProgCtx.init interval byte_trigger)
    (by intro s hs; simp [ProgCtx.init] at hs)
  have hzero : completionCount
      (scanProgCtx interval byte_trigger ops).progress_events = 0 := by
    refine List.countP_eq_zero.2 ?_
    intro s hs
    simp [hfree s hs]
  have htrace : scanProgressTrace interval byte_trigger ops fin =
      ((scanProgCtx interval byte_trigger ops).finalize_progress fin).progress_events :=
    rfl
  set c := scanProgCtx interval byte_trigger ops with hcdef
  have hterm : completionCount [terminalSnapshot c fin] = 1 := by
    simp [completionCount, List.countP_cons, terminalSnapshot]
  have main : completionCount (scanProgressTrace interval byte_trigger ops fin) ≤ 1 ∧
      (completionCount (scanProgressTrace interval byte_trigger ops fin) = 1 ↔
        (c.progress_events.getLast? = none ∨
          ∃ last, c.progress_events.getLast? = some last ∧
            (last.processed_entries ≠ c.processed_entries ∨
              last.processed_bytes ≠ c.processed_bytes))) := by
    rcases hl : c.progress_events.getLast? with _ | last
    · rw [htrace, finalize_progress_appends c fin (Or.inl hl)]
      rw [completionCount, List.countP_append]
      rw [completionCount] at hzero hterm
      rw [hzero, hterm]
      exact ⟨le_refl 1, by simp⟩
    · by_cases hd : last.processed_entries ≠ c.processed_entries ∨
          last.processed_bytes ≠ c.processed_bytes
      · rw [htrace, finalize_progress_appends c fin (Or.inr ⟨last, hl, hd⟩)]
        rw [completionCount, List.countP_append]
        rw [completionCount] at hzero hterm
        rw [hzero, hterm]
        exact ⟨le_refl 1, by simp only [zero_add, true_iff]; exact Or.inr ⟨last, rfl, hd⟩⟩
      · push_neg at hd
        rw [htrace, finalize_progress_skips c fin last hl hd.1 hd.2]
        rw [hzero]
        refine ⟨Nat.zero_le 1, ?_⟩
        constructor
        · intro h01
          exact absurd h01 (by omega)
        · rintro (hnone | ⟨last', hl', hd'⟩)
          · cases hnone
          · rw [Option.some.injEq] at hl'
            subst hl'
            rcases hd' with h | h
            · exact absurd hd.1 h
            · exact absurd hd.2 h
  refine ⟨main.1, main.2, ?_, ?_⟩
  · intro th now pb pe ts s hs
    exact (consider_emit_spec th now pb pe ts s hs).1
  · intro th now pb pe ts
    obtain ⟨s, hs, hr, _, _⟩ := force_emit_spec th now pb pe ts
    exact ⟨s, hs, hr⟩

/-- Witness for C7: the inner hypotheses are satisfiable — an armed throttler
emits a ratio-unset snapshot once the interval has elapsed. -/
theorem C7_completion_marking_witness :
    ((ProgressThrottler.mk 100000000 65536 (some 0) 0).consider
        300000000 70000 3 300).1 =
      some { timestamp_ms := 300, processed_entries := 3, processed_bytes := 70000,
             estimated_completion_ratio := none,
             recent_throughput_bytes_per_sec := some 233333 } ∧
    ProgressSnapshot.estimated_completion_ratio
      { timestamp_ms := 300, processed_entries := 3, processed_bytes := 70000,
        estimated_completion_ratio := none,
        recent_throughput_bytes_per_sec := some 233333 } = none := by
  constructor
  · rfl
  · exact (C7_completion_marking 0 0 [] 0).2.2.1
      (ProgressThrottler.mk 100000000 65536 (some 0) 0) 300000000 70000 3 300 _
      (by rfl)

/-- C8 (corrected): along the progress trace of any scan that registers at
most `u64::MAX` entries and attributes at most `u64::MAX` total bytes (so
the wrapping `u64` counters never wrap), `processed_entries` strictly
increases from snapshot to snapshot and `processed_bytes` is non-decreasing
(directory registrations advance the entry counter without moving the byte
counter, so strict growth of `processed_bytes` does not hold). -/
theorem C8_progress_trace_monotone (interval byte_trigger : Nat)
    (ops : List ProgOp) (fin : Nat)
    (hent : ops.length ≤ U64MAX) (hbyte : opsBytes ops ≤ U64MAX) :
    List.Chain' progMonotone (scanProgressTrace interval byte_trigger ops fin) := by
  have h1 : (ProgCtx.init interval byte_trigger).processed_entries +
      ops.length ≤ U64MAX := by
    show 0 + ops.length ≤ U64MAX
    omega
  have h2 : (ProgCtx.init interval byte_trigger).processed_bytes +
      opsBytes ops ≤ U64MAX := by
    show 0 + opsBytes ops ≤ U64MAX
    omega
  have hinv := foldl_step_progInv ops (ProgCtx.init interval byte_trigger)
    (init_progInv interval byte_trigger) h1 h2
  have htrace : scanProgressTrace interval byte_trigger ops fin =
      (((ops.foldl ProgCtx.step (ProgCtx.init interval byte_trigger))).finalize_progress
        fin).progress_events := rfl
  set c := ops.foldl ProgCtx.step (ProgCtx.init interval byte_trigger) with hcdef
  obtain ⟨hchain, hbound, hlastcond⟩ := hinv
  rw [htrace]
  rcases hl : c.progress_events.getLast? with _ | last
  · rw [finalize_progress_appends c fin (Or.inl hl)]
    rw [List.getLast?_eq_none_iff.1 hl]
    exact List.chain'_singleton _
  · by_cases hd : last.processed_entries ≠ c.processed_entries ∨
        last.processed_bytes ≠ c.processed_bytes
    · rw [finalize_progress_appends c fin (Or.inr ⟨last, hl, hd⟩)]
      rw [List.chain'_append]
      refine ⟨hchain, List.chain'_singleton _, ?_⟩
      intro x hx y hy
      simp only [List.head?_cons, Option.mem_def, Option.some.injEq] at hy
      subst hy
      rw [Option.mem_def, hl, Option.some.injEq] at hx
      subst hx
      have hb := hbound last (List.mem_of_mem_getLast? (by rw [hl]; rfl))
      constructor
      · rcases Nat.lt_or_ge last.processed_entries c.processed_entries with hlt | hge
        · exact hlt
        · have heq : last.processed_entries = c.processed_entries :=
            Nat.le_antisymm hb.1 hge
          have hbe := hlastcond last hl heq
          rcases hd with h | h
          · exact absurd heq h
          · exact absurd hbe h
      · exact hb.2
    · push_neg at hd
      rw [finalize_progress_skips c fin last hl hd.1 hd.2]
      exact hchain

/-- Witness for C8 (corrected): the no-wrap side conditions hold of the
three-call scan below, and its trace is monotone in the stated sense. -/
theorem C8_progress_trace_monotone_witness :
    ([ProgOp.file 1000 0, ProgOp.dir 200000000, ProgOp.dir 400000000] :
      List ProgOp).length ≤ U64MAX ∧
    opsBytes [ProgOp.file 1000 0, ProgOp.dir 200000000,
      ProgOp.dir 400000000] ≤ U64MAX ∧
    List.Chain' progMonotone (scanProgressTrace 100000000 U64MAX
      [ProgOp.file 1000 0, ProgOp.dir 200000000, ProgOp.dir 400000000]
      500000000) :=
  ⟨by decide, by decide,
    C8_progress_trace_monotone 100000000 U64MAX
      [ProgOp.file 1000 0, ProgOp.dir 200000000, ProgOp.dir 400000000]
      500000000 (by decide) (by decide)⟩

/-- Counterexample for C8 as stated: a scan whose second and third register
calls are directory finalizations produces two successive snapshots with
identical `processed_bytes`, so the trace is not strictly monotone in both
counters. -/
theorem C8_counterexample :
    ¬ List.Chain' progStrictBoth
      (scanProgressTrace 100000000 U64MAX
        [ProgOp.file 1000 0, ProgOp.dir 200000000, ProgOp.dir 400000000]
        500000000) := by
  intro h
  have ht : scanProgressTrace 100000000 U64MAX
      [ProgOp.file 1000 0, ProgOp.dir 200000000, ProgOp.dir 400000000]
      500000000 =
    [ { timestamp_ms := 200, processed_entries := 2, processed_bytes := 1000,
        estimated_completion_ratio := none,
        recent_throughput_bytes_per_sec := some 0 },
      { timestamp_ms := 400, processed_entries := 3, processed_bytes := 1000,
        estimated_completion_ratio := none,
        recent_throughput_bytes_per_sec := some 0 } ] := by decide
  rw [ht] at h
  have hr := (List.chain'_cons.1 h).1
  exact absurd hr.2 (by decide)

/-- Counterexample for C7 as stated: when the last throttled snapshot already
carries the final counters, `finalize_progress` suppresses the terminal
snapshot and the trace contains no snapshot with completion ratio `1.0`. -/
theorem C7_counterexample :
    completionCount (scanProgressTrace 100000000 U64MAX
      [ProgOp.file 10 0, ProgOp.file 10 200000000] 300000000) = 0 := by
  decide

/-! ## Claim C10: the memory sink -/

/-- Path-keyed lookup in the sink's entry map. -/
def msLookup (al : List DirectoryEntry) (p : String) : Option DirectoryEntry :=
  match al with
  | [] => none
  | x :: rest => if x.path = p then some x else msLookup rest p

/-- The last entry of `es` recorded for path `p` (the claim's "last entry
recorded for that path"). -/
def lastFor (es : List DirectoryEntry) (p : String) : Option DirectoryEntry :=
  es.foldl (fun acc e => if e.path = p then some e else acc) none

theorem msLookup_msInsert (al : List DirectoryEntry) (e : DirectoryEntry)
    (p : String) :
    msLookup (msInsert al e) p = if e.path = p then some e else msLookup al p := by
  induction al with
  | nil => simp [msInsert, msLookup]
  | cons x rest ih =>
    simp only [msInsert]
    by_cases hx : x.path = e.path
    · rw [if_pos hx]
      by_cases hp : e.path = p
      · simp [msLookup, hp]
      · have hxp : x.path ≠ p := by rw [hx]; exact hp
        simp [msLookup, hp, hxp]
    · rw [if_neg hx]
      by_cases hxp : x.path = p
      · have hep : e.path ≠ p := fun h => hx (hxp.trans h.symm)
        simp [msLookup, hxp, hep]
      · simp [msLookup, hxp, ih]

theorem mem_paths_msInsert (al : List DirectoryEntry) (e : DirectoryEntry)
    (p : String) :
    p ∈ (msInsert al e).map (fun x => x.path) ↔
      p ∈ al.map (fun x => x.path) ∨ p = e.path := by
  induction al with
  | nil => simp [msInsert, eq_comm]
  | cons x rest ih =>
    simp only [msInsert]
    by_cases hx : x.path = e.path
    · rw [if_pos hx]
      simp [hx, eq_comm, or_comm]
    · rw [if_neg hx]
      simp only [List.map_cons, List.mem_cons, ih]
      tauto

theorem nodup_paths_msInsert (al : List DirectoryEntry) (e : DirectoryEntry)
    (h : (al.map (fun x => x.path)).Nodup) :
    ((msInsert al e).map (fun x => x.path)).Nodup := by
  induction al with
  | nil => simp [msInsert]
  | cons x rest ih =>
    simp only [List.map_cons, List.nodup_cons] at h
    simp only [msInsert]
    by_cases hx : x.path = e.path
    · rw [if_pos hx]
      simp only [List.map_cons, List.nodup_cons]
      exact ⟨by rw [← hx]; exact h.1, h.2⟩
    · rw [if_neg hx]
      simp only [List.map_cons, List.nodup_cons]
      refine ⟨?_, ih h.2⟩
      rw [mem_paths_msInsert]
      rintro (hmem | heq)
      · exact h.1 hmem
      · exact hx heq

theorem lastFor_cons (e : DirectoryEntry) (es : List DirectoryEntry)
    (p : String) :
    lastFor (e :: es) p =
      match lastFor es p with
      | some x => some x
      | none => if e.path = p then some e else none := by
  have general : ∀ (l : List DirectoryEntry) (a : Option DirectoryEntry),
      l.foldl (fun acc x => if x.path = p then some x else acc) a =
        match l.foldl (fun acc x => if x.path = p then some x else acc) none with
        | some x => some x
        | none => a := by
    intro l
    induction l with
    | nil => intro a; rfl
    | cons x rest ih =>
      intro a
      simp only [List.foldl_cons]
      rw [ih (if x.path = p then some x else a),
        ih (if x.path = p then some x else none)]
      rcases hF : rest.foldl (fun acc x => if x.path = p then some x else acc) none
          with _ | y <;> rw [hF] <;>
        first
        | rfl
        | (by_cases hx : x.path = p <;> simp [hx])
  unfold lastFor
  simp only [List.foldl_cons]
  exact general es (if e.path = p then some e else none)

theorem msLookup_foldl_record (es : List DirectoryEntry) :
    ∀ (s : MemorySink) (p : String),
      msLookup (es.foldl MemorySink.record_entry s).entries p =
        match lastFor es p with
        | some e => some e
        | none => msLookup s.entries p := by
  induction es with
  | nil => intro s p; rfl
  | cons e rest ih =>
    intro s p
    simp only [List.foldl_cons]
    rw [ih (s.record_entry e) p, lastFor_cons]
    have hrec : (s.record_entry e).entries = msInsert s.entries e := rfl
    rcases lastFor rest p with _ | y
    · rw [hrec, msLookup_msInsert]
      by_cases hx : e.path = p <;> simp [hx]
    · rfl

theorem nodup_paths_foldl_record (es : List DirectoryEntry) :
    ∀ s : MemorySink, (s.entries.map (fun x => x.path)).Nodup →
      (((es.foldl MemorySink.record_entry s).entries).map (fun x => x.path)).Nodup := by
  induction es with
  | nil => intro s h; exact h
  | cons e rest ih =>
    intro s h
    exact ih (s.record_entry e) (nodup_paths_msInsert s.entries e h)

theorem toFinset_paths_foldl_record (es : List DirectoryEntry) :
    ∀ s : MemorySink,
      (((es.foldl MemorySink.record_entry s).entries).map (fun x => x.path)).toFinset =
        (s.entries.map (fun x => x.path)).toFinset ∪
          (es.map (fun x => x.path)).toFinset := by
  induction es with
  | nil => intro s; simp
  | cons e rest ih =>
    intro s
    simp only [List.foldl_cons]
    rw [ih (s.record_entry e)]
    have hrec : (s.record_entry e).entries = msInsert s.entries e := rfl
    rw [hrec]
    ext q
    simp only [Finset.mem_union, List.mem_toFinset, mem_paths_msInsert,
      List.map_cons, List.mem_cons]
    tauto

theorem entry_count_foldl_record (es : List DirectoryEntry) :
    ∀ s : MemorySink, s.entry_count ≤ U64MAX →
      (es.foldl MemorySink.record_entry s).entry_count =
        min (s.entry_count + es.length) U64MAX := by
  induction es with
  | nil =>
    intro s h
    simp only [List.foldl_nil, List.length_nil, Nat.add_zero]
    omega
  | cons e rest ih =>
    intro s h
    simp only [List.foldl_cons, List.length_cons]
    have hrec : (s.record_entry e).entry_count = satAdd64 s.entry_count 1 := rfl
    rw [ih (s.record_entry e) (by rw [hrec]; unfold satAdd64; omega)]
    rw [hrec]
    unfold satAdd64
    omega

theorem mem_iff_msLookup (al : List DirectoryEntry)
    (h : (al.map (fun x => x.path)).Nodup) (e : DirectoryEntry) :
    e ∈ al ↔ msLookup al e.path = some e := by
  induction al with
  | nil => simp [msLookup]
  | cons x rest ih =>
    simp only [List.map_cons, List.nodup_cons] at h
    simp only [List.mem_cons, msLookup]
    by_cases hx : x.path = e.path
    · rw [if_pos hx]
      constructor
      · rintro (rfl | hmem)
        · rfl
        · exact absurd (by rw [hx]; exact List.mem_map_of_mem _ hmem) h.1
      · intro hsome
        rw [Option.some.injEq] at hsome
        exact Or.inl hsome.symm
    · rw [if_neg hx]
      rw [← ih h.2]
      constructor
      · rintro (rfl | hmem)
        · exact absurd rfl hx
        · exact hmem
      · exact Or.inr

/-- The number of entries `finish` returns is the number of distinct recorded
paths. -/
theorem finish_entries_length (es : List DirectoryEntry) :
    ((es.foldl MemorySink.record_entry MemorySink.new).finish.entries).length =
      ((es.map (fun e => e.path)).toFinset).card := by
  have hlen : ((es.foldl MemorySink.record_entry MemorySink.new).finish.entries).length =
      ((es.foldl MemorySink.record_entry MemorySink.new).entries).length := by
    unfold MemorySink.finish
    exact List.length_mergeSort _
  rw [hlen]
  have hnodup := nodup_paths_foldl_record es MemorySink.new (by simp [MemorySink.new])
  have hfin := toFinset_paths_foldl_record es MemorySink.new
  have hnew : MemorySink.new.entries = ([] : List DirectoryEntry) := rfl
  rw [hnew] at hfin
  simp only [List.map_nil, List.toFinset_nil, Finset.empty_union] at hfin
  have hcard : (((es.foldl MemorySink.record_entry MemorySink.new).entries).map
      (fun x => x.path)).toFinset.card =
      (((es.foldl MemorySink.record_entry MemorySink.new).entries).map
        (fun x => x.path)).length := by
    rw [List.card_toFinset, List.dedup_eq_self.2 hnodup]
  rw [← hfin, hcard, List.length_map]

/-- The entry count `finish` reports is the saturating number of
`record_entry` calls. -/
theorem finish_entry_count (es : List DirectoryEntry) :
    (es.foldl MemorySink.record_entry MemorySink.new).finish.entry_count =
      min es.length U64MAX := by
  have h := entry_count_foldl_record es MemorySink.new (Nat.zero_le _)
  have hfin : (es.foldl MemorySink.record_entry MemorySink.new).finish.entry_count =
      (es.foldl MemorySink.record_entry MemorySink.new).entry_count := rfl
  rw [hfin, h]
  simp [MemorySink.new]

/-- C10 (corrected): `finish` returns one entry per distinct recorded path —
the last entry recorded for that path — sorted by path; the reported
`entry_count` is the saturating number of `record_entry` calls; and whenever
two calls share a path *and the number of calls does not exceed `u64::MAX`*,
`entry_count` strictly exceeds the number of returned entries. -/
theorem C10_memory_sink_finish (es : List DirectoryEntry) :
    List.Pairwise (fun a b => a.path ≤ b.path)
      ((es.foldl MemorySink.record_entry MemorySink.new).finish.entries) ∧
    (((es.foldl MemorySink.record_entry MemorySink.new).finish.entries).map
        (fun e => e.path)).Nodup ∧
    (∀ e, e ∈ (es.foldl MemorySink.record_entry MemorySink.new).finish.entries ↔
      lastFor es e.path = some e) ∧
    (es.foldl MemorySink.record_entry MemorySink.new).finish.entry_count =
      min es.length U64MAX ∧
    ((es.foldl MemorySink.record_entry MemorySink.new).finish.entries).length =
      ((es.map (fun e => e.path)).toFinset).card ∧
    (¬ (es.map (fun e => e.path)).Nodup → es.length ≤ U64MAX →
      ((es.foldl MemorySink.record_entry MemorySink.new).finish.entries).length <
        (es.foldl MemorySink.record_entry MemorySink.new).finish.entry_count) := by
  have hnodup := nodup_paths_foldl_record es MemorySink.new (by simp [MemorySink.new])
  have htrans : ∀ a b c : DirectoryEntry,
      decide (a.path ≤ b.path) = true → decide (b.path ≤ c.path) = true →
      decide (a.path ≤ c.path) = true := by
    intro a b c hab hbc
    exact decide_eq_true (le_trans (of_decide_eq_true hab) (of_decide_eq_true hbc))
  have htotal : ∀ a b : DirectoryEntry,
      (decide (a.path ≤ b.path) || decide (b.path ≤ a.path)) = true := by
    intro a b
    rcases le_total a.path b.path with h | h
    · rw [decide_eq_true h, Bool.true_or]
    · rw [decide_eq_true h, Bool.or_true]
  have hsorted : List.Pairwise (fun a b => a.path ≤ b.path)
      ((es.foldl MemorySink.record_entry MemorySink.new).finish.entries) := by
    have hs := List.sorted_mergeSort htrans htotal
      ((es.foldl MemorySink.record_entry MemorySink.new).entries)
    exact List.Pairwise.imp (fun h => of_decide_eq_true h) hs
  have hmemnodup : (((es.foldl MemorySink.record_entry MemorySink.new).finish.entries).map
      (fun e => e.path)).Nodup := by
    unfold MemorySink.finish
    exact ((List.mergeSort_perm
      ((es.foldl MemorySink.record_entry MemorySink.new).entries)
      (fun a b => decide (a.path ≤ b.path))).map
        (fun e : DirectoryEntry => e.path)).nodup_iff.2 hnodup
  have hmem : ∀ e, e ∈ (es.foldl MemorySink.record_entry MemorySink.new).finish.entries ↔
      lastFor es e.path = some e := by
    intro e
    have h1 : e ∈ (es.foldl MemorySink.record_entry MemorySink.new).finish.entries ↔
        e ∈ (es.foldl MemorySink.record_entry MemorySink.new).entries := by
      unfold MemorySink.finish
      exact List.mem_mergeSort
    rw [h1, mem_iff_msLookup _ hnodup, msLookup_foldl_record es MemorySink.new e.path]
    rcases lastFor es e.path with _ | y
    · simp [MemorySink.new, msLookup]
    · simp
  refine ⟨hsorted, hmemnodup, hmem, finish_entry_count es, finish_entries_length es, ?_⟩
  intro hdup hlen
  rw [finish_entry_count es, finish_entries_length es]
  have hmin : min es.length U64MAX = es.length := Nat.min_eq_left hlen
  rw [hmin]
  have hsub := List.dedup_sublist (es.map (fun e => e.path))
  have hle := hsub.length_le
  have hlt : ((es.map (fun e => e.path)).dedup).length <
      (es.map (fun e => e.path)).length := by
    rcases Nat.lt_or_ge ((es.map (fun e => e.path)).dedup).length
        ((es.map (fun e => e.path)).length) with h | h
    · exact h
    · have heq := hsub.eq_of_length (Nat.le_antisymm hle h)
      exact absurd (heq ▸ List.nodup_dedup (es.map (fun e => e.path))) hdup
  rw [List.card_toFinset]
  calc ((es.map (fun e => e.path)).dedup).length
      < (es.map (fun e => e.path)).length := hlt
    _ = es.length := List.length_map _ _

/-- Distinct paths for the C10 counterexample: `n` repetitions of `a`. -/
def c10path (n : Nat) : String := String.mk (List.replicate n 'a')

def c10entry (n : Nat) : DirectoryEntry :=
  { path := c10path n, parent_path := none, depth := 0, size_bytes := 0,
    file_count := 0, dir_count := 0 }

/-- `u64::MAX` distinct paths followed by one repeat: `2^64` calls in all. -/
def c10calls : List DirectoryEntry :=
  (List.range U64MAX).map c10entry ++ [c10entry 0]

theorem c10path_injective : Function.Injective c10path := by
  intro a b h
  have hdata : List.replicate a 'a' = List.replicate b 'a' := congrArg String.data h
  have := congrArg List.length hdata
  simpa using this

/-- Counterexample for C10 as stated: after `2^64` record calls with one
repeated path, the saturating `entry_count` equals `u64::MAX`, which is
exactly the number of distinct paths, so it does not strictly exceed the
number of returned entries despite a shared path. -/
theorem C10_counterexample :
    ¬ (c10calls.map (fun e => e.path)).Nodup ∧
      (c10calls.foldl MemorySink.record_entry MemorySink.new).finish.entry_count =
        ((c10calls.foldl MemorySink.record_entry MemorySink.new).finish.entries).length := by
  have hpaths : c10calls.map (fun e => e.path) =
      (List.range U64MAX).map c10path ++ [c10path 0] := by
    unfold c10calls
    rw [List.map_append, List.map_map]
    rfl
  have hzero_mem : c10path 0 ∈ (List.range U64MAX).map c10path :=
    List.mem_map_of_mem c10path (List.mem_range.2 (by norm_num [U64MAX]))
  constructor
  · rw [hpaths]
    intro hnd
    rw [List.nodup_append] at hnd
    exact hnd.2.2 hzero_mem (List.mem_singleton_self _)
  · have hlen : c10calls.length = U64MAX + 1 := by
      unfold c10calls
      rw [List.length_append, List.length_map, List.length_range]
      rfl
    rw [finish_entry_count, finish_entries_length, hlen, hpaths]
    have htof : ((List.range U64MAX).map c10path ++ [c10path 0]).toFinset =
        ((List.range U64MAX).map c10path).toFinset := by
      rw [List.toFinset_append]
      have : ([c10path 0] : List String).toFinset = {c10path 0} := rfl
      rw [this]
      rw [Finset.union_eq_left]
      rw [Finset.singleton_subset_iff, List.mem_toFinset]
      exact hzero_mem
    rw [htof]
    have hnd : ((List.range U64MAX).map c10path).Nodup :=
      (List.nodup_range U64MAX).map c10path_injective
    rw [List.card_toFinset, List.dedup_eq_self.2 hnd, List.length_map,
      List.length_range]
    omega

/-! ## Claims C5 and C6: the snapshot codec -/

/-- Classifying the rows of an entries batch: every row repeats the five
metadata columns and has all error columns null. -/
theorem create_entries_batch_rows (meta : SnapshotMeta)
    (entries : List DirectoryEntry) :
    ∀ row ∈ create_entries_batch entries meta,
      row.meta_scan_root = some meta.scan_root ∧
      row.meta_started_at = some meta.started_at ∧
      row.meta_finished_at = some meta.finished_at ∧
      row.meta_size_basis = some meta.size_basis ∧
      row.meta_hardlink_policy = some meta.hardlink_policy ∧
      row.error_path = none ∧ row.error_code = none ∧ row.error_message = none := by
  intro row hrow
  rcases List.mem_map.1 hrow with ⟨e, _, rfl⟩
  exact ⟨rfl, rfl, rfl, rfl, rfl, rfl, rfl, rfl⟩

/-- Classifying the rows of an errors batch: all entry and metadata columns
are null. -/
theorem create_errors_batch_rows (errors : List ErrorItem) :
    ∀ row ∈ create_errors_batch errors,
      row.path = none ∧ row.parent_path = none ∧ row.depth = none ∧
      row.size_bytes = none ∧ row.file_count = none ∧ row.dir_count = none ∧
      row.meta_scan_root = none ∧ row.meta_started_at = none ∧
      row.meta_finished_at = none ∧ row.meta_size_basis = none ∧
      row.meta_hardlink_policy = none := by
  intro row hrow
  rcases List.mem_map.1 hrow with ⟨err, _, rfl⟩
  exact ⟨rfl, rfl, rfl, rfl, rfl, rfl, rfl, rfl, rfl, rfl, rfl⟩

/-- A metadata-only row: no entry path, no error path, metadata present. -/
def isMetadataOnlyRow (row : SnapRow) : Bool :=
  row.path = none ∧ row.error_path = none ∧ row.meta_scan_root ≠ none

/-- C6 (corrected): the cited writer's schema has fourteen nullable columns —
six entry fields, five metadata fields (there is no strategy column) and
three error fields; entry rows repeat the metadata values rather than leaving
them null, error rows leave the entry and metadata columns null, and a
metadata-only row is written exactly when both entries and errors are
empty. -/
theorem C6_snapshot_schema (meta : SnapshotMeta) (entries : List DirectoryEntry)
    (errors : List ErrorItem) :
    snapshotSchemaFields.length = 14 ∧
    (∀ f ∈ snapshotSchemaFields, f.nullable = true) ∧
    (∀ f ∈ snapshotSchemaFields, f.name ≠ "meta_strategy") ∧
    (∀ row ∈ create_entries_batch entries meta,
      row.meta_scan_root = some meta.scan_root ∧
      row.meta_started_at = some meta.started_at ∧
      row.meta_finished_at = some meta.finished_at ∧
      row.meta_size_basis = some meta.size_basis ∧
      row.meta_hardlink_policy = some meta.hardlink_policy ∧
      row.error_path = none ∧ row.error_code = none ∧ row.error_message = none) ∧
    (∀ row ∈ create_errors_batch errors,
      row.path = none ∧ row.parent_path = none ∧ row.depth = none ∧
      row.size_bytes = none ∧ row.file_count = none ∧ row.dir_count = none ∧
      row.meta_scan_root = none ∧ row.meta_started_at = none ∧
      row.meta_finished_at = none ∧ row.meta_size_basis = none ∧
      row.meta_hardlink_policy = none) ∧
    ((write_snapshot meta entries errors).flatten.filter isMetadataOnlyRow).length =
      (if entries = [] ∧ errors = [] then 1 else 0) := by
  refine ⟨rfl, by decide, by decide, create_entries_batch_rows meta entries,
    create_errors_batch_rows errors, ?_⟩
  have hentries : (create_entries_batch entries meta).filter isMetadataOnlyRow = [] := by
    rw [List.filter_eq_nil_iff]
    intro row hrow
    rcases List.mem_map.1 hrow with ⟨e, _, rfl⟩
    simp [isMetadataOnlyRow, entryRow]
  have herrors : (create_errors_batch errors).filter isMetadataOnlyRow = [] := by
    rw [List.filter_eq_nil_iff]
    intro row hrow
    rcases List.mem_map.1 hrow with ⟨err, _, rfl⟩
    simp [isMetadataOnlyRow, errorRow]
  have hmetarow : (create_metadata_batch meta).filter isMetadataOnlyRow =
      create_metadata_batch meta := by
    simp [create_metadata_batch, List.filter, isMetadataOnlyRow]
  have hlen1 : (create_metadata_batch meta).length = 1 := rfl
  by_cases he : entries = [] <;> by_cases hr : errors = [] <;>
    simp [write_snapshot, he, hr, hentries, herrors, hmetarow, hlen1]

/-- Counterexample for C6 as stated: the schema has fourteen columns, none of
them a strategy column, and the first row of an entries batch carries the
metadata (its scan-root column is non-null), contradicting both the
fifteen-column schema and the column-disjointness of entry rows. -/
theorem C6_counterexample :
    snapshotSchemaFields.length ≠ 15 ∧
    ((create_entries_batch
        [{ path := "/r/a", parent_path := some "/r", depth := 1, size_bytes := 3,
           file_count := 0, dir_count := 0 }]
        { scan_root := "/r", started_at := "s", finished_at := "f",
          size_basis := "logical", hardlink_policy := "count", excludes := [],
          strategy := "legacy" }).map
      (fun row => row.meta_scan_root)) = [some "/r"] := by
  constructor
  · decide
  · rfl

/-- Reading back an entries batch reconstructs the entries in order, provided
no entry has an empty path (such rows are silently skipped by the reader). -/
theorem readRows_entries_batch (meta : SnapshotMeta)
    (entries : List DirectoryEntry) (hpaths : ∀ e ∈ entries, e.path ≠ "") :
    ∀ es0 errs0, readRows (create_entries_batch entries meta) es0 errs0 =
      .ok (es0 ++ entries, errs0) := by
  induction entries with
  | nil => intro es0 errs0; simp [create_entries_batch, readRows]
  | cons e rest ih =>
    intro es0 errs0
    have hp : e.path ≠ "" := hpaths e (List.mem_cons_self e rest)
    have hcons : create_entries_batch (e :: rest) meta =
        entryRow meta e :: create_entries_batch rest meta := rfl
    have hstep : readRows (entryRow meta e :: create_entries_batch rest meta)
        es0 errs0 =
      if e.path ≠ "" then
        readRows (create_entries_batch rest meta) (es0 ++ [e]) errs0
      else readRows (create_entries_batch rest meta) es0 errs0 := rfl
    rw [hcons, hstep, if_pos hp,
      ih (fun x hx => hpaths x (List.mem_cons_of_mem e hx)) (es0 ++ [e]) errs0]
    simp

/-- Reading back an errors batch reconstructs the errors in order. -/
theorem readRows_errors_batch (errors : List ErrorItem) :
    ∀ es0 errs0, readRows (create_errors_batch errors) es0 errs0 =
      .ok (es0, errs0 ++ errors) := by
  induction errors with
  | nil => intro es0 errs0; simp [create_errors_batch, readRows]
  | cons err rest ih =>
    intro es0 errs0
    have hcons : create_errors_batch (err :: rest) =
        errorRow err :: create_errors_batch rest := rfl
    have hstep : readRows (errorRow err :: create_errors_batch rest) es0 errs0 =
        readRows (create_errors_batch rest) es0 (errs0 ++ [err]) := rfl
    rw [hcons, hstep, ih es0 (errs0 ++ [err])]
    simp

/-- The metadata value the reader reconstructs from a snapshot written for
`meta`: the five persisted string columns, `excludes` reset to empty. -/
def metaRead (meta : SnapshotMeta) : SnapshotMetaRead :=
  { scan_root := meta.scan_root
    started_at := meta.started_at
    finished_at := meta.finished_at
    size_basis := meta.size_basis
    hardlink_policy := meta.hardlink_policy
    excludes := [] }

/-- C5 (corrected): provided at least one entry is present or the error list
is empty — otherwise the first batch carries no metadata columns and the read
fails — and no entry has an empty path, reading back the written snapshot
succeeds, returning the entries in order, the errors in sequence, and the
metadata restricted to the five persisted columns (`excludes` comes back
empty; the cited writer persists no strategy column). -/
theorem C5_snapshot_roundtrip (meta : SnapshotMeta)
    (entries : List DirectoryEntry) (errors : List ErrorItem)
    (hne : entries ≠ [] ∨ errors = [])
    (hpaths : ∀ e ∈ entries, e.path ≠ "") :
    read_snapshot (write_snapshot meta entries errors) =
      .ok (metaRead meta, entries, errors) := by
  rcases entries with _ | ⟨e, es'⟩
  · have herr : errors = [] := by
      rcases hne with h | h
      · exact absurd rfl h
      · exact h
    subst herr
    rfl
  · rcases errors with _ | ⟨err, errs'⟩
    · have hw : write_snapshot meta (e :: es') [] =
          [create_entries_batch (e :: es') meta] := by
        simp [write_snapshot]
      rw [hw]
      have hb : readBatches [create_entries_batch (e :: es') meta] none [] [] =
          match readRows (create_entries_batch (e :: es') meta) [] [] with
          | .error msg => .error msg
          | .ok (es1, errs1) => readBatches [] (some (metaRead meta)) es1 errs1 := rfl
      rw [show read_snapshot [create_entries_batch (e :: es') meta] =
          readBatches [create_entries_batch (e :: es') meta] none [] [] from rfl]
      rw [hb, readRows_entries_batch meta (e :: es') hpaths [] []]
      rfl
    · have hw : write_snapshot meta (e :: es') (err :: errs') =
          [create_entries_batch (e :: es') meta,
            create_errors_batch (err :: errs')] := by
        simp [write_snapshot]
      rw [hw]
      have hb1 : readBatches [create_entries_batch (e :: es') meta,
            create_errors_batch (err :: errs')] none [] [] =
          match readRows (create_entries_batch (e :: es') meta) [] [] with
          | .error msg => .error msg
          | .ok (es1, errs1) =>
            readBatches [create_errors_batch (err :: errs')]
              (some (metaRead meta)) es1 errs1 := rfl
      rw [show read_snapshot [create_entries_batch (e :: es') meta,
            create_errors_batch (err :: errs')] =
          readBatches [create_entries_batch (e :: es') meta,
            create_errors_batch (err :: errs')] none [] [] from rfl]
      rw [hb1, readRows_entries_batch meta (e :: es') hpaths [] []]
      show readBatches [create_errors_batch (err :: errs')]
          (some (metaRead meta)) ([] ++ (e :: es')) [] =
        Except.ok (metaRead meta, e :: es', err :: errs')
      have hb2 : readBatches [create_errors_batch (err :: errs')]
            (some (metaRead meta)) ([] ++ (e :: es')) [] =
          match readRows (create_errors_batch (err :: errs')) ([] ++ (e :: es')) [] with
          | .error msg => .error msg
          | .ok (es1, errs1) => readBatches [] (some (metaRead meta)) es1 errs1 := rfl
      rw [hb2, readRows_errors_batch (err :: errs') ([] ++ (e :: es')) []]
      rfl

/-- Concrete data for the C5 witness and counterexample. -/
def c5meta : SnapshotMeta :=
  { scan_root := "/r", started_at := "s", finished_at := "f",
    size_basis := "logical", hardlink_policy := "count", excludes := [],
    strategy := "legacy" }

def c5entryA : DirectoryEntry :=
  { path := "/r/a", parent_path := some "/r", depth := 1, size_bytes := 3,
    file_count := 0, dir_count := 0 }

def c5err : ErrorItem :=
  { path := "/r/x", code := "EACCES", message := "denied" }

/-- Witness for C5: a one-entry, one-error snapshot round-trips. -/
theorem C5_snapshot_roundtrip_witness :
    (([c5entryA] : List DirectoryEntry) ≠ [] ∨ ([c5err] : List ErrorItem) = []) ∧
    (∀ e ∈ ([c5entryA] : List DirectoryEntry), e.path ≠ "") ∧
    read_snapshot (write_snapshot c5meta [c5entryA] [c5err]) =
      .ok (metaRead c5meta, [c5entryA], [c5err]) :=
  ⟨Or.inl (by decide), by decide,
    C5_snapshot_roundtrip _ _ _ (Or.inl (by decide)) (by decide)⟩

/-- Counterexample for C5 as stated: with no entries and a non-empty error
list, the only batch written is the errors batch, whose metadata columns are
all null, so reading the file back fails instead of returning the three
collections. -/
theorem C5_counterexample :
    read_snapshot (write_snapshot c5meta [] [c5err]) =
      .error "Missing scan_root" := by
  rfl

/-! ## Claim C9: the depth limit bounds emission -/

theorem alInsert_mem (m : List (List String × DirectoryEntry))
    (k : List String) (v : DirectoryEntry) :
    ∀ kv ∈ alInsert m k v, kv ∈ m ∨ kv = (k, v) := by
  induction m with
  | nil => intro kv hkv; simp [alInsert] at hkv; exact Or.inr hkv
  | cons x rest ih =>
    intro kv hkv
    simp only [alInsert] at hkv
    by_cases hx : x.1 = k
    · rw [if_pos hx] at hkv
      rcases List.mem_cons.1 hkv with h | h
      · exact Or.inr h
      · exact Or.inl (List.mem_cons_of_mem x h)
    · rw [if_neg hx] at hkv
      rcases List.mem_cons.1 hkv with h | h
      · exact Or.inl (h ▸ List.mem_cons_self x rest)
      · rcases ih kv h with h1 | h1
        · exact Or.inl (List.mem_cons_of_mem x h1)
        · exact Or.inr h1

/-- How the traversal context can evolve inside a walk with limit `k`: the
options, limit and root device are untouched, and every new entry lies within
the limit. -/
def ctxGrowth (k : Nat) (c c' : TraversalContext) : Prop :=
  c'.max_depth = c.max_depth ∧
  c'.options = c.options ∧
  c'.root_device = c.root_device ∧
  ∀ kv ∈ c'.entries, kv ∈ c.entries ∨ kv.2.depth ≤ k

theorem ctxGrowth_refl (k : Nat) (c : TraversalContext) : ctxGrowth k c c :=
  ⟨rfl, rfl, rfl, fun _ h => Or.inl h⟩

theorem ctxGrowth_trans {k : Nat} {a b c : TraversalContext}
    (h1 : ctxGrowth k a b) (h2 : ctxGrowth k b c) : ctxGrowth k a c := by
  refine ⟨h2.1.trans h1.1, h2.2.1.trans h1.2.1, h2.2.2.1.trans h1.2.2.1, ?_⟩
  intro kv hkv
  rcases h2.2.2.2 kv hkv with h | h
  · exact h1.2.2.2 kv h
  · exact Or.inr h

theorem ctxGrowth_record_error (k : Nat) (c : TraversalContext)
    (p : List String) (e : IoErr) : ctxGrowth k c (c.record_error p e) :=
  ⟨rfl, rfl, rfl, fun _ h => Or.inl h⟩

theorem ctxGrowth_should_count (k : Nat) (c : TraversalContext) (m : Meta) :
    ctxGrowth k c (c.should_count_file m).2 := by
  unfold TraversalContext.should_count_file
  rcases c.options.hardlink_policy with _ | _
  · rcases hf : m.fid with _ | id
    · exact ctxGrowth_refl k c
    · by_cases hmem : id ∈ c.seen_inodes
      · simp only [hf, if_pos hmem]
        exact ctxGrowth_refl k c
      · simp only [hf, if_neg hmem]
        exact ⟨rfl, rfl, rfl, fun _ h => Or.inl h⟩
  · exact ctxGrowth_refl k c

theorem ctxGrowth_insert (k : Nat) (c : TraversalContext) (p : List String)
    (v : DirectoryEntry) (hv : v.depth ≤ k) :
    ctxGrowth k c (c.insert_entry p v) := by
  refine ⟨rfl, rfl, rfl, ?_⟩
  intro kv hkv
  rcases alInsert_mem c.entries p v kv hkv with h | h
  · exact Or.inl h
  · rw [h]
    exact Or.inr hv


/-- Unfolding of `traverse_recursive` on a node (the recursion is structural,
so this is definitional). -/
theorem traverse_recursive_node (current : List String) (meta : Meta)
    (readDirErr openErr : Option IoErr) (children : ChildList) (depth : Nat)
    (c : TraversalContext) :
    traverse_recursive current (.node meta readDirErr openErr children) depth c =
      (if depthExceeds c.max_depth depth then (c, .ok 0)
      else
        match meta.statErr with
        | some e => (c.record_error current e, .ok 0)
        | none =>
          if meta.kind = .symlink ∧ c.options.follow_symlinks = false then (c, .ok 0)
          else if deviceMismatch c meta then (c, .ok 0)
          else if meta.kind = .file then
            let sc := c.should_count_file meta
            let size := if sc.1 then sc.2.get_size meta else 0
            (sc.2, .ok size)
          else if meta.kind = .dir then
            match readDirErr with
            | some e => (c.record_error current e, .ok 0)
            | none =>
              match legacyChildren current children depth c with
              | (c, .error e) => (c, .error e)
              | (c, .ok (total_size, file_count, dir_count)) =>
                let entry : DirectoryEntry :=
                  { path := pathStr current
                    parent_path := (parentOf current).map pathStr
                    depth := depth
                    size_bytes := total_size
                    file_count := file_count
                    dir_count := dir_count }
                (c.insert_entry current entry, .ok total_size)
          else (c, .ok 0)) := rfl

theorem ctxGrowth_legacyFileChild (k : Nat) (c : TraversalContext)
    (current child_path : List String) (m : Meta) (depth : Nat)
    (hmd : c.max_depth = some k) :
    ctxGrowth k c (legacyFileChild c current child_path m depth).1 := by
  unfold legacyFileChild
  have hsc := ctxGrowth_should_count k c m
  have hmd2 : (c.should_count_file m).2.max_depth = some k := by
    rw [hsc.1, hmd]
  by_cases hw : withinDepth (c.should_count_file m).2.max_depth (depth + 1) = true
  · simp only [hw, if_true]
    refine ctxGrowth_trans hsc (ctxGrowth_insert _ _ _ _ ?_)
    rw [hmd2] at hw
    simp only [withinDepth] at hw
    exact of_decide_eq_true hw
  · simp only [hw, if_false]
    exact hsc

mutual

theorem traverse_recursive_growth (current : List String) (t : FsTree)
    (depth : Nat) (c : TraversalContext) (k : Nat)
    (hmd : c.max_depth = some k) :
    ctxGrowth k c (traverse_recursive current t depth c).1 := by
  rcases t with ⟨meta, readDirErr, openErr, children⟩
  rw [traverse_recursive_node]
  by_cases hex : depthExceeds c.max_depth depth = true
  · rw [if_pos hex]
    exact ctxGrowth_refl k c
  · rw [if_neg hex]
    rcases hst : meta.statErr with _ | e
    · dsimp only
      by_cases hsym : meta.kind = .symlink ∧ c.options.follow_symlinks = false
      · rw [if_pos hsym]
        exact ctxGrowth_refl k c
      · rw [if_neg hsym]
        by_cases hdev : deviceMismatch c meta = true
        · rw [if_pos hdev]
          exact ctxGrowth_refl k c
        · rw [if_neg hdev]
          by_cases hfile : meta.kind = .file
          · rw [if_pos hfile]
            exact ctxGrowth_should_count k c meta
          · rw [if_neg hfile]
            by_cases hdir : meta.kind = .dir
            · rw [if_pos hdir]
              rcases hrd : readDirErr with _ | e
              · dsimp only
                rcases hch : legacyChildren current children depth c with ⟨c1, res⟩
                have hgrow : ctxGrowth k c c1 := by
                  have := legacyChildren_growth current children depth c k hmd
                  rw [hch] at this
                  exact this
                rcases res with e | triple
                · exact hgrow
                · rcases triple with ⟨total, nf, nd⟩
                  refine ctxGrowth_trans hgrow (ctxGrowth_insert _ _ _ _ ?_)
                  rw [hmd] at hex
                  simp only [depthExceeds] at hex
                  exact Nat.le_of_not_lt (fun hlt => hex (decide_eq_true hlt))
              · exact ctxGrowth_record_error k c current e
            · rw [if_neg hdir]
              exact ctxGrowth_refl k c
    · exact ctxGrowth_record_error k c current e

theorem legacyChildren_growth (current : List String)
    (cs : ChildList) (depth : Nat)
    (c : TraversalContext) (k : Nat) (hmd : c.max_depth = some k) :
    ctxGrowth k c (legacyChildren current cs depth c).1 := by
  match cs with
  | .nil =>
    rw [legacyChildren]
    exact ctxGrowth_refl k c
  | .cons (some e) name child rest =>
    rw [legacyChildren]
    refine ctxGrowth_trans (ctxGrowth_record_error k c current e) ?_
    exact legacyChildren_growth current rest depth (c.record_error current e) k hmd
  | .cons none name child rest =>
    rw [legacyChildren]
    rcases hst : child.meta.statErr with _ | e
    · simp only
      split
      · -- file child
        rcases hfc : legacyFileChild c current (current ++ [name]) child.meta depth
          with ⟨c1, fsize⟩
        have hg1 : ctxGrowth k c c1 := by
          have := ctxGrowth_legacyFileChild k c current (current ++ [name])
            child.meta depth hmd
          rw [hfc] at this
          exact this
        have hmd1 : c1.max_depth = some k := by rw [hg1.1, hmd]
        rcases hrest : legacyChildren current rest depth c1 with ⟨c2, res⟩
        have hg2 : ctxGrowth k c1 c2 := by
          have := legacyChildren_growth current rest depth c1 k hmd1
          rw [hrest] at this
          exact this
        rcases res with e | triple
        · exact ctxGrowth_trans hg1 hg2
        · rcases triple with ⟨total, nf, nd⟩
          exact ctxGrowth_trans hg1 hg2
      · split
        · -- dir child
          rcases hrec : traverse_recursive (current ++ [name]) child (depth + 1) c
            with ⟨c1, res⟩
          have hg1 : ctxGrowth k c c1 := by
            have := traverse_recursive_growth (current ++ [name]) child (depth + 1)
              c k hmd
            rw [hrec] at this
            exact this
          have hmd1 : c1.max_depth = some k := by rw [hg1.1, hmd]
          rcases res with e | subdir
          · exact hg1
          · dsimp only
            rcases hrest : legacyChildren current rest depth c1 with ⟨c2, res2⟩
            have hg2 : ctxGrowth k c1 c2 := by
              have := legacyChildren_growth current rest depth c1 k hmd1
              rw [hrest] at this
              exact this
            rcases res2 with e | triple
            · exact ctxGrowth_trans hg1 hg2
            · rcases triple with ⟨total, nf, nd⟩
              exact ctxGrowth_trans hg1 hg2
        · exact legacyChildren_growth current rest depth c k hmd
    · refine ctxGrowth_trans (ctxGrowth_record_error k c (current ++ [name]) e) ?_
      exact legacyChildren_growth current rest depth
        (c.record_error (current ++ [name]) e) k hmd

end

/-- Unfolding of `traverse_directory_fd` on a node (definitional). -/
theorem traverse_directory_fd_node (current : List String) (meta : Meta)
    (readDirErr openErr : Option IoErr) (children : ChildList) (depth : Nat)
    (c : TraversalContext) :
    traverse_directory_fd current (.node meta readDirErr openErr children) depth c =
      (if depthExceeds c.max_depth depth then (c, .ok 0)
      else
        match readDirErr with
        | some e => (c, .error e)
        | none =>
          match posixChildren current children depth c with
          | (c, total_size, file_count, dir_count) =>
            match posixSubdirs current children depth c with
            | (c, .error e) => (c, .error e)
            | (c, .ok subdir_total) =>
              let total_size := satAdd64 total_size subdir_total
              let entry : DirectoryEntry :=
                { path := pathStr current
                  parent_path := (parentOf current).map pathStr
                  depth := depth
                  size_bytes := total_size
                  file_count := file_count
                  dir_count := dir_count }
              (c.insert_entry current entry, .ok total_size)) := rfl

mutual

theorem traverse_directory_fd_growth (current : List String) (t : FsTree)
    (depth : Nat) (c : TraversalContext) (k : Nat)
    (hmd : c.max_depth = some k) :
    ctxGrowth k c (traverse_directory_fd current t depth c).1 := by
  rcases t with ⟨meta, readDirErr, openErr, children⟩
  rw [traverse_directory_fd_node]
  by_cases hex : depthExceeds c.max_depth depth = true
  · rw [if_pos hex]
    exact ctxGrowth_refl k c
  · rw [if_neg hex]
    rcases readDirErr with _ | e
    · dsimp only
      rcases hpc : posixChildren current children depth c with ⟨c1, total, nf, nd⟩
      have hg1 : ctxGrowth k c c1 := by
        have := posixChildren_growth current children depth c k hmd
        rw [hpc] at this
        exact this
      have hmd1 : c1.max_depth = some k := by rw [hg1.1, hmd]
      rcases hps : posixSubdirs current children depth c1 with ⟨c2, res⟩
      have hg2 : ctxGrowth k c1 c2 := by
        have := posixSubdirs_growth current children depth c1 k hmd1
        rw [hps] at this
        exact this
      rcases res with e | subdir_total
      · exact ctxGrowth_trans hg1 hg2
      · dsimp only
        refine ctxGrowth_trans hg1 (ctxGrowth_trans hg2 (ctxGrowth_insert _ _ _ _ ?_))
        rw [hmd] at hex
        simp only [depthExceeds] at hex
        exact Nat.le_of_not_lt (fun hlt => hex (decide_eq_true hlt))
    · exact ctxGrowth_refl k c

theorem posixChildren_growth (current : List String) (cs : ChildList)
    (depth : Nat) (c : TraversalContext) (k : Nat)
    (hmd : c.max_depth = some k) :
    ctxGrowth k c (posixChildren current cs depth c).1 := by
  match cs with
  | .nil =>
    rw [posixChildren]
    exact ctxGrowth_refl k c
  | .cons (some e) name child rest =>
    rw [posixChildren]
    refine ctxGrowth_trans (ctxGrowth_record_error k c current e) ?_
    exact posixChildren_growth current rest depth (c.record_error current e) k hmd
  | .cons none name child rest =>
    rw [posixChildren]
    rcases hst : child.meta.statErr with _ | e
    · dsimp only
      by_cases hsym : child.meta.kind = .symlink ∧ c.options.follow_symlinks = false
      · rw [if_pos hsym]
        exact posixChildren_growth current rest depth c k hmd
      · rw [if_neg hsym]
        by_cases hdev : deviceMismatch c child.meta = true
        · rw [if_pos hdev]
          exact posixChildren_growth current rest depth c k hmd
        · rw [if_neg hdev]
          by_cases hfile : child.meta.kind = .file
          · rw [if_pos hfile]
            dsimp only
            have hsc := ctxGrowth_should_count k c child.meta
            set c1 := (c.should_count_file child.meta).2 with hc1
            have hmd1 : c1.max_depth = some k := by rw [hsc.1, hmd]
            by_cases hw : withinDepth c1.max_depth (depth + 1) = true
            · rw [if_pos hw]
              have hk1 : depth + 1 ≤ k := by
                rw [hmd1] at hw
                simp only [withinDepth] at hw
                exact of_decide_eq_true hw
              have hins := ctxGrowth_insert k c1 (current ++ [name])
                { path := pathStr (current ++ [name])
                  parent_path := some (pathStr current)
                  depth := depth + 1
                  size_bytes := if (c.should_count_file child.meta).1 = true
                    then c1.get_size child.meta else 0
                  file_count := 0
                  dir_count := 0 } hk1
              set c2 := c1.insert_entry (current ++ [name])
                { path := pathStr (current ++ [name])
                  parent_path := some (pathStr current)
                  depth := depth + 1
                  size_bytes := if (c.should_count_file child.meta).1 = true
                    then c1.get_size child.meta else 0
                  file_count := 0
                  dir_count := 0 } with hc2
              have hmd2 : c2.max_depth = some k := by rw [hins.1, hmd1]
              rcases hrest : posixChildren current rest depth c2 with ⟨c3, t3, f3, d3⟩
              have hg3 : ctxGrowth k c2 c3 := by
                have := posixChildren_growth current rest depth c2 k hmd2
                rw [hrest] at this
                exact this
              exact ctxGrowth_trans hsc (ctxGrowth_trans hins hg3)
            · rw [if_neg hw]
              rcases hrest : posixChildren current rest depth c1 with ⟨c3, t3, f3, d3⟩
              have hg3 : ctxGrowth k c1 c3 := by
                have := posixChildren_growth current rest depth c1 k hmd1
                rw [hrest] at this
                exact this
              exact ctxGrowth_trans hsc hg3
          · rw [if_neg hfile]
            by_cases hdir : child.meta.kind = .dir
            · rw [if_pos hdir]
              by_cases hex : depthExceeds c.max_depth (depth + 1) = true
              · rw [if_pos hex]
                rcases hrest : posixChildren current rest depth c with ⟨c3, t3, f3, d3⟩
                have hg3 : ctxGrowth k c c3 := by
                  have := posixChildren_growth current rest depth c k hmd
                  rw [hrest] at this
                  exact this
                exact hg3
              · rw [if_neg hex]
                rcases child.openErr with _ | e
                · dsimp only
                  rcases hrest : posixChildren current rest depth c with ⟨c3, t3, f3, d3⟩
                  have hg3 : ctxGrowth k c c3 := by
                    have := posixChildren_growth current rest depth c k hmd
                    rw [hrest] at this
                    exact this
                  exact hg3
                · dsimp only
                  rcases hrest : posixChildren current rest depth
                      (c.record_error (current ++ [name]) e) with ⟨c3, t3, f3, d3⟩
                  have hg3 : ctxGrowth k (c.record_error (current ++ [name]) e) c3 := by
                    have := posixChildren_growth current rest depth
                      (c.record_error (current ++ [name]) e) k hmd
                    rw [hrest] at this
                    exact this
                  exact ctxGrowth_trans
                    (ctxGrowth_record_error k c (current ++ [name]) e) hg3
            · rw [if_neg hdir]
              exact posixChildren_growth current rest depth c k hmd
    · refine ctxGrowth_trans (ctxGrowth_record_error k c (current ++ [name]) e) ?_
      exact posixChildren_growth current rest depth
        (c.record_error (current ++ [name]) e) k hmd

theorem posixSubdirs_growth (current : List String) (cs : ChildList)
    (depth : Nat) (c : TraversalContext) (k : Nat)
    (hmd : c.max_depth = some k) :
    ctxGrowth k c (posixSubdirs current cs depth c).1 := by
  match cs with
  | .nil =>
    rw [posixSubdirs]
    exact ctxGrowth_refl k c
  | .cons iterErr name child rest =>
    rw [posixSubdirs]
    by_cases hcol : posixCollected c iterErr child (depth + 1) = true
    · rw [if_pos hcol]
      rcases hrec : traverse_directory_fd (current ++ [name]) child (depth + 1) c
        with ⟨c1, res⟩
      have hg1 : ctxGrowth k c c1 := by
        have := traverse_directory_fd_growth (current ++ [name]) child (depth + 1)
          c k hmd
        rw [hrec] at this
        exact this
      have hmd1 : c1.max_depth = some k := by rw [hg1.1, hmd]
      rcases res with e | size
      · exact hg1
      · dsimp only
        rcases hrest : posixSubdirs current rest depth c1 with ⟨c2, res2⟩
        have hg2 : ctxGrowth k c1 c2 := by
          have := posixSubdirs_growth current rest depth c1 k hmd1
          rw [hrest] at this
          exact this
        rcases res2 with e | total
        · exact ctxGrowth_trans hg1 hg2
        · exact ctxGrowth_trans hg1 hg2
    · rw [if_neg hcol]
      exact posixSubdirs_growth current rest depth c k hmd

end

theorem set_root_device_fields (c : TraversalContext) (d : Nat) :
    (c.set_root_device_if_absent d).entries = c.entries ∧
    (c.set_root_device_if_absent d).max_depth = c.max_depth := by
  unfold TraversalContext.set_root_device_if_absent
  split
  · exact ⟨rfl, rfl⟩
  · split
    · exact ⟨rfl, rfl⟩
    · exact ⟨rfl, rfl⟩

theorem traverse_directory_entries (root : List String) (t : FsTree)
    (c : TraversalContext) (k : Nat) (hmd : c.max_depth = some k) :
    ∀ kv ∈ (traverse_directory root t c).1.entries,
      kv ∈ c.entries ∨ kv.2.depth ≤ k := by
  unfold traverse_directory
  rcases hst : t.meta.statErr with _ | e
  · dsimp only
    set c1 := if c.options.cross_filesystem = true then c
      else c.set_root_device_if_absent t.meta.dev with hc1
    have hfields : c1.entries = c.entries ∧ c1.max_depth = c.max_depth := by
      rw [hc1]
      split
      · exact ⟨rfl, rfl⟩
      · exact set_root_device_fields c t.meta.dev
    have hmd1 : c1.max_depth = some k := by rw [hfields.2, hmd]
    have hg := traverse_recursive_growth root t 0 c1 k hmd1
    intro kv hkv
    rcases hg.2.2.2 kv hkv with h | h
    · rw [hfields.1] at h
      exact Or.inl h
    · exact Or.inr h
  · intro kv hkv
    exact Or.inl hkv

theorem posix_traverse_entries (root : List String) (t : FsTree)
    (c : TraversalContext) (k : Nat) (hmd : c.max_depth = some k) :
    ∀ kv ∈ (posix_traverse root t c).1.entries,
      kv ∈ c.entries ∨ kv.2.depth ≤ k := by
  unfold posix_traverse
  rcases hst : t.meta.statErr with _ | e
  · dsimp only
    by_cases hkind : t.meta.kind ≠ .dir
    · rw [if_pos hkind]
      exact traverse_directory_entries root t c k hmd
    · rw [if_neg hkind]
      set c1 := if c.options.cross_filesystem = true then c
        else c.set_root_device_if_absent t.meta.dev with hc1
      have hfields : c1.entries = c.entries ∧ c1.max_depth = c.max_depth := by
        rw [hc1]
        split
        · exact ⟨rfl, rfl⟩
        · exact set_root_device_fields c t.meta.dev
      have hmd1 : c1.max_depth = some k := by rw [hfields.2, hmd]
      rcases hoe : t.openErr with _ | e
      · dsimp only
        have hg := traverse_directory_fd_growth root t 0 c1 k hmd1
        intro kv hkv
        rcases hg.2.2.2 kv hkv with h | h
        · rw [hfields.1] at h
          exact Or.inl h
        · exact Or.inr h
      · intro kv hkv
        rw [hfields.1] at hkv
        exact Or.inl hkv
  · intro kv hkv
    exact Or.inl hkv

/-- C9 (confirmed): with `max_depth = k`, neither the legacy nor the POSIX
walk ever records a `DirectoryEntry` of depth greater than `k`. -/
theorem C9_depth_limit (t : FsTree) (opts : ScanOptions) (k : Nat)
    (hk : opts.max_depth = some k) (root : List String) :
    (∀ kv ∈ (traverse_directory root t (TraversalContext.init opts)).1.entries,
      kv.2.depth ≤ k) ∧
    (∀ kv ∈ (posix_traverse root t (TraversalContext.init opts)).1.entries,
      kv.2.depth ≤ k) := by
  have hmd : (TraversalContext.init opts).max_depth = some k := hk
  constructor
  · intro kv hkv
    rcases traverse_directory_entries root t (TraversalContext.init opts) k hmd
        kv hkv with h | h
    · simp [TraversalContext.init] at h
    · exact h
  · intro kv hkv
    rcases posix_traverse_entries root t (TraversalContext.init opts) k hmd
        kv hkv with h | h
    · simp [TraversalContext.init] at h
    · exact h

/-! ## Concrete example trees -/

/-- Metadata of a healthy regular file. -/
def exFileMeta (len dev ino : Nat) : Meta :=
  { kind := .file, len := len, blocks := 0, dev := dev,
    fid := some { dev := dev, ino := ino }, statErr := none }

/-- Metadata of a healthy directory. -/
def exDirMeta (dev : Nat) : Meta :=
  { kind := .dir, len := 0, blocks := 0, dev := dev, fid := none,
    statErr := none }

/-- `root/l1/l2/f.txt` with a five-byte file, the spec's depth-limit
scenario. -/
def exL2 : FsTree :=
  .node (exDirMeta 1) none none
    (.cons none "f.txt" (.node (exFileMeta 5 1 10) none none .nil) .nil)

def exL1 : FsTree :=
  .node (exDirMeta 1) none none (.cons none "l2" exL2 .nil)

def exDepthTree : FsTree :=
  .node (exDirMeta 1) none none (.cons none "l1" exL1 .nil)

/-- Options: logical sizes, `max_depth = 1`, `count` hardlinks. -/
def exOpts1 : ScanOptions :=
  { basis := .logical, max_depth := some 1, hardlink_policy := .count,
    follow_symlinks := false, cross_filesystem := true }

/-- Witness for C9: the depth-limited scan of the example tree stays within
depth 1 under both strategies. -/
theorem C9_depth_limit_witness :
    exOpts1.max_depth = some 1 ∧
    ((∀ kv ∈ (traverse_directory ["root"] exDepthTree
        (TraversalContext.init exOpts1)).1.entries, kv.2.depth ≤ 1) ∧
     (∀ kv ∈ (posix_traverse ["root"] exDepthTree
        (TraversalContext.init exOpts1)).1.entries, kv.2.depth ≤ 1)) :=
  ⟨rfl, C9_depth_limit exDepthTree exOpts1 1 rfl ["root"]⟩

/-! ## Claim C3: hardlink deduplication -/

theorem alLookup_alInsert (m : List (List String × DirectoryEntry))
    (k : List String) (v : DirectoryEntry) :
    alLookup (alInsert m k v) k = some v := by
  induction m with
  | nil => simp [alInsert, alLookup]
  | cons x rest ih =>
    simp only [alInsert]
    by_cases hx : x.1 = k
    · rw [if_pos hx]
      simp [alLookup]
    · rw [if_neg hx]
      simp only [alLookup, if_neg hx]
      exact ih

theorem should_count_max_depth (c : TraversalContext) (m : Meta) :
    (c.should_count_file m).2.max_depth = c.max_depth :=
  (ctxGrowth_should_count 0 c m).1

/-- C3 (corrected): under `Dedupe`, the first observation of a `FileId`
counts (and records the id), later observations of the same id do not count;
with no obtainable `FileId` the file always counts; and a deduplicated later
observation *within the depth limit* still records a `DirectoryEntry` with
`size_bytes = 0` (beyond the depth limit no entry is recorded for any
file). -/
theorem C3_hardlink_dedupe (c : TraversalContext) (m : Meta) (id : FileId)
    (current child_path : List String) (depth : Nat) :
    (c.options.hardlink_policy = .dedupe → m.fid = some id →
      id ∉ c.seen_inodes →
      (c.should_count_file m).1 = true ∧
        id ∈ (c.should_count_file m).2.seen_inodes) ∧
    (c.options.hardlink_policy = .dedupe → m.fid = some id →
      id ∈ c.seen_inodes →
      (c.should_count_file m).1 = false ∧ (c.should_count_file m).2 = c) ∧
    (m.fid = none → (c.should_count_file m).1 = true) ∧
    ((c.should_count_file m).1 = false →
      withinDepth c.max_depth (depth + 1) = true →
      (legacyFileChild c current child_path m depth).2 = 0 ∧
      ∃ e, alLookup (legacyFileChild c current child_path m depth).1.entries
          child_path = some e ∧ e.size_bytes = 0 ∧ e.depth = depth + 1) := by
  refine ⟨?_, ?_, ?_, ?_⟩
  · intro hpol hfid hnot
    unfold TraversalContext.should_count_file
    rw [hpol, hfid]
    dsimp only
    rw [if_neg hnot]
    exact ⟨rfl, List.mem_cons_self id c.seen_inodes⟩
  · intro hpol hfid hmem
    unfold TraversalContext.should_count_file
    rw [hpol, hfid]
    dsimp only
    rw [if_pos hmem]
    exact ⟨rfl, rfl⟩
  · intro hfid
    unfold TraversalContext.should_count_file
    rcases hpol : c.options.hardlink_policy
    · rw [hfid]
    · rfl
  · intro hsc hw
    unfold legacyFileChild
    simp only [hsc, should_count_max_depth, hw, Bool.false_eq_true, if_false,
      if_true]
    exact ⟨trivial, _, alLookup_alInsert _ _ _, rfl, rfl⟩

/-- Hardlinked pair under `dedupe`: two names for the same (device, inode)
carrying 1000 bytes each. -/
def exHardlinkTree : FsTree :=
  .node (exDirMeta 1) none none
    (.cons none "a" (.node (exFileMeta 1000 1 7) none none .nil)
      (.cons none "b" (.node (exFileMeta 1000 1 7) none none .nil) .nil))

/-- Options: logical sizes, `max_depth = 0`, `dedupe`. -/
def exOptsDedup0 : ScanOptions :=
  { basis := .logical, max_depth := some 0, hardlink_policy := .dedupe,
    follow_symlinks := false, cross_filesystem := true }

/-- Counterexample for C3 as stated: with `max_depth = 0`, the deduplicated
second hardlink is observed (the root aggregates both names: `file_count = 2`
with 1000 bytes counted once) yet no `DirectoryEntry` is recorded for it. -/
theorem C3_counterexample :
    alLookup (traverse_directory ["root"] exHardlinkTree
        (TraversalContext.init exOptsDedup0)).1.entries ["root", "b"] = none ∧
    alLookup (traverse_directory ["root"] exHardlinkTree
        (TraversalContext.init exOptsDedup0)).1.entries ["root"] =
      some { path := "root", parent_path := none, depth := 0,
             size_bytes := 1000, file_count := 2, dir_count := 0 } := by
  constructor
  · rfl
  · rfl

/-! ## Claim C4: error routing -/

mutual

theorem traverse_recursive_ok (current : List String) (t : FsTree)
    (depth : Nat) (c : TraversalContext) :
    ∃ n, (traverse_recursive current t depth c).2 = .ok n := by
  rcases t with ⟨meta, readDirErr, openErr, children⟩
  rw [traverse_recursive_node]
  by_cases hex : depthExceeds c.max_depth depth = true
  · rw [if_pos hex]
    exact ⟨0, rfl⟩
  · rw [if_neg hex]
    rcases hst : meta.statErr with _ | e
    · dsimp only
      by_cases hsym : meta.kind = .symlink ∧ c.options.follow_symlinks = false
      · rw [if_pos hsym]
        exact ⟨0, rfl⟩
      · rw [if_neg hsym]
        by_cases hdev : deviceMismatch c meta = true
        · rw [if_pos hdev]
          exact ⟨0, rfl⟩
        · rw [if_neg hdev]
          by_cases hfile : meta.kind = .file
          · rw [if_pos hfile]
            exact ⟨_, rfl⟩
          · rw [if_neg hfile]
            by_cases hdir : meta.kind = .dir
            · rw [if_pos hdir]
              rcases readDirErr with _ | e
              · dsimp only
                rcases hch : legacyChildren current children depth c with ⟨c1, res⟩
                obtain ⟨v, hv⟩ := legacyChildren_ok current children depth c
                rw [hch] at hv
                dsimp only at hv
                rw [hv]
                rcases v with ⟨total, nf, nd⟩
                exact ⟨total, rfl⟩
              · exact ⟨0, rfl⟩
            · rw [if_neg hdir]
              exact ⟨0, rfl⟩
    · exact ⟨0, rfl⟩

theorem legacyChildren_ok (current : List String) (cs : ChildList)
    (depth : Nat) (c : TraversalContext) :
    ∃ v, (legacyChildren current cs depth c).2 = .ok v := by
  match cs with
  | .nil =>
    rw [legacyChildren]
    exact ⟨(0, 0, 0), rfl⟩
  | .cons (some e) name child rest =>
    rw [legacyChildren]
    exact legacyChildren_ok current rest depth (c.record_error current e)
  | .cons none name child rest =>
    rw [legacyChildren]
    rcases hst : child.meta.statErr with _ | e
    · dsimp only
      by_cases hfile : child.meta.kind = .file
      · rw [if_pos hfile]
        rcases hrest : legacyChildren current rest depth
            (legacyFileChild c current (current ++ [name]) child.meta depth).1
          with ⟨c2, res⟩
        obtain ⟨v, hv⟩ := legacyChildren_ok current rest depth
          (legacyFileChild c current (current ++ [name]) child.meta depth).1
        rw [hrest] at hv
        dsimp only at hv
        rw [hv]
        rcases v with ⟨total, nf, nd⟩
        exact ⟨_, rfl⟩
      · rw [if_neg hfile]
        by_cases hdir : child.meta.kind = .dir
        · rw [if_pos hdir]
          rcases hrec : traverse_recursive (current ++ [name]) child (depth + 1) c
            with ⟨c1, res⟩
          obtain ⟨n, hn⟩ := traverse_recursive_ok (current ++ [name]) child
            (depth + 1) c
          rw [hrec] at hn
          dsimp only at hn
          rw [hn]
          dsimp only
          rcases hrest : legacyChildren current rest depth c1 with ⟨c2, res2⟩
          obtain ⟨v, hv⟩ := legacyChildren_ok current rest depth c1
          rw [hrest] at hv
          dsimp only at hv
          rw [hv]
          rcases v with ⟨total, nf, nd⟩
          exact ⟨_, rfl⟩
        · rw [if_neg hdir]
          exact legacyChildren_ok current rest depth c
    · exact legacyChildren_ok current rest depth
        (c.record_error (current ++ [name]) e)

end

/-- C4 (corrected): the legacy strategy never returns `Err` — every failure
is recovered through the error sink — and a root stat failure records exactly
one `ErrorItem` and yields `Ok(0)`; the POSIX strategy handles a root stat
failure the same way, but (counterexample) a root open failure propagates as
`Err` with no `ErrorItem`. -/
theorem C4_error_routing (root : List String) (t : FsTree)
    (opts : ScanOptions) (c : TraversalContext) (e : IoErr) :
    (∃ n, (traverse_directory root t c).2 = .ok n) ∧
    (t.meta.statErr = some e →
      traverse_directory root t (TraversalContext.init opts) =
        ((TraversalContext.init opts).record_error root e, .ok 0) ∧
      ((TraversalContext.init opts).record_error root e).errors =
        [{ path := pathStr root, code := errCode e, message := ioErrMessage e }] ∧
      ((TraversalContext.init opts).record_error root e).entries = [] ∧
      posix_traverse root t (TraversalContext.init opts) =
        ((TraversalContext.init opts).record_error root e, .ok 0)) := by
  constructor
  · unfold traverse_directory
    rcases hst : t.meta.statErr with _ | e1
    · dsimp only
      exact traverse_recursive_ok root t 0 _
    · exact ⟨0, rfl⟩
  · intro hst
    refine ⟨?_, rfl, rfl, ?_⟩
    · unfold traverse_directory
      rw [hst]
    · unfold posix_traverse
      rw [hst]

/-- A root directory whose stat succeeds but whose `openat` fails. -/
def exOpenErrTree : FsTree :=
  .node (exDirMeta 1) none (some .permissionDenied) .nil

/-- Counterexample for C4 as stated: the POSIX strategy propagates a
root-open failure as `Err` and records no `ErrorItem`. -/
theorem C4_counterexample :
    (posix_traverse ["root"] exOpenErrTree
        (TraversalContext.init exOptsDedup0)).2 =
      .error .permissionDenied ∧
    (posix_traverse ["root"] exOpenErrTree
        (TraversalContext.init exOptsDedup0)).1.errors = [] := by
  constructor
  · rfl
  · rfl

/-! ## Claim C1: the depth limit and byte accounting

The spec claims the depth limit restricts emission only, never accounting.
The functions below are spec-worded: `subtreeBytesFull` is the full
inclusive byte total of a subtree, `subtreeBytesClamped` is the total that
stops descending `b` levels down (what the walk actually computes).  They
are compared with the traversals on *plain* trees: every node a healthy
file or directory, free of stat, read-dir, open and iteration errors. -/

mutual

/-- Every node of the tree is a healthy regular file or directory. -/
def plainTree : FsTree → Bool
  | .node m rde oe cs =>
    decide ((m.kind = .file ∨ m.kind = .dir) ∧ m.statErr = none ∧
      rde = none ∧ oe = none) && plainChildren cs

/-- Every slot of the child list iterates cleanly into a plain subtree. -/
def plainChildren : ChildList → Bool
  | .nil => true
  | .cons ie _ sub rest =>
    decide (ie = (none : Option IoErr)) && plainTree sub && plainChildren rest

end

/-- The byte size the options attribute to one file (`get_size` as a
function of the options alone). -/
def basisSize (opts : ScanOptions) (m : Meta) : Nat :=
  match opts.basis with
  | .logical => m.len
  | .physical => m.blocks * 512

mutual

/-- Spec-worded: the full inclusive byte total of a subtree, with no depth
limit involved. -/
def subtreeBytesFull (opts : ScanOptions) : FsTree → Nat
  | .node m _ _ cs =>
    match m.kind with
    | .file => basisSize opts m
    | .dir => childrenBytesFull opts cs
    | _ => 0

def childrenBytesFull (opts : ScanOptions) : ChildList → Nat
  | .nil => 0
  | .cons _ _ sub rest =>
    subtreeBytesFull opts sub + childrenBytesFull opts rest

end

mutual

/-- The byte total of a subtree when only `b` further levels of directory
recursion are available: a directory child found with no budget left
contributes nothing. -/
def subtreeBytesClamped (opts : ScanOptions) : FsTree → Nat → Nat
  | .node m _ _ cs, b =>
    match m.kind with
    | .file => basisSize opts m
    | .dir => childrenBytesClamped opts cs b
    | _ => 0

def childrenBytesClamped (opts : ScanOptions) : ChildList → Nat → Nat
  | .nil, _ => 0
  | .cons _ _ sub rest, b =>
    (match sub.meta.kind with
     | .file => basisSize opts sub.meta
     | .dir =>
       match b with
       | 0 => 0
       | Nat.succ b2 => subtreeBytesClamped opts sub b2
     | _ => 0) + childrenBytesClamped opts rest b

end

/-- The bytes of the file children alone of one directory level (the part
totalled by the POSIX enumeration loop). -/
def fileChildrenBytes (opts : ScanOptions) : ChildList → Nat
  | .nil => 0
  | .cons _ _ sub rest =>
    (match sub.meta.kind with
     | .file => basisSize opts sub.meta
     | _ => 0) + fileChildrenBytes opts rest

/-- The clamped bytes of the directory children alone of one directory
level (the part totalled by the POSIX recursion fan-out). -/
def dirChildrenBytesClamped (opts : ScanOptions) : ChildList → Nat → Nat
  | .nil, _ => 0
  | .cons _ _ sub rest, b =>
    (match sub.meta.kind with
     | .dir =>
       match b with
       | 0 => 0
       | Nat.succ b2 => subtreeBytesClamped opts sub b2
     | _ => 0) + dirChildrenBytesClamped opts rest b

theorem plainTree_node (m : Meta) (rde oe : Option IoErr) (cs : ChildList) :
    plainTree (.node m rde oe cs) =
      (decide ((m.kind = .file ∨ m.kind = .dir) ∧ m.statErr = none ∧
        rde = none ∧ oe = none) && plainChildren cs) := rfl

theorem plainChildren_cons (ie : Option IoErr) (name : String) (sub : FsTree)
    (rest : ChildList) :
    plainChildren (.cons ie name sub rest) =
      (decide (ie = (none : Option IoErr)) && plainTree sub &&
        plainChildren rest) := rfl

theorem subtreeBytesClamped_node (opts : ScanOptions) (m : Meta)
    (rde oe : Option IoErr) (cs : ChildList) (b : Nat) :
    subtreeBytesClamped opts (.node m rde oe cs) b =
      (match m.kind with
       | .file => basisSize opts m
       | .dir => childrenBytesClamped opts cs b
       | _ => 0) := rfl

theorem childrenBytesClamped_cons (opts : ScanOptions) (ie : Option IoErr)
    (name : String) (sub : FsTree) (rest : ChildList) (b : Nat) :
    childrenBytesClamped opts (.cons ie name sub rest) b =
      (match sub.meta.kind with
       | .file => basisSize opts sub.meta
       | .dir =>
         match b with
         | 0 => 0
         | Nat.succ b2 => subtreeBytesClamped opts sub b2
       | _ => 0) + childrenBytesClamped opts rest b := rfl

theorem fileChildrenBytes_cons (opts : ScanOptions) (ie : Option IoErr)
    (name : String) (sub : FsTree) (rest : ChildList) :
    fileChildrenBytes opts (.cons ie name sub rest) =
      (match sub.meta.kind with
       | .file => basisSize opts sub.meta
       | _ => 0) + fileChildrenBytes opts rest := rfl

theorem dirChildrenBytesClamped_cons (opts : ScanOptions) (ie : Option IoErr)
    (name : String) (sub : FsTree) (rest : ChildList) (b : Nat) :
    dirChildrenBytesClamped opts (.cons ie name sub rest) b =
      (match sub.meta.kind with
       | .dir =>
         match b with
         | 0 => 0
         | Nat.succ b2 => subtreeBytesClamped opts sub b2
       | _ => 0) + dirChildrenBytesClamped opts rest b := rfl

/-- Under the `Count` hardlink policy every file counts and the context is
untouched. -/
theorem should_count_count (c : TraversalContext) (m : Meta)
    (h : c.options.hardlink_policy = .count) :
    c.should_count_file m = (true, c) := by
  unfold TraversalContext.should_count_file
  rw [h]

theorem get_size_basis (c : TraversalContext) (m : Meta) (opts : ScanOptions)
    (h : c.options = opts) : c.get_size m = basisSize opts m := by
  unfold TraversalContext.get_size basisSize
  rw [h]

theorem deviceMismatch_cross (c : TraversalContext) (m : Meta)
    (h : c.options.cross_filesystem = true) :
    deviceMismatch c m = false := by
  simp [deviceMismatch, h]

/-- Under `Count`, the file-child block attributes exactly the configured
size, whether or not the entry is emitted. -/
theorem legacyFileChild_snd (c : TraversalContext) (current p : List String)
    (m : Meta) (depth : Nat) (h : c.options.hardlink_policy = .count) :
    (legacyFileChild c current p m depth).2 = c.get_size m := by
  unfold legacyFileChild
  rw [should_count_count c m h]
  by_cases hw : withinDepth c.max_depth (depth + 1) = true
  · simp only [hw, if_true]
  · simp [hw]

theorem satAdd64_of_le (a b : Nat) (h : a + b ≤ U64MAX) :
    satAdd64 a b = a + b := by
  unfold satAdd64
  exact Nat.min_eq_left h

mutual

/-- On a plain subtree, under `Count` hardlinks and cross-filesystem
scanning, the legacy walk returns exactly the depth-clamped byte total of
the subtree, and a directory node's recorded entry carries that clamped
total. -/
theorem traverse_recursive_clamped (current : List String) (t : FsTree)
    (depth k : Nat) (c : TraversalContext) (opts : ScanOptions)
    (hopts : c.options = opts) (hmd : c.max_depth = some k)
    (hpol : opts.hardlink_policy = .count)
    (hcross : opts.cross_filesystem = true)
    (hplain : plainTree t = true) (hdep : depth ≤ k) :
    (traverse_recursive current t depth c).2 =
      .ok (subtreeBytesClamped opts t (k - depth)) ∧
    (t.meta.kind = .dir →
      ∃ e, alLookup (traverse_recursive current t depth c).1.entries current =
          some e ∧
        e.depth = depth ∧
        e.size_bytes = subtreeBytesClamped opts t (k - depth)) := by
  rcases t with ⟨m, rde, oe, cs⟩
  rw [plainTree_node, Bool.and_eq_true, decide_eq_true_eq] at hplain
  obtain ⟨⟨hkind, hstat, hrde, hoe⟩, hcs⟩ := hplain
  rw [traverse_recursive_node]
  have hex : depthExceeds c.max_depth depth = false := by
    rw [hmd]
    simp only [depthExceeds, decide_eq_false_iff_not]
    omega
  simp only [hex, Bool.false_eq_true, if_false]
  rw [hstat]
  dsimp only
  have hsym : ¬(m.kind = .symlink ∧ c.options.follow_symlinks = false) := by
    rintro ⟨hs, -⟩
    rcases hkind with h | h <;> rw [h] at hs <;> exact NodeKind.noConfusion hs
  rw [if_neg hsym]
  have hdm : deviceMismatch c m = false :=
    deviceMismatch_cross c m (by rw [hopts]; exact hcross)
  simp only [hdm, Bool.false_eq_true, if_false]
  rcases hkind with hfile | hdir
  · rw [if_pos hfile]
    have hsc : c.should_count_file m = (true, c) :=
      should_count_count c m (by rw [hopts]; exact hpol)
    refine ⟨?_, ?_⟩
    · simp [hsc, subtreeBytesClamped_node, hfile, get_size_basis c m opts hopts]
    · intro hd
      have hd2 : m.kind = NodeKind.dir := hd
      rw [hfile] at hd2
      exact absurd hd2 (by decide)
  · have hnf : ¬ m.kind = .file := fun h => by
      rw [hdir] at h
      exact NodeKind.noConfusion h
    rw [if_neg hnf, if_pos hdir, hrde]
    dsimp only
    obtain ⟨nf, nd, hv⟩ :=
      legacyChildren_clamped current cs depth k c opts hopts hmd hpol hcross
        hcs hdep
    rcases hlc : legacyChildren current cs depth c with ⟨c1, res⟩
    rw [hlc] at hv
    dsimp at hv
    subst hv
    dsimp only
    refine ⟨?_, ?_⟩
    · simp [subtreeBytesClamped_node, hdir]
    · intro _
      refine ⟨_, alLookup_alInsert c1.entries current _, rfl, ?_⟩
      simp [subtreeBytesClamped_node, hdir]

/-- On a plain child list, the legacy child loop totals exactly the clamped
bytes of the level. -/
theorem legacyChildren_clamped (current : List String) (cs : ChildList)
    (depth k : Nat) (c : TraversalContext) (opts : ScanOptions)
    (hopts : c.options = opts) (hmd : c.max_depth = some k)
    (hpol : opts.hardlink_policy = .count)
    (hcross : opts.cross_filesystem = true)
    (hplain : plainChildren cs = true) (hdep : depth ≤ k) :
    ∃ nf nd, (legacyChildren current cs depth c).2 =
      .ok (childrenBytesClamped opts cs (k - depth), nf, nd) := by
  match cs with
  | .nil => exact ⟨0, 0, rfl⟩
  | .cons ie name sub rest =>
    rw [plainChildren_cons, Bool.and_eq_true, Bool.and_eq_true,
      decide_eq_true_eq] at hplain
    obtain ⟨⟨hie, hsubp⟩, hrest⟩ := hplain
    subst hie
    rcases sub with ⟨m2, rde2, oe2, cs2⟩
    rw [plainTree_node, Bool.and_eq_true, decide_eq_true_eq] at hsubp
    obtain ⟨⟨hkind2, hstat2, hrde2, hoe2⟩, hcs2⟩ := hsubp
    rw [legacyChildren]
    dsimp only [FsTree.meta]
    rw [hstat2]
    dsimp only
    have hpol' : c.options.hardlink_policy = .count := by
      rw [hopts]; exact hpol
    rcases hkind2 with hf2 | hd2
    · -- file child
      rw [if_pos hf2]
      rcases hfc : legacyFileChild c current (current ++ [name]) m2 depth
        with ⟨c1, fsize⟩
      have hg1 : ctxGrowth k c c1 := by
        have := ctxGrowth_legacyFileChild k c current (current ++ [name])
          m2 depth hmd
        rw [hfc] at this
        exact this
      have hfsize : fsize = basisSize opts m2 := by
        have := legacyFileChild_snd c current (current ++ [name]) m2 depth hpol'
        rw [hfc] at this
        dsimp at this
        rw [this, get_size_basis c m2 opts hopts]
      dsimp only
      obtain ⟨nf, nd, hv⟩ :=
        legacyChildren_clamped current rest depth k c1 opts
          (hg1.2.1.trans hopts) (hg1.1.trans hmd) hpol hcross hrest hdep
      rcases hr2 : legacyChildren current rest depth c1 with ⟨c2, res2⟩
      rw [hr2] at hv
      dsimp at hv
      subst hv
      refine ⟨1 + nf, nd, ?_⟩
      rw [childrenBytesClamped_cons]
      dsimp only [FsTree.meta]
      rw [hf2, hfsize]
    · -- directory child
      have hnf2 : ¬ m2.kind = .file := fun h => by
        rw [hd2] at h
        exact NodeKind.noConfusion h
      rw [if_neg hnf2, if_pos hd2]
      by_cases hlt : depth < k
      · have hsubplain : plainTree (.node m2 rde2 oe2 cs2) = true := by
          rw [plainTree_node, Bool.and_eq_true, decide_eq_true_eq]
          exact ⟨⟨Or.inr hd2, hstat2, hrde2, hoe2⟩, hcs2⟩
        obtain ⟨hres1, -⟩ :=
          traverse_recursive_clamped (current ++ [name])
            (.node m2 rde2 oe2 cs2) (depth + 1) k c opts hopts hmd hpol hcross
            hsubplain (by omega)
        have hg1 := traverse_recursive_growth (current ++ [name])
          (.node m2 rde2 oe2 cs2) (depth + 1) c k hmd
        rcases hr1 : traverse_recursive (current ++ [name])
            (.node m2 rde2 oe2 cs2) (depth + 1) c with ⟨c1, res1⟩
        rw [hr1] at hres1 hg1
        dsimp at hres1
        subst hres1
        dsimp only
        obtain ⟨nf, nd, hv⟩ :=
          legacyChildren_clamped current rest depth k c1 opts
            (hg1.2.1.trans hopts) (hg1.1.trans hmd) hpol hcross hrest hdep
        rcases hr2 : legacyChildren current rest depth c1 with ⟨c2, res2⟩
        rw [hr2] at hv
        dsimp at hv
        subst hv
        refine ⟨nf, 1 + nd, ?_⟩
        rw [childrenBytesClamped_cons]
        dsimp only [FsTree.meta]
        rw [hd2]
        have hb : k - depth = (k - (depth + 1)) + 1 := by omega
        rw [hb]
      · have hexc : depthExceeds c.max_depth (depth + 1) = true := by
          rw [hmd]
          simp only [depthExceeds, decide_eq_true_eq]
          omega
        rw [traverse_recursive_node]
        simp only [hexc, if_true]
        obtain ⟨nf, nd, hv⟩ :=
          legacyChildren_clamped current rest depth k c opts hopts hmd hpol
            hcross hrest hdep
        rcases hr2 : legacyChildren current rest depth c with ⟨c2, res2⟩
        rw [hr2] at hv
        dsimp at hv
        subst hv
        refine ⟨nf, 1 + nd, ?_⟩
        rw [childrenBytesClamped_cons]
        dsimp only [FsTree.meta]
        rw [hd2]
        have hb0 : k - depth = 0 := by omega
        rw [hb0]

end

theorem subtreeBytesFull_node (opts : ScanOptions) (m : Meta)
    (rde oe : Option IoErr) (cs : ChildList) :
    subtreeBytesFull opts (.node m rde oe cs) =
      (match m.kind with
       | .file => basisSize opts m
       | .dir => childrenBytesFull opts cs
       | _ => 0) := rfl

theorem childrenBytesFull_cons (opts : ScanOptions) (ie : Option IoErr)
    (name : String) (sub : FsTree) (rest : ChildList) :
    childrenBytesFull opts (.cons ie name sub rest) =
      subtreeBytesFull opts sub + childrenBytesFull opts rest := rfl

mutual

/-- Clamping can only shrink a subtree total. -/
theorem subtreeBytesClamped_le_full (opts : ScanOptions) (t : FsTree)
    (b : Nat) : subtreeBytesClamped opts t b ≤ subtreeBytesFull opts t := by
  rcases t with ⟨m, rde, oe, cs⟩
  rw [subtreeBytesClamped_node, subtreeBytesFull_node]
  rcases hk : m.kind with _ | _ | _ | _
  · exact Nat.le_refl _
  · exact childrenBytesClamped_le_full opts cs b
  · exact Nat.le_refl _
  · exact Nat.le_refl _

theorem childrenBytesClamped_le_full (opts : ScanOptions) (cs : ChildList)
    (b : Nat) : childrenBytesClamped opts cs b ≤ childrenBytesFull opts cs := by
  match cs with
  | .nil => exact Nat.le_refl _
  | .cons ie name sub rest =>
    rw [childrenBytesClamped_cons, childrenBytesFull_cons]
    refine Nat.add_le_add ?_ (childrenBytesClamped_le_full opts rest b)
    rcases sub with ⟨m2, rde2, oe2, cs2⟩
    dsimp only [FsTree.meta]
    rw [subtreeBytesFull_node]
    rcases hk : m2.kind with _ | _ | _ | _
    · exact Nat.le_refl _
    · rcases b with _ | b2
      · exact Nat.zero_le _
      · have hsub := subtreeBytesClamped_le_full opts (.node m2 rde2 oe2 cs2) b2
        rw [subtreeBytesFull_node, hk] at hsub
        exact hsub
    · exact Nat.le_refl _
    · exact Nat.le_refl _

end

/-- One level's clamped total splits into its file part and its
directory part. -/
theorem childrenBytesClamped_split (opts : ScanOptions) (cs : ChildList)
    (b : Nat) :
    childrenBytesClamped opts cs b =
      fileChildrenBytes opts cs + dirChildrenBytesClamped opts cs b := by
  match cs with
  | .nil => rfl
  | .cons ie name sub rest =>
    rw [childrenBytesClamped_cons, fileChildrenBytes_cons,
      dirChildrenBytesClamped_cons, childrenBytesClamped_split opts rest b]
    rcases hk : sub.meta.kind with _ | _ | _ | _ <;> dsimp only <;> omega

theorem posixCollected_none (c : TraversalContext) (child : FsTree)
    (nd : Nat) :
    posixCollected c none child nd =
      decide (child.meta.statErr = none ∧
        ¬(child.meta.kind = .symlink ∧ c.options.follow_symlinks = false) ∧
        deviceMismatch c child.meta = false ∧
        child.meta.kind = .dir ∧
        depthExceeds c.max_depth nd = false ∧
        child.openErr = none) := rfl

/-- On a plain child list, under `Count` and cross-filesystem scanning, the
POSIX enumeration loop totals exactly the bytes of the level's file
children (provided that total fits in `u64`). -/
theorem posixChildren_total (current : List String) (cs : ChildList)
    (depth k : Nat) (c : TraversalContext) (opts : ScanOptions)
    (hopts : c.options = opts) (hmd : c.max_depth = some k)
    (hpol : opts.hardlink_policy = .count)
    (hcross : opts.cross_filesystem = true)
    (hplain : plainChildren cs = true)
    (hbound : fileChildrenBytes opts cs ≤ U64MAX) :
    (posixChildren current cs depth c).2.1 = fileChildrenBytes opts cs := by
  match cs with
  | .nil => rfl
  | .cons ie name sub rest =>
    rw [plainChildren_cons, Bool.and_eq_true, Bool.and_eq_true,
      decide_eq_true_eq] at hplain
    obtain ⟨⟨hie, hsubp⟩, hrest⟩ := hplain
    subst hie
    rcases sub with ⟨m2, rde2, oe2, cs2⟩
    rw [plainTree_node, Bool.and_eq_true, decide_eq_true_eq] at hsubp
    obtain ⟨⟨hkind2, hstat2, hrde2, hoe2⟩, hcs2⟩ := hsubp
    subst hrde2
    subst hoe2
    rw [fileChildrenBytes_cons] at hbound ⊢
    dsimp only [FsTree.meta] at hbound ⊢
    rw [posixChildren]
    dsimp only [FsTree.meta, FsTree.openErr]
    rw [hstat2]
    dsimp only
    have hsym : ¬(m2.kind = .symlink ∧ c.options.follow_symlinks = false) := by
      rintro ⟨hs, -⟩
      rcases hkind2 with h | h <;> rw [h] at hs <;> exact NodeKind.noConfusion hs
    rw [if_neg hsym]
    have hdm : deviceMismatch c m2 = false :=
      deviceMismatch_cross c m2 (by rw [hopts]; exact hcross)
    simp only [hdm, Bool.false_eq_true, if_false]
    have hsc : c.should_count_file m2 = (true, c) :=
      should_count_count c m2 (by rw [hopts]; exact hpol)
    rcases hkind2 with hf2 | hd2
    · -- file child
      rw [if_pos hf2]
      rw [hf2] at hbound ⊢
      dsimp only at hbound ⊢
      have hone : (c.should_count_file m2).1 = true := by rw [hsc]
      set c1 := (c.should_count_file m2).2 with hc1
      have hopts1 : c1.options = opts := by rw [hc1, hsc]; exact hopts
      have hmd1 : c1.max_depth = some k := by rw [hc1, hsc]; exact hmd
      have hgs : c1.get_size m2 = basisSize opts m2 :=
        get_size_basis c1 m2 opts hopts1
      by_cases hw : withinDepth c1.max_depth (depth + 1) = true
      · rw [if_pos hw]
        set c2 := c1.insert_entry (current ++ [name])
          { path := pathStr (current ++ [name])
            parent_path := some (pathStr current)
            depth := depth + 1
            size_bytes := if (c.should_count_file m2).1 = true
              then c1.get_size m2 else 0
            file_count := 0
            dir_count := 0 } with hc2
        have hv := posixChildren_total current rest depth k c2 opts hopts1
          hmd1 hpol hcross hrest (by omega)
        rcases hr : posixChildren current rest depth c2 with ⟨c3, t3, f3, d3⟩
        rw [hr] at hv
        dsimp at hv
        subst hv
        rw [if_pos hone, hgs]
        exact satAdd64_of_le (basisSize opts m2) (fileChildrenBytes opts rest)
          (by omega)
      · rw [if_neg hw]
        have hv := posixChildren_total current rest depth k c1 opts hopts1
          hmd1 hpol hcross hrest (by omega)
        rcases hr : posixChildren current rest depth c1 with ⟨c3, t3, f3, d3⟩
        rw [hr] at hv
        dsimp at hv
        subst hv
        rw [if_pos hone, hgs]
        exact satAdd64_of_le (basisSize opts m2) (fileChildrenBytes opts rest)
          (by omega)
    · -- directory child
      have hnf2 : ¬ m2.kind = .file := fun h => by
        rw [hd2] at h
        exact NodeKind.noConfusion h
      rw [if_neg hnf2, if_pos hd2]
      rw [hd2] at hbound ⊢
      dsimp only at hbound ⊢
      have hv := posixChildren_total current rest depth k c opts hopts hmd
        hpol hcross hrest (by omega)
      by_cases hex : depthExceeds c.max_depth (depth + 1) = true
      · rw [if_pos hex]
        rcases hr : posixChildren current rest depth c with ⟨c3, t3, f3, d3⟩
        rw [hr] at hv
        dsimp at hv
        subst hv
        exact (Nat.zero_add _).symm
      · rw [if_neg hex]
        dsimp only
        rcases hr : posixChildren current rest depth c with ⟨c3, t3, f3, d3⟩
        rw [hr] at hv
        dsimp at hv
        subst hv
        exact (Nat.zero_add _).symm

mutual

/-- A size measure for the strong induction below. -/
def treeSize : FsTree → Nat
  | .node _ _ _ cs => childListSize cs + 1

def childListSize : ChildList → Nat
  | .nil => 0
  | .cons _ _ sub rest => treeSize sub + childListSize rest + 1

end

/-- On plain subtrees whose full byte totals fit in `u64`, the POSIX walk
under `Count` and cross-filesystem scanning returns exactly the
depth-clamped byte totals: the directory half and the fan-out half, proved
together by strong induction on the size measure. -/
theorem posixClampedAux (n : Nat) :
    (∀ (current : List String) (t : FsTree) (depth k : Nat)
      (c : TraversalContext) (opts : ScanOptions),
      treeSize t ≤ n → c.options = opts → c.max_depth = some k →
      opts.hardlink_policy = .count → opts.cross_filesystem = true →
      plainTree t = true → depth ≤ k → t.meta.kind = .dir →
      subtreeBytesFull opts t ≤ U64MAX →
      (traverse_directory_fd current t depth c).2 =
        .ok (subtreeBytesClamped opts t (k - depth)) ∧
      ∃ e, alLookup (traverse_directory_fd current t depth c).1.entries
          current = some e ∧
        e.depth = depth ∧
        e.size_bytes = subtreeBytesClamped opts t (k - depth)) ∧
    (∀ (current : List String) (cs : ChildList) (depth k : Nat)
      (c : TraversalContext) (opts : ScanOptions),
      childListSize cs ≤ n → c.options = opts → c.max_depth = some k →
      opts.hardlink_policy = .count → opts.cross_filesystem = true →
      plainChildren cs = true → depth ≤ k →
      childrenBytesFull opts cs ≤ U64MAX →
      (posixSubdirs current cs depth c).2 =
        .ok (dirChildrenBytesClamped opts cs (k - depth))) := by
  induction n using Nat.strong_induction_on with
  | _ n ih =>
  constructor
  · intro current t depth k c opts hsz hopts hmd hpol hcross hplain hdep hdir
      hbound
    rcases t with ⟨m, rde, oe, cs⟩
    rw [plainTree_node, Bool.and_eq_true, decide_eq_true_eq] at hplain
    obtain ⟨⟨hkind, hstat, hrde, hoe⟩, hcs⟩ := hplain
    subst hrde
    have hdirm : m.kind = NodeKind.dir := hdir
    rw [subtreeBytesFull_node, hdirm] at hbound
    dsimp only at hbound
    have htsz : treeSize (.node m none oe cs) = childListSize cs + 1 := rfl
    have hlt1 : childListSize cs < n := by omega
    rw [traverse_directory_fd_node]
    have hex : depthExceeds c.max_depth depth = false := by
      rw [hmd]
      simp only [depthExceeds, decide_eq_false_iff_not]
      omega
    simp only [hex, Bool.false_eq_true, if_false]
    have hsplit := childrenBytesClamped_split opts cs (k - depth)
    have hlecf := childrenBytesClamped_le_full opts cs (k - depth)
    have hbf : fileChildrenBytes opts cs ≤ U64MAX := by omega
    have hft := posixChildren_total current cs depth k c opts hopts hmd hpol
      hcross hcs hbf
    have hg1 := posixChildren_growth current cs depth c k hmd
    rcases hr1 : posixChildren current cs depth c with ⟨c1, ftotal, nf1, nd1⟩
    rw [hr1] at hft hg1
    dsimp at hft
    subst hft
    dsimp only
    have hopts1 : c1.options = opts := hg1.2.1.trans hopts
    have hmd1 : c1.max_depth = some k := hg1.1.trans hmd
    have hsub := (ih (childListSize cs) hlt1).2 current cs depth k c1 opts
      (Nat.le_refl _) hopts1 hmd1 hpol hcross hcs hdep hbound
    rcases hr2 : posixSubdirs current cs depth c1 with ⟨c2, res2⟩
    rw [hr2] at hsub
    dsimp at hsub
    subst hsub
    dsimp only
    have htot : satAdd64 (fileChildrenBytes opts cs)
        (dirChildrenBytesClamped opts cs (k - depth)) =
        childrenBytesClamped opts cs (k - depth) := by
      rw [satAdd64_of_le _ _ (by omega)]
      omega
    refine ⟨?_, ?_⟩
    · show Except.ok (satAdd64 (fileChildrenBytes opts cs)
          (dirChildrenBytesClamped opts cs (k - depth))) =
        Except.ok (subtreeBytesClamped opts (.node m none oe cs) (k - depth))
      rw [htot, subtreeBytesClamped_node, hdirm]
    · refine ⟨_, alLookup_alInsert c2.entries current _, rfl, ?_⟩
      show satAdd64 (fileChildrenBytes opts cs)
          (dirChildrenBytesClamped opts cs (k - depth)) =
        subtreeBytesClamped opts (.node m none oe cs) (k - depth)
      rw [htot, subtreeBytesClamped_node, hdirm]
  · intro current cs depth k c opts hsz hopts hmd hpol hcross hplain hdep
      hbound
    match cs, hsz, hplain, hbound with
    | .nil, hsz, hplain, hbound => rfl
    | .cons ie name sub rest, hsz, hplain, hbound =>
      rw [plainChildren_cons, Bool.and_eq_true, Bool.and_eq_true,
        decide_eq_true_eq] at hplain
      obtain ⟨⟨hie, hsubp⟩, hrest⟩ := hplain
      subst hie
      rcases sub with ⟨m2, rde2, oe2, cs2⟩
      rw [plainTree_node, Bool.and_eq_true, decide_eq_true_eq] at hsubp
      obtain ⟨⟨hkind2, hstat2, hrde2, hoe2⟩, hcs2⟩ := hsubp
      subst hoe2
      rw [childrenBytesFull_cons] at hbound
      have hcsz : childListSize
          (ChildList.cons none name (.node m2 rde2 none cs2) rest) =
          treeSize (.node m2 rde2 none cs2) + childListSize rest + 1 := rfl
      have hltr : childListSize rest < n := by omega
      have hlts : treeSize (.node m2 rde2 none cs2) < n := by omega
      rw [posixSubdirs, dirChildrenBytesClamped_cons]
      dsimp only [FsTree.meta]
      rcases hkind2 with hf2 | hd2
      · -- file child: never collected
        have hcol : posixCollected c none (.node m2 rde2 none cs2) (depth + 1)
            = false := by
          rw [posixCollected_none]
          simp only [decide_eq_false_iff_not]
          rintro ⟨-, -, -, hkd, -, -⟩
          have hkd2 : m2.kind = NodeKind.dir := hkd
          rw [hf2] at hkd2
          exact NodeKind.noConfusion hkd2
        simp only [hcol, Bool.false_eq_true, if_false]
        have hbr : childrenBytesFull opts rest ≤ U64MAX := by omega
        rw [(ih (childListSize rest) hltr).2 current rest depth k c opts
          (Nat.le_refl _) hopts hmd hpol hcross hrest hdep hbr]
        rw [hf2]
        dsimp only
        rw [Nat.zero_add]
      · by_cases hlt : depth < k
        · -- collected directory child: recurse
          have hcol : posixCollected c none (.node m2 rde2 none cs2)
              (depth + 1) = true := by
            rw [posixCollected_none, decide_eq_true_eq]
            refine ⟨hstat2, ?_, ?_, hd2, ?_, rfl⟩
            · rintro ⟨hs, -⟩
              have hs2 : m2.kind = NodeKind.symlink := hs
              rw [hd2] at hs2
              exact NodeKind.noConfusion hs2
            · exact deviceMismatch_cross c _ (by rw [hopts]; exact hcross)
            · rw [hmd]
              simp only [depthExceeds, decide_eq_false_iff_not]
              omega
          simp only [hcol, if_true]
          have hsubplain : plainTree (.node m2 rde2 none cs2) = true := by
            rw [plainTree_node, Bool.and_eq_true, decide_eq_true_eq]
            exact ⟨⟨Or.inr hd2, hstat2, hrde2, rfl⟩, hcs2⟩
          have hdep1 : depth + 1 ≤ k := by omega
          have hd2m : (FsTree.node m2 rde2 none cs2).meta.kind =
              NodeKind.dir := hd2
          have hbs : subtreeBytesFull opts (.node m2 rde2 none cs2) ≤
              U64MAX := by omega
          obtain ⟨hres1, -⟩ := (ih (treeSize (.node m2 rde2 none cs2)) hlts).1
            (current ++ [name]) (.node m2 rde2 none cs2) (depth + 1) k c opts
            (Nat.le_refl _) hopts hmd hpol hcross hsubplain hdep1 hd2m hbs
          have hg1 := traverse_directory_fd_growth (current ++ [name])
            (.node m2 rde2 none cs2) (depth + 1) c k hmd
          rcases hr1 : traverse_directory_fd (current ++ [name])
              (.node m2 rde2 none cs2) (depth + 1) c with ⟨c1, res1⟩
          rw [hr1] at hres1 hg1
          dsimp at hres1
          subst hres1
          dsimp only
          have hopts1 : c1.options = opts := hg1.2.1.trans hopts
          have hmd1 : c1.max_depth = some k := hg1.1.trans hmd
          have hbr : childrenBytesFull opts rest ≤ U64MAX := by omega
          have hv := (ih (childListSize rest) hltr).2 current rest depth k c1
            opts (Nat.le_refl _) hopts1 hmd1 hpol hcross hrest hdep hbr
          rcases hr2 : posixSubdirs current rest depth c1 with ⟨c2, res2⟩
          rw [hr2] at hv
          dsimp at hv
          subst hv
          dsimp only
          have hle1 := subtreeBytesClamped_le_full opts
            (.node m2 rde2 none cs2) (k - (depth + 1))
          have hle2 := childrenBytesClamped_le_full opts rest (k - depth)
          have hsplit2 := childrenBytesClamped_split opts rest (k - depth)
          have hsat : satAdd64
              (subtreeBytesClamped opts (.node m2 rde2 none cs2)
                (k - (depth + 1)))
              (dirChildrenBytesClamped opts rest (k - depth)) =
              subtreeBytesClamped opts (.node m2 rde2 none cs2)
                (k - (depth + 1)) +
                dirChildrenBytesClamped opts rest (k - depth) :=
            satAdd64_of_le _ _ (by omega)
          rw [hsat, hd2]
          have hb : k - depth = (k - (depth + 1)) + 1 := by omega
          rw [hb]
        · -- budget exhausted: child not collected
          have hcol : posixCollected c none (.node m2 rde2 none cs2)
              (depth + 1) = false := by
            rw [posixCollected_none]
            simp only [decide_eq_false_iff_not]
            rintro ⟨-, -, -, -, hde, -⟩
            rw [hmd] at hde
            simp only [depthExceeds, decide_eq_false_iff_not] at hde
            omega
          simp only [hcol, Bool.false_eq_true, if_false]
          have hbr : childrenBytesFull opts rest ≤ U64MAX := by omega
          rw [(ih (childListSize rest) hltr).2 current rest depth k c opts
            (Nat.le_refl _) hopts hmd hpol hcross hrest hdep hbr]
          rw [hd2]
          have hdk : k - depth = 0 := by omega
          rw [hdk]
          dsimp only
          rw [Nat.zero_add]

/-- The directory half of `posixClampedAux`, at the tree's own size. -/
theorem traverse_directory_fd_clamped (current : List String) (t : FsTree)
    (depth k : Nat) (c : TraversalContext) (opts : ScanOptions)
    (hopts : c.options = opts) (hmd : c.max_depth = some k)
    (hpol : opts.hardlink_policy = .count)
    (hcross : opts.cross_filesystem = true)
    (hplain : plainTree t = true) (hdep : depth ≤ k)
    (hdir : t.meta.kind = .dir)
    (hbound : subtreeBytesFull opts t ≤ U64MAX) :
    (traverse_directory_fd current t depth c).2 =
      .ok (subtreeBytesClamped opts t (k - depth)) ∧
    ∃ e, alLookup (traverse_directory_fd current t depth c).1.entries
        current = some e ∧
      e.depth = depth ∧
      e.size_bytes = subtreeBytesClamped opts t (k - depth) :=
  (posixClampedAux (treeSize t)).1 current t depth k c opts (Nat.le_refl _)
    hopts hmd hpol hcross hplain hdep hdir hbound

/-- The names of a directory level's child slots (what `read_dir` yields). -/
def childNames : ChildList → List String
  | .nil => []
  | .cons _ n _ rest => n :: childNames rest

mutual

/-- No directory level of the tree repeats a child name (true of any real
directory). -/
def distinctNames : FsTree → Bool
  | .node _ _ _ cs => distinctChildNames cs

def distinctChildNames : ChildList → Bool
  | .nil => true
  | .cons _ n sub rest =>
    decide (n ∉ childNames rest) && distinctNames sub && distinctChildNames rest

end

mutual

/-- The subtree reached from a node along a relative component path. -/
def subtreeAt : FsTree → List String → Option FsTree
  | t, [] => some t
  | .node _ _ _ cs, name :: rest => childSubtreeAt cs name rest

/-- Resolve one component among a level's child slots, then descend. -/
def childSubtreeAt : ChildList → String → List String → Option FsTree
  | .nil, _, _ => none
  | .cons _ n sub rest, name, p =>
    if n = name then subtreeAt sub p else childSubtreeAt rest name p

end

theorem childNames_cons (ie : Option IoErr) (n : String) (sub : FsTree)
    (rest : ChildList) :
    childNames (.cons ie n sub rest) = n :: childNames rest := rfl

theorem distinctNames_node (m : Meta) (rde oe : Option IoErr)
    (cs : ChildList) :
    distinctNames (.node m rde oe cs) = distinctChildNames cs := rfl

theorem distinctChildNames_cons (ie : Option IoErr) (n : String)
    (sub : FsTree) (rest : ChildList) :
    distinctChildNames (.cons ie n sub rest) =
      (decide (n ∉ childNames rest) && distinctNames sub &&
        distinctChildNames rest) := rfl

theorem subtreeAt_nilpath (t : FsTree) : subtreeAt t [] = some t := by
  rcases t with ⟨m, rde, oe, cs⟩
  rfl

theorem subtreeAt_conspath (m : Meta) (rde oe : Option IoErr)
    (cs : ChildList) (name : String) (p : List String) :
    subtreeAt (.node m rde oe cs) (name :: p) = childSubtreeAt cs name p := rfl

theorem childSubtreeAt_cons (ie : Option IoErr) (n : String) (sub : FsTree)
    (rest : ChildList) (name : String) (p : List String) :
    childSubtreeAt (.cons ie n sub rest) name p =
      if n = name then subtreeAt sub p else childSubtreeAt rest name p := rfl

/-- A resolvable component is one of the level's names. -/
theorem childSubtreeAt_mem (cs : ChildList) (name : String) (p : List String)
    (sub : FsTree) (h : childSubtreeAt cs name p = some sub) :
    name ∈ childNames cs := by
  match cs with
  | .nil => exact absurd h (by simp [childSubtreeAt])
  | .cons ie n sub2 rest =>
    rw [childSubtreeAt_cons] at h
    rw [childNames_cons]
    by_cases hn : n = name
    · subst hn
      exact List.mem_cons_self n _
    · rw [if_neg hn] at h
      exact List.mem_cons_of_mem n (childSubtreeAt_mem rest name p sub h)

/-- A file subtree's clamped total is its basis size, whatever the budget. -/
theorem subtreeBytesClamped_file (opts : ScanOptions) (m : Meta)
    (rde oe : Option IoErr) (cs : ChildList) (b : Nat)
    (hf : m.kind = .file) :
    subtreeBytesClamped opts (.node m rde oe cs) b = basisSize opts m := by
  rw [subtreeBytesClamped_node, hf]

/-- The entries the file-child block leaves behind under `Count`: untouched
beyond the depth limit, otherwise exactly the file's entry at its path. -/
theorem legacyFileChild_entries (c : TraversalContext)
    (current p : List String) (m : Meta) (depth : Nat)
    (h : c.options.hardlink_policy = .count) :
    (legacyFileChild c current p m depth).1.entries = c.entries ∨
    (legacyFileChild c current p m depth).1.entries =
      alInsert c.entries p
        { path := pathStr p
          parent_path := some (pathStr current)
          depth := depth + 1
          size_bytes := c.get_size m
          file_count := 0
          dir_count := 0 } := by
  unfold legacyFileChild
  rw [should_count_count c m h]
  by_cases hw : withinDepth c.max_depth (depth + 1) = true
  · right
    simp only [hw, if_true]
    rfl
  · left
    simp [hw]

mutual

/-- Every entry the legacy walk records for a plain, distinctly-named
subtree either pre-existed or is the entry of the subtree at its own path,
carrying that subtree's depth-clamped byte total. -/
theorem traverse_recursive_entries (current : List String) (t : FsTree)
    (depth k : Nat) (c : TraversalContext) (opts : ScanOptions)
    (hopts : c.options = opts) (hmd : c.max_depth = some k)
    (hpol : opts.hardlink_policy = .count)
    (hcross : opts.cross_filesystem = true)
    (hplain : plainTree t = true) (hdn : distinctNames t = true)
    (hdep : depth ≤ k) :
    ∀ kv ∈ (traverse_recursive current t depth c).1.entries,
      kv ∈ c.entries ∨
      ∃ rel sub, subtreeAt t rel = some sub ∧
        kv.1 = current ++ rel ∧
        kv.2.depth = depth + rel.length ∧
        kv.2.size_bytes =
          subtreeBytesClamped opts sub (k - (depth + rel.length)) := by
  rcases t with ⟨m, rde, oe, cs⟩
  rw [plainTree_node, Bool.and_eq_true, decide_eq_true_eq] at hplain
  obtain ⟨⟨hkind, hstat, hrde, hoe⟩, hcs⟩ := hplain
  subst hrde
  rw [distinctNames_node] at hdn
  rw [traverse_recursive_node]
  have hex : depthExceeds c.max_depth depth = false := by
    rw [hmd]
    simp only [depthExceeds, decide_eq_false_iff_not]
    omega
  simp only [hex, Bool.false_eq_true, if_false]
  rw [hstat]
  dsimp only
  have hsym : ¬(m.kind = .symlink ∧ c.options.follow_symlinks = false) := by
    rintro ⟨hs, -⟩
    rcases hkind with h | h <;> rw [h] at hs <;> exact NodeKind.noConfusion hs
  rw [if_neg hsym]
  have hdm : deviceMismatch c m = false :=
    deviceMismatch_cross c m (by rw [hopts]; exact hcross)
  simp only [hdm, Bool.false_eq_true, if_false]
  rcases hkind with hfile | hdir
  · rw [if_pos hfile]
    have hsc : c.should_count_file m = (true, c) :=
      should_count_count c m (by rw [hopts]; exact hpol)
    simp only [hsc]
    intro kv hkv
    exact Or.inl hkv
  · have hnf : ¬ m.kind = .file := fun h => by
      rw [hdir] at h
      exact NodeKind.noConfusion h
    rw [if_neg hnf, if_pos hdir]
    obtain ⟨nf, nd, hv⟩ :=
      legacyChildren_clamped current cs depth k c opts hopts hmd hpol hcross
        hcs hdep
    have hmem := legacyChildren_entries current cs depth k c opts hopts hmd
      hpol hcross hcs hdn hdep
    rcases hlc : legacyChildren current cs depth c with ⟨c1, res⟩
    rw [hlc] at hv hmem
    dsimp at hv
    subst hv
    dsimp only
    intro kv hkv
    rcases alInsert_mem c1.entries current _ kv hkv with hold | hnew
    · rcases hmem kv hold with hl | ⟨name, rel, sub, hat, hpath, hdepth, hsize⟩
      · exact Or.inl hl
      · right
        refine ⟨name :: rel, sub, ?_, ?_, ?_, ?_⟩
        · rw [subtreeAt_conspath]
          exact hat
        · rw [hpath]
        · rw [hdepth, List.length_cons]
          omega
        · have harg : k - (depth + 1 + rel.length) =
              k - (depth + (name :: rel).length) := by
            rw [List.length_cons]
            omega
          rw [hsize, harg]
    · right
      rw [hnew]
      refine ⟨[], .node m none oe cs, subtreeAt_nilpath _, ?_, ?_, ?_⟩
      · show current = current ++ []
        rw [List.append_nil]
      · show depth = depth + ([] : List String).length
        simp
      · show childrenBytesClamped opts cs (k - depth) =
          subtreeBytesClamped opts (.node m none oe cs)
            (k - (depth + ([] : List String).length))
        rw [subtreeBytesClamped_node, hdir]
        rfl

/-- Every entry the legacy child loop records for a plain, distinctly-named
level either pre-existed or belongs to the subtree resolved by its own
relative path, with that subtree's clamped total. -/
theorem legacyChildren_entries (current : List String) (cs : ChildList)
    (depth k : Nat) (c : TraversalContext) (opts : ScanOptions)
    (hopts : c.options = opts) (hmd : c.max_depth = some k)
    (hpol : opts.hardlink_policy = .count)
    (hcross : opts.cross_filesystem = true)
    (hplain : plainChildren cs = true) (hdn : distinctChildNames cs = true)
    (hdep : depth ≤ k) :
    ∀ kv ∈ (legacyChildren current cs depth c).1.entries,
      kv ∈ c.entries ∨
      ∃ name rel sub, childSubtreeAt cs name rel = some sub ∧
        kv.1 = current ++ name :: rel ∧
        kv.2.depth = depth + 1 + rel.length ∧
        kv.2.size_bytes =
          subtreeBytesClamped opts sub (k - (depth + 1 + rel.length)) := by
  match cs with
  | .nil =>
    intro kv hkv
    exact Or.inl hkv
  | .cons ie name sub rest =>
    rw [plainChildren_cons, Bool.and_eq_true, Bool.and_eq_true,
      decide_eq_true_eq] at hplain
    obtain ⟨⟨hie, hsubp⟩, hrest⟩ := hplain
    subst hie
    rw [distinctChildNames_cons, Bool.and_eq_true, Bool.and_eq_true,
      decide_eq_true_eq] at hdn
    obtain ⟨⟨hnn, hdsub⟩, hdrest⟩ := hdn
    rcases sub with ⟨m2, rde2, oe2, cs2⟩
    rw [plainTree_node, Bool.and_eq_true, decide_eq_true_eq] at hsubp
    obtain ⟨⟨hkind2, hstat2, hrde2, hoe2⟩, hcs2⟩ := hsubp
    rw [legacyChildren]
    dsimp only [FsTree.meta]
    rw [hstat2]
    dsimp only
    have hpol' : c.options.hardlink_policy = .count := by
      rw [hopts]; exact hpol
    have hlift : ∀ (kv : List String × DirectoryEntry),
        (∃ name2 rel sub2, childSubtreeAt rest name2 rel = some sub2 ∧
          kv.1 = current ++ name2 :: rel ∧
          kv.2.depth = depth + 1 + rel.length ∧
          kv.2.size_bytes =
            subtreeBytesClamped opts sub2 (k - (depth + 1 + rel.length))) →
        ∃ name2 rel sub2,
          childSubtreeAt (.cons none name (.node m2 rde2 oe2 cs2) rest)
            name2 rel = some sub2 ∧
          kv.1 = current ++ name2 :: rel ∧
          kv.2.depth = depth + 1 + rel.length ∧
          kv.2.size_bytes =
            subtreeBytesClamped opts sub2 (k - (depth + 1 + rel.length)) := by
      rintro kv ⟨name2, rel, sub2, hat, h1, h2, h3⟩
      refine ⟨name2, rel, sub2, ?_, h1, h2, h3⟩
      rw [childSubtreeAt_cons]
      have hne : ¬ name = name2 := by
        intro he
        exact hnn (he ▸ childSubtreeAt_mem rest name2 rel sub2 hat)
      rw [if_neg hne]
      exact hat
    have hliftT : ∀ (kv : List String × DirectoryEntry),
        (∃ rel sub2,
          subtreeAt (.node m2 rde2 oe2 cs2) rel = some sub2 ∧
          kv.1 = (current ++ [name]) ++ rel ∧
          kv.2.depth = depth + 1 + rel.length ∧
          kv.2.size_bytes =
            subtreeBytesClamped opts sub2 (k - (depth + 1 + rel.length))) →
        ∃ name2 rel sub2,
          childSubtreeAt (.cons none name (.node m2 rde2 oe2 cs2) rest)
            name2 rel = some sub2 ∧
          kv.1 = current ++ name2 :: rel ∧
          kv.2.depth = depth + 1 + rel.length ∧
          kv.2.size_bytes =
            subtreeBytesClamped opts sub2 (k - (depth + 1 + rel.length)) := by
      rintro kv ⟨rel, sub2, hat, h1, h2, h3⟩
      refine ⟨name, rel, sub2, ?_, ?_, h2, h3⟩
      · rw [childSubtreeAt_cons, if_pos rfl]
        exact hat
      · rw [h1, List.append_assoc]
        rfl
    rcases hkind2 with hf2 | hd2
    · rw [if_pos hf2]
      rcases hfc : legacyFileChild c current (current ++ [name]) m2 depth
        with ⟨c1, fsize⟩
      have hg1 : ctxGrowth k c c1 := by
        have := ctxGrowth_legacyFileChild k c current (current ++ [name])
          m2 depth hmd
        rw [hfc] at this
        exact this
      have hents : c1.entries = c.entries ∨
          c1.entries = alInsert c.entries (current ++ [name])
            { path := pathStr (current ++ [name])
              parent_path := some (pathStr current)
              depth := depth + 1
              size_bytes := c.get_size m2
              file_count := 0
              dir_count := 0 } := by
        have := legacyFileChild_entries c current (current ++ [name]) m2
          depth hpol'
        rw [hfc] at this
        exact this
      dsimp only
      have hmem := legacyChildren_entries current rest depth k c1 opts
        (hg1.2.1.trans hopts) (hg1.1.trans hmd) hpol hcross hrest hdrest hdep
      rcases hr2 : legacyChildren current rest depth c1 with ⟨c2, res2⟩
      rw [hr2] at hmem
      have hfin : ∀ kv ∈ c2.entries,
          kv ∈ c.entries ∨
          ∃ name2 rel sub2,
            childSubtreeAt (.cons none name (.node m2 rde2 oe2 cs2) rest)
              name2 rel = some sub2 ∧
            kv.1 = current ++ name2 :: rel ∧
            kv.2.depth = depth + 1 + rel.length ∧
            kv.2.size_bytes =
              subtreeBytesClamped opts sub2 (k - (depth + 1 + rel.length)) := by
        intro kv hkv
        rcases hmem kv hkv with hold | hw
        · rcases hents with he | he
          · rw [he] at hold
            exact Or.inl hold
          · rw [he] at hold
            rcases alInsert_mem _ _ _ kv hold with h1 | h1
            · exact Or.inl h1
            · right
              rw [h1]
              refine ⟨name, [], .node m2 rde2 oe2 cs2, ?_, rfl, ?_, ?_⟩
              · rw [childSubtreeAt_cons, if_pos rfl]
                exact subtreeAt_nilpath _
              · show depth + 1 = depth + 1 + ([] : List String).length
                simp
              · show c.get_size m2 =
                  subtreeBytesClamped opts (.node m2 rde2 oe2 cs2)
                    (k - (depth + 1 + ([] : List String).length))
                rw [get_size_basis c m2 opts hopts,
                  subtreeBytesClamped_file opts m2 rde2 oe2 cs2 _ hf2]
        · exact Or.inr (hlift kv hw)
      rcases res2 with e2 | ⟨t3, n3, d3⟩
      · exact hfin
      · exact hfin
    · have hnf2 : ¬ m2.kind = .file := fun h => by
        rw [hd2] at h
        exact NodeKind.noConfusion h
      rw [if_neg hnf2, if_pos hd2]
      by_cases hlt : depth < k
      · have hsubplain : plainTree (.node m2 rde2 oe2 cs2) = true := by
          rw [plainTree_node, Bool.and_eq_true, decide_eq_true_eq]
          exact ⟨⟨Or.inr hd2, hstat2, hrde2, hoe2⟩, hcs2⟩
        have hmem1 := traverse_recursive_entries (current ++ [name])
          (.node m2 rde2 oe2 cs2) (depth + 1) k c opts hopts hmd hpol hcross
          hsubplain hdsub (by omega)
        have hg1 := traverse_recursive_growth (current ++ [name])
          (.node m2 rde2 oe2 cs2) (depth + 1) c k hmd
        rcases hr1 : traverse_recursive (current ++ [name])
            (.node m2 rde2 oe2 cs2) (depth + 1) c with ⟨c1, res1⟩
        rw [hr1] at hmem1 hg1
        rcases res1 with e1 | s1
        · dsimp only
          intro kv hkv
          rcases hmem1 kv hkv with hold | hw1
          · exact Or.inl hold
          · exact Or.inr (hliftT kv hw1)
        · dsimp only
          have hmem2 := legacyChildren_entries current rest depth k c1 opts
            (hg1.2.1.trans hopts) (hg1.1.trans hmd) hpol hcross hrest hdrest
            hdep
          rcases hr2 : legacyChildren current rest depth c1 with ⟨c2, res2⟩
          rw [hr2] at hmem2
          have hfin : ∀ kv ∈ c2.entries,
              kv ∈ c.entries ∨
              ∃ name2 rel sub2,
                childSubtreeAt (.cons none name (.node m2 rde2 oe2 cs2) rest)
                  name2 rel = some sub2 ∧
                kv.1 = current ++ name2 :: rel ∧
                kv.2.depth = depth + 1 + rel.length ∧
                kv.2.size_bytes =
                  subtreeBytesClamped opts sub2
                    (k - (depth + 1 + rel.length)) := by
            intro kv hkv
            rcases hmem2 kv hkv with hold | hw
            · rcases hmem1 kv hold with holdc | hw1
              · exact Or.inl holdc
              · exact Or.inr (hliftT kv hw1)
            · exact Or.inr (hlift kv hw)
          rcases res2 with e2 | ⟨t3, n3, d3⟩
          · exact hfin
          · exact hfin
      · rw [traverse_recursive_node]
        have hexc : depthExceeds c.max_depth (depth + 1) = true := by
          rw [hmd]
          simp only [depthExceeds, decide_eq_true_eq]
          omega
        simp only [hexc, if_true]
        have hmem2 := legacyChildren_entries current rest depth k c opts hopts
          hmd hpol hcross hrest hdrest hdep
        rcases hr2 : legacyChildren current rest depth c with ⟨c2, res2⟩
        rw [hr2] at hmem2
        have hfin : ∀ kv ∈ c2.entries,
            kv ∈ c.entries ∨
            ∃ name2 rel sub2,
              childSubtreeAt (.cons none name (.node m2 rde2 oe2 cs2) rest)
                name2 rel = some sub2 ∧
              kv.1 = current ++ name2 :: rel ∧
              kv.2.depth = depth + 1 + rel.length ∧
              kv.2.size_bytes =
                subtreeBytesClamped opts sub2
                  (k - (depth + 1 + rel.length)) := by
          intro kv hkv
          rcases hmem2 kv hkv with hold | hw
          · exact Or.inl hold
          · exact Or.inr (hlift kv hw)
        rcases res2 with e2 | ⟨t3, n3, d3⟩
        · exact hfin
        · exact hfin

end

/-- Every entry the POSIX enumeration loop records for a plain,
distinctly-named level either pre-existed or is a file child's entry at its
own path, carrying that file's (budget-independent) clamped total. -/
theorem posixChildren_entries (current : List String) (cs : ChildList)
    (depth k : Nat) (c : TraversalContext) (opts : ScanOptions)
    (hopts : c.options = opts) (hmd : c.max_depth = some k)
    (hpol : opts.hardlink_policy = .count)
    (hcross : opts.cross_filesystem = true)
    (hplain : plainChildren cs = true)
    (hdn : distinctChildNames cs = true) :
    ∀ kv ∈ (posixChildren current cs depth c).1.entries,
      kv ∈ c.entries ∨
      ∃ name rel sub, childSubtreeAt cs name rel = some sub ∧
        kv.1 = current ++ name :: rel ∧
        kv.2.depth = depth + 1 + rel.length ∧
        kv.2.size_bytes =
          subtreeBytesClamped opts sub (k - (depth + 1 + rel.length)) := by
  match cs with
  | .nil =>
    intro kv hkv
    exact Or.inl hkv
  | .cons ie name sub rest =>
    rw [plainChildren_cons, Bool.and_eq_true, Bool.and_eq_true,
      decide_eq_true_eq] at hplain
    obtain ⟨⟨hie, hsubp⟩, hrest⟩ := hplain
    subst hie
    rw [distinctChildNames_cons, Bool.and_eq_true, Bool.and_eq_true,
      decide_eq_true_eq] at hdn
    obtain ⟨⟨hnn, hdsub⟩, hdrest⟩ := hdn
    rcases sub with ⟨m2, rde2, oe2, cs2⟩
    rw [plainTree_node, Bool.and_eq_true, decide_eq_true_eq] at hsubp
    obtain ⟨⟨hkind2, hstat2, hrde2, hoe2⟩, hcs2⟩ := hsubp
    subst hrde2
    subst hoe2
    rw [posixChildren]
    dsimp only [FsTree.meta, FsTree.openErr]
    rw [hstat2]
    dsimp only
    have hsym : ¬(m2.kind = .symlink ∧ c.options.follow_symlinks = false) := by
      rintro ⟨hs, -⟩
      rcases hkind2 with h | h <;> rw [h] at hs <;> exact NodeKind.noConfusion hs
    rw [if_neg hsym]
    have hdm : deviceMismatch c m2 = false :=
      deviceMismatch_cross c m2 (by rw [hopts]; exact hcross)
    simp only [hdm, Bool.false_eq_true, if_false]
    have hsc : c.should_count_file m2 = (true, c) :=
      should_count_count c m2 (by rw [hopts]; exact hpol)
    have hlift : ∀ (kv : List String × DirectoryEntry),
        (∃ name2 rel sub2, childSubtreeAt rest name2 rel = some sub2 ∧
          kv.1 = current ++ name2 :: rel ∧
          kv.2.depth = depth + 1 + rel.length ∧
          kv.2.size_bytes =
            subtreeBytesClamped opts sub2 (k - (depth + 1 + rel.length))) →
        ∃ name2 rel sub2,
          childSubtreeAt (.cons none name (.node m2 none none cs2) rest)
            name2 rel = some sub2 ∧
          kv.1 = current ++ name2 :: rel ∧
          kv.2.depth = depth + 1 + rel.length ∧
          kv.2.size_bytes =
            subtreeBytesClamped opts sub2 (k - (depth + 1 + rel.length)) := by
      rintro kv ⟨name2, rel, sub2, hat, h1, h2, h3⟩
      refine ⟨name2, rel, sub2, ?_, h1, h2, h3⟩
      rw [childSubtreeAt_cons]
      have hne : ¬ name = name2 := by
        intro he
        exact hnn (he ▸ childSubtreeAt_mem rest name2 rel sub2 hat)
      rw [if_neg hne]
      exact hat
    rcases hkind2 with hf2 | hd2
    · -- file child
      rw [if_pos hf2]
      dsimp only
      have hone : (c.should_count_file m2).1 = true := by rw [hsc]
      set c1 := (c.should_count_file m2).2 with hc1
      have hopts1 : c1.options = opts := by rw [hc1, hsc]; exact hopts
      have hmd1 : c1.max_depth = some k := by rw [hc1, hsc]; exact hmd
      have hc1e : c1.entries = c.entries := by rw [hc1, hsc]
      by_cases hw : withinDepth c1.max_depth (depth + 1) = true
      · rw [if_pos hw]
        set c2 := c1.insert_entry (current ++ [name])
          { path := pathStr (current ++ [name])
            parent_path := some (pathStr current)
            depth := depth + 1
            size_bytes := if (c.should_count_file m2).1 = true
              then c1.get_size m2 else 0
            file_count := 0
            dir_count := 0 } with hc2
        have hmem := posixChildren_entries current rest depth k c2 opts
          hopts1 hmd1 hpol hcross hrest hdrest
        rcases hr : posixChildren current rest depth c2 with ⟨c3, t3, f3, d3⟩
        rw [hr] at hmem
        intro kv hkv
        rcases hmem kv hkv with hold | hw2
        · rw [hc2] at hold
          rcases alInsert_mem c1.entries (current ++ [name]) _ kv hold
            with h1 | h1
          · exact Or.inl (hc1e ▸ h1)
          · right
            rw [h1]
            refine ⟨name, [], .node m2 none none cs2, ?_, rfl, ?_, ?_⟩
            · rw [childSubtreeAt_cons, if_pos rfl]
              exact subtreeAt_nilpath _
            · show depth + 1 = depth + 1 + ([] : List String).length
              simp
            · show (if (c.should_count_file m2).1 = true
                  then c1.get_size m2 else 0) =
                subtreeBytesClamped opts (.node m2 none none cs2)
                  (k - (depth + 1 + ([] : List String).length))
              rw [if_pos hone, get_size_basis c1 m2 opts hopts1,
                subtreeBytesClamped_file opts m2 none none cs2 _ hf2]
        · exact Or.inr (hlift kv hw2)
      · rw [if_neg hw]
        have hmem := posixChildren_entries current rest depth k c1 opts
          hopts1 hmd1 hpol hcross hrest hdrest
        rcases hr : posixChildren current rest depth c1 with ⟨c3, t3, f3, d3⟩
        rw [hr] at hmem
        intro kv hkv
        rcases hmem kv hkv with hold | hw2
        · exact Or.inl (hc1e ▸ hold)
        · exact Or.inr (hlift kv hw2)
    · -- directory child
      have hnf2 : ¬ m2.kind = .file := fun h => by
        rw [hd2] at h
        exact NodeKind.noConfusion h
      rw [if_neg hnf2, if_pos hd2]
      have hmem := posixChildren_entries current rest depth k c opts
        hopts hmd hpol hcross hrest hdrest
      by_cases hex : depthExceeds c.max_depth (depth + 1) = true
      · rw [if_pos hex]
        rcases hr : posixChildren current rest depth c with ⟨c3, t3, f3, d3⟩
        rw [hr] at hmem
        intro kv hkv
        rcases hmem kv hkv with hold | hw2
        · exact Or.inl hold
        · exact Or.inr (hlift kv hw2)
      · rw [if_neg hex]
        dsimp only
        rcases hr : posixChildren current rest depth c with ⟨c3, t3, f3, d3⟩
        rw [hr] at hmem
        intro kv hkv
        rcases hmem kv hkv with hold | hw2
        · exact Or.inl hold
        · exact Or.inr (hlift kv hw2)

/-- Entry coverage for the POSIX walk on plain, distinctly-named subtrees
whose full totals fit in `u64`: every recorded entry either pre-existed or
is the entry of the subtree at its own path with that subtree's clamped
total — the directory half and the fan-out half, by strong induction on the
size measure. -/
theorem posixEntriesAux (n : Nat) :
    (∀ (current : List String) (t : FsTree) (depth k : Nat)
      (c : TraversalContext) (opts : ScanOptions),
      treeSize t ≤ n → c.options = opts → c.max_depth = some k →
      opts.hardlink_policy = .count → opts.cross_filesystem = true →
      plainTree t = true → distinctNames t = true → depth ≤ k →
      t.meta.kind = .dir → subtreeBytesFull opts t ≤ U64MAX →
      ∀ kv ∈ (traverse_directory_fd current t depth c).1.entries,
        kv ∈ c.entries ∨
        ∃ rel sub, subtreeAt t rel = some sub ∧
          kv.1 = current ++ rel ∧
          kv.2.depth = depth + rel.length ∧
          kv.2.size_bytes =
            subtreeBytesClamped opts sub (k - (depth + rel.length))) ∧
    (∀ (current : List String) (cs : ChildList) (depth k : Nat)
      (c : TraversalContext) (opts : ScanOptions),
      childListSize cs ≤ n → c.options = opts → c.max_depth = some k →
      opts.hardlink_policy = .count → opts.cross_filesystem = true →
      plainChildren cs = true → distinctChildNames cs = true → depth ≤ k →
      childrenBytesFull opts cs ≤ U64MAX →
      ∀ kv ∈ (posixSubdirs current cs depth c).1.entries,
        kv ∈ c.entries ∨
        ∃ name rel sub, childSubtreeAt cs name rel = some sub ∧
          kv.1 = current ++ name :: rel ∧
          kv.2.depth = depth + 1 + rel.length ∧
          kv.2.size_bytes =
            subtreeBytesClamped opts sub (k - (depth + 1 + rel.length))) := by
  induction n using Nat.strong_induction_on with
  | _ n ih =>
  constructor
  · intro current t depth k c opts hsz hopts hmd hpol hcross hplain hdn hdep
      hdir hbound
    rcases t with ⟨m, rde, oe, cs⟩
    rw [plainTree_node, Bool.and_eq_true, decide_eq_true_eq] at hplain
    obtain ⟨⟨hkind, hstat, hrde, hoe⟩, hcs⟩ := hplain
    subst hrde
    rw [distinctNames_node] at hdn
    have hdirm : m.kind = NodeKind.dir := hdir
    rw [subtreeBytesFull_node, hdirm] at hbound
    dsimp only at hbound
    have htsz : treeSize (.node m none oe cs) = childListSize cs + 1 := rfl
    have hlt1 : childListSize cs < n := by omega
    have hliftN : ∀ (kv : List String × DirectoryEntry),
        (∃ name rel sub2, childSubtreeAt cs name rel = some sub2 ∧
          kv.1 = current ++ name :: rel ∧
          kv.2.depth = depth + 1 + rel.length ∧
          kv.2.size_bytes =
            subtreeBytesClamped opts sub2 (k - (depth + 1 + rel.length))) →
        ∃ rel sub2, subtreeAt (.node m none oe cs) rel = some sub2 ∧
          kv.1 = current ++ rel ∧
          kv.2.depth = depth + rel.length ∧
          kv.2.size_bytes =
            subtreeBytesClamped opts sub2 (k - (depth + rel.length)) := by
      rintro kv ⟨name, rel, sub2, hat, h1, h2, h3⟩
      refine ⟨name :: rel, sub2, ?_, h1, ?_, ?_⟩
      · rw [subtreeAt_conspath]
        exact hat
      · rw [h2, List.length_cons]
        omega
      · have harg : k - (depth + 1 + rel.length) =
            k - (depth + (name :: rel).length) := by
          rw [List.length_cons]
          omega
        rw [h3, harg]
    rw [traverse_directory_fd_node]
    have hex : depthExceeds c.max_depth depth = false := by
      rw [hmd]
      simp only [depthExceeds, decide_eq_false_iff_not]
      omega
    simp only [hex, Bool.false_eq_true, if_false]
    have hsplit := childrenBytesClamped_split opts cs (k - depth)
    have hlecf := childrenBytesClamped_le_full opts cs (k - depth)
    have hbf : fileChildrenBytes opts cs ≤ U64MAX := by omega
    have hft := posixChildren_total current cs depth k c opts hopts hmd hpol
      hcross hcs hbf
    have hftmem := posixChildren_entries current cs depth k c opts hopts hmd
      hpol hcross hcs hdn
    have hg1 := posixChildren_growth current cs depth c k hmd
    rcases hr1 : posixChildren current cs depth c with ⟨c1, ftotal, nf1, nd1⟩
    rw [hr1] at hft hftmem hg1
    dsimp at hft
    subst hft
    dsimp only
    have hopts1 : c1.options = opts := hg1.2.1.trans hopts
    have hmd1 : c1.max_depth = some k := hg1.1.trans hmd
    have hsub := (posixClampedAux (childListSize cs)).2 current cs depth k c1
      opts (Nat.le_refl _) hopts1 hmd1 hpol hcross hcs hdep hbound
    have hsmem := (ih (childListSize cs) hlt1).2 current cs depth k c1 opts
      (Nat.le_refl _) hopts1 hmd1 hpol hcross hcs hdn hdep hbound
    rcases hr2 : posixSubdirs current cs depth c1 with ⟨c2, res2⟩
    rw [hr2] at hsub hsmem
    dsimp at hsub
    subst hsub
    dsimp only
    have htot : satAdd64 (fileChildrenBytes opts cs)
        (dirChildrenBytesClamped opts cs (k - depth)) =
        childrenBytesClamped opts cs (k - depth) := by
      rw [satAdd64_of_le _ _ (by omega)]
      omega
    intro kv hkv
    rcases alInsert_mem c2.entries current _ kv hkv with hold | hnew
    · rcases hsmem kv hold with hold2 | hw2
      · rcases hftmem kv hold2 with hold3 | hw3
        · exact Or.inl hold3
        · exact Or.inr (hliftN kv hw3)
      · exact Or.inr (hliftN kv hw2)
    · right
      rw [hnew]
      refine ⟨[], .node m none oe cs, subtreeAt_nilpath _, ?_, ?_, ?_⟩
      · show current = current ++ []
        rw [List.append_nil]
      · show depth = depth + ([] : List String).length
        simp
      · show satAdd64 (fileChildrenBytes opts cs)
            (dirChildrenBytesClamped opts cs (k - depth)) =
          subtreeBytesClamped opts (.node m none oe cs)
            (k - (depth + ([] : List String).length))
        rw [htot, subtreeBytesClamped_node, hdirm]
        rfl
  · intro current cs depth k c opts hsz hopts hmd hpol hcross hplain hdn hdep
      hbound
    match cs, hsz, hplain, hdn, hbound with
    | .nil, hsz, hplain, hdn, hbound =>
      intro kv hkv
      exact Or.inl hkv
    | .cons ie name sub rest, hsz, hplain, hdn, hbound =>
      rw [plainChildren_cons, Bool.and_eq_true, Bool.and_eq_true,
        decide_eq_true_eq] at hplain
      obtain ⟨⟨hie, hsubp⟩, hrest⟩ := hplain
      subst hie
      rw [distinctChildNames_cons, Bool.and_eq_true, Bool.and_eq_true,
        decide_eq_true_eq] at hdn
      obtain ⟨⟨hnn, hdsub⟩, hdrest⟩ := hdn
      rcases sub with ⟨m2, rde2, oe2, cs2⟩
      rw [plainTree_node, Bool.and_eq_true, decide_eq_true_eq] at hsubp
      obtain ⟨⟨hkind2, hstat2, hrde2, hoe2⟩, hcs2⟩ := hsubp
      subst hoe2
      rw [childrenBytesFull_cons] at hbound
      have hcsz : childListSize
          (ChildList.cons none name (.node m2 rde2 none cs2) rest) =
          treeSize (.node m2 rde2 none cs2) + childListSize rest + 1 := rfl
      have hltr : childListSize rest < n := by omega
      have hlts : treeSize (.node m2 rde2 none cs2) < n := by omega
      have hlift : ∀ (kv : List String × DirectoryEntry),
          (∃ name2 rel sub2, childSubtreeAt rest name2 rel = some sub2 ∧
            kv.1 = current ++ name2 :: rel ∧
            kv.2.depth = depth + 1 + rel.length ∧
            kv.2.size_bytes =
              subtreeBytesClamped opts sub2 (k - (depth + 1 + rel.length))) →
          ∃ name2 rel sub2,
            childSubtreeAt (.cons none name (.node m2 rde2 none cs2) rest)
              name2 rel = some sub2 ∧
            kv.1 = current ++ name2 :: rel ∧
            kv.2.depth = depth + 1 + rel.length ∧
            kv.2.size_bytes =
              subtreeBytesClamped opts sub2 (k - (depth + 1 + rel.length)) := by
        rintro kv ⟨name2, rel, sub2, hat, h1, h2, h3⟩
        refine ⟨name2, rel, sub2, ?_, h1, h2, h3⟩
        rw [childSubtreeAt_cons]
        have hne : ¬ name = name2 := by
          intro he
          exact hnn (he ▸ childSubtreeAt_mem rest name2 rel sub2 hat)
        rw [if_neg hne]
        exact hat
      have hliftT : ∀ (kv : List String × DirectoryEntry),
          (∃ rel sub2,
            subtreeAt (.node m2 rde2 none cs2) rel = some sub2 ∧
            kv.1 = (current ++ [name]) ++ rel ∧
            kv.2.depth = depth + 1 + rel.length ∧
            kv.2.size_bytes =
              subtreeBytesClamped opts sub2 (k - (depth + 1 + rel.length))) →
          ∃ name2 rel sub2,
            childSubtreeAt (.cons none name (.node m2 rde2 none cs2) rest)
              name2 rel = some sub2 ∧
            kv.1 = current ++ name2 :: rel ∧
            kv.2.depth = depth + 1 + rel.length ∧
            kv.2.size_bytes =
              subtreeBytesClamped opts sub2 (k - (depth + 1 + rel.length)) := by
        rintro kv ⟨rel, sub2, hat, h1, h2, h3⟩
        refine ⟨name, rel, sub2, ?_, ?_, h2, h3⟩
        · rw [childSubtreeAt_cons, if_pos rfl]
          exact hat
        · rw [h1, List.append_assoc]
          rfl
      rw [posixSubdirs]
      rcases hkind2 with hf2 | hd2
      · have hcol : posixCollected c none (.node m2 rde2 none cs2) (depth + 1)
            = false := by
          rw [posixCollected_none]
          simp only [decide_eq_false_iff_not]
          rintro ⟨-, -, -, hkd, -, -⟩
          have hkd2 : m2.kind = NodeKind.dir := hkd
          rw [hf2] at hkd2
          exact NodeKind.noConfusion hkd2
        simp only [hcol, Bool.false_eq_true, if_false]
        have hmem := (ih (childListSize rest) hltr).2 current rest depth k c
          opts (Nat.le_refl _) hopts hmd hpol hcross hrest hdrest hdep
          (by omega)
        intro kv hkv
        rcases hmem kv hkv with hold | hw
        · exact Or.inl hold
        · exact Or.inr (hlift kv hw)
      · by_cases hlt : depth < k
        · have hcol : posixCollected c none (.node m2 rde2 none cs2)
              (depth + 1) = true := by
            rw [posixCollected_none, decide_eq_true_eq]
            refine ⟨hstat2, ?_, ?_, hd2, ?_, rfl⟩
            · rintro ⟨hs, -⟩
              have hs2 : m2.kind = NodeKind.symlink := hs
              rw [hd2] at hs2
              exact NodeKind.noConfusion hs2
            · exact deviceMismatch_cross c _ (by rw [hopts]; exact hcross)
            · rw [hmd]
              simp only [depthExceeds, decide_eq_false_iff_not]
              omega
          simp only [hcol, if_true]
          have hsubplain : plainTree (.node m2 rde2 none cs2) = true := by
            rw [plainTree_node, Bool.and_eq_true, decide_eq_true_eq]
            exact ⟨⟨Or.inr hd2, hstat2, hrde2, rfl⟩, hcs2⟩
          have hdep1 : depth + 1 ≤ k := by omega
          have hd2m : (FsTree.node m2 rde2 none cs2).meta.kind =
              NodeKind.dir := hd2
          have hbs : subtreeBytesFull opts (.node m2 rde2 none cs2) ≤
              U64MAX := by omega
          have hmem1 := (ih (treeSize (.node m2 rde2 none cs2)) hlts).1
            (current ++ [name]) (.node m2 rde2 none cs2) (depth + 1) k c opts
            (Nat.le_refl _) hopts hmd hpol hcross hsubplain hdsub hdep1 hd2m
            hbs
          have hg1 := traverse_directory_fd_growth (current ++ [name])
            (.node m2 rde2 none cs2) (depth + 1) c k hmd
          rcases hr1 : traverse_directory_fd (current ++ [name])
              (.node m2 rde2 none cs2) (depth + 1) c with ⟨c1, res1⟩
          rw [hr1] at hmem1 hg1
          rcases res1 with e1 | s1
          · dsimp only
            intro kv hkv
            rcases hmem1 kv hkv with hold | hw1
            · exact Or.inl hold
            · exact Or.inr (hliftT kv hw1)
          · dsimp only
            have hopts1 : c1.options = opts := hg1.2.1.trans hopts
            have hmd1 : c1.max_depth = some k := hg1.1.trans hmd
            have hbr : childrenBytesFull opts rest ≤ U64MAX := by omega
            have hmem2 := (ih (childListSize rest) hltr).2 current rest depth
              k c1 opts (Nat.le_refl _) hopts1 hmd1 hpol hcross hrest hdrest
              hdep hbr
            rcases hr2 : posixSubdirs current rest depth c1 with ⟨c2, res2⟩
            rw [hr2] at hmem2
            have hfin : ∀ kv ∈ c2.entries,
                kv ∈ c.entries ∨
                ∃ name2 rel sub2,
                  childSubtreeAt
                    (.cons none name (.node m2 rde2 none cs2) rest) name2 rel
                    = some sub2 ∧
                  kv.1 = current ++ name2 :: rel ∧
                  kv.2.depth = depth + 1 + rel.length ∧
                  kv.2.size_bytes =
                    subtreeBytesClamped opts sub2
                      (k - (depth + 1 + rel.length)) := by
              intro kv hkv
              rcases hmem2 kv hkv with hold | hw
              · rcases hmem1 kv hold with holdc | hw1
                · exact Or.inl holdc
                · exact Or.inr (hliftT kv hw1)
              · exact Or.inr (hlift kv hw)
            rcases res2 with e2 | t2
            · exact hfin
            · exact hfin
        · have hcol : posixCollected c none (.node m2 rde2 none cs2)
              (depth + 1) = false := by
            rw [posixCollected_none]
            simp only [decide_eq_false_iff_not]
            rintro ⟨-, -, -, -, hde, -⟩
            rw [hmd] at hde
            simp only [depthExceeds, decide_eq_false_iff_not] at hde
            omega
          simp only [hcol, Bool.false_eq_true, if_false]
          have hmem := (ih (childListSize rest) hltr).2 current rest depth k c
            opts (Nat.le_refl _) hopts hmd hpol hcross hrest hdrest hdep
            (by omega)
          intro kv hkv
          rcases hmem kv hkv with hold | hw
          · exact Or.inl hold
          · exact Or.inr (hlift kv hw)

/-- The directory half of `posixEntriesAux`, at the tree's own size. -/
theorem traverse_directory_fd_entries (current : List String) (t : FsTree)
    (depth k : Nat) (c : TraversalContext) (opts : ScanOptions)
    (hopts : c.options = opts) (hmd : c.max_depth = some k)
    (hpol : opts.hardlink_policy = .count)
    (hcross : opts.cross_filesystem = true)
    (hplain : plainTree t = true) (hdn : distinctNames t = true)
    (hdep : depth ≤ k) (hdir : t.meta.kind = .dir)
    (hbound : subtreeBytesFull opts t ≤ U64MAX) :
    ∀ kv ∈ (traverse_directory_fd current t depth c).1.entries,
      kv ∈ c.entries ∨
      ∃ rel sub, subtreeAt t rel = some sub ∧
        kv.1 = current ++ rel ∧
        kv.2.depth = depth + rel.length ∧
        kv.2.size_bytes =
          subtreeBytesClamped opts sub (k - (depth + rel.length)) :=
  (posixEntriesAux (treeSize t)).1 current t depth k c opts (Nat.le_refl _)
    hopts hmd hpol hcross hplain hdn hdep hdir hbound

/-- C1 (corrected): with `max_depth = k` the depth limit truncates the byte
accounting as well as the emission.  On a plain directory tree with
distinct child names under `Count` hardlinks and cross-filesystem scanning
(with, for the saturating POSIX arithmetic, a total that fits in `u64`),
both strategies return the depth-clamped total, record it for the scan
root, and — the general accounting clause — *every* entry either scan
emits carries exactly the depth-clamped byte total of the subtree at its
own path, which excludes every byte lying strictly more than `k` levels
below the root. -/
theorem C1_depth_truncated_accounting (root : List String) (t : FsTree)
    (opts : ScanOptions) (k : Nat)
    (hk : opts.max_depth = some k) (hpol : opts.hardlink_policy = .count)
    (hcross : opts.cross_filesystem = true) (hplain : plainTree t = true)
    (hdn : distinctNames t = true) (hdir : t.meta.kind = .dir)
    (hbound : subtreeBytesFull opts t ≤ U64MAX) :
    ((traverse_directory root t (TraversalContext.init opts)).2 =
        .ok (subtreeBytesClamped opts t k) ∧
      (∃ e, alLookup (traverse_directory root t
            (TraversalContext.init opts)).1.entries root = some e ∧
        e.depth = 0 ∧ e.size_bytes = subtreeBytesClamped opts t k) ∧
      (∀ kv ∈ (traverse_directory root t
          (TraversalContext.init opts)).1.entries,
        ∃ rel sub, subtreeAt t rel = some sub ∧
          kv.1 = root ++ rel ∧ kv.2.depth = rel.length ∧
          kv.2.size_bytes = subtreeBytesClamped opts sub (k - rel.length))) ∧
    ((posix_traverse root t (TraversalContext.init opts)).2 =
        .ok (subtreeBytesClamped opts t k) ∧
      (∃ e, alLookup (posix_traverse root t
            (TraversalContext.init opts)).1.entries root = some e ∧
        e.depth = 0 ∧ e.size_bytes = subtreeBytesClamped opts t k) ∧
      (∀ kv ∈ (posix_traverse root t
          (TraversalContext.init opts)).1.entries,
        ∃ rel sub, subtreeAt t rel = some sub ∧
          kv.1 = root ++ rel ∧ kv.2.depth = rel.length ∧
          kv.2.size_bytes = subtreeBytesClamped opts sub (k - rel.length))) := by
  have hplainK := hplain
  rcases t with ⟨m, rde, oe, cs⟩
  rw [plainTree_node, Bool.and_eq_true, decide_eq_true_eq] at hplainK
  obtain ⟨⟨hkind, hstat, hrde, hoe⟩, hcs⟩ := hplainK
  subst hrde
  subst hoe
  have hdirm : m.kind = NodeKind.dir := hdir
  have hc : (TraversalContext.init opts).options.cross_filesystem = true :=
    hcross
  have hwrap : traverse_directory root (FsTree.node m none none cs)
      (TraversalContext.init opts) =
      traverse_recursive root (FsTree.node m none none cs) 0
        (TraversalContext.init opts) := by
    unfold traverse_directory
    dsimp only [FsTree.meta]
    rw [hstat]
    simp only [hc, if_true]
  have hne : ¬ m.kind ≠ NodeKind.dir := fun hno => hno hdirm
  have hwrap2 : posix_traverse root (FsTree.node m none none cs)
      (TraversalContext.init opts) =
      traverse_directory_fd root (FsTree.node m none none cs) 0
        (TraversalContext.init opts) := by
    unfold posix_traverse
    dsimp only [FsTree.meta, FsTree.openErr]
    rw [hstat]
    dsimp only
    rw [if_neg hne]
    simp only [hc, if_true]
  rw [hwrap, hwrap2]
  obtain ⟨ha1, hb1⟩ := traverse_recursive_clamped root
    (FsTree.node m none none cs) 0 k (TraversalContext.init opts) opts rfl hk
    hpol hcross hplain (Nat.zero_le k)
  obtain ⟨ha2, hb2⟩ := traverse_directory_fd_clamped root
    (FsTree.node m none none cs) 0 k (TraversalContext.init opts) opts rfl hk
    hpol hcross hplain (Nat.zero_le k) hdir hbound
  have hcov1 := traverse_recursive_entries root (FsTree.node m none none cs)
    0 k (TraversalContext.init opts) opts rfl hk hpol hcross hplain hdn
    (Nat.zero_le k)
  have hcov2 := traverse_directory_fd_entries root
    (FsTree.node m none none cs) 0 k (TraversalContext.init opts) opts rfl hk
    hpol hcross hplain hdn (Nat.zero_le k) hdir hbound
  refine ⟨⟨ha1, hb1 hdir, ?_⟩, ⟨ha2, hb2, ?_⟩⟩
  · intro kv hkv
    rcases hcov1 kv hkv with hold | ⟨rel, sub, hat, h1, h2, h3⟩
    · simp [TraversalContext.init] at hold
    · refine ⟨rel, sub, hat, h1, ?_, ?_⟩
      · rw [h2, Nat.zero_add]
      · rw [h3, Nat.zero_add]
  · intro kv hkv
    rcases hcov2 kv hkv with hold | ⟨rel, sub, hat, h1, h2, h3⟩
    · simp [TraversalContext.init] at hold
    · refine ⟨rel, sub, hat, h1, ?_, ?_⟩
      · rw [h2, Nat.zero_add]
      · rw [h3, Nat.zero_add]

/-- Witness for C1 (corrected) at the spec's own depth-limit scenario:
`root/l1/l2/f.txt`, `max_depth = 1`.  The clamped total at the root is `0`
(the five bytes of `f.txt` lie at depth 3), and every emitted entry carries
its own subtree's clamped total. -/
theorem C1_depth_truncated_accounting_witness :
    subtreeBytesFull exOpts1 exDepthTree ≤ U64MAX ∧
    distinctNames exDepthTree = true ∧
    (((traverse_directory ["root"] exDepthTree
          (TraversalContext.init exOpts1)).2 =
        .ok (subtreeBytesClamped exOpts1 exDepthTree 1) ∧
      (∃ e, alLookup (traverse_directory ["root"] exDepthTree
            (TraversalContext.init exOpts1)).1.entries ["root"] = some e ∧
        e.depth = 0 ∧
        e.size_bytes = subtreeBytesClamped exOpts1 exDepthTree 1) ∧
      (∀ kv ∈ (traverse_directory ["root"] exDepthTree
          (TraversalContext.init exOpts1)).1.entries,
        ∃ rel sub, subtreeAt exDepthTree rel = some sub ∧
          kv.1 = ["root"] ++ rel ∧ kv.2.depth = rel.length ∧
          kv.2.size_bytes =
            subtreeBytesClamped exOpts1 sub (1 - rel.length))) ∧
     ((posix_traverse ["root"] exDepthTree
          (TraversalContext.init exOpts1)).2 =
        .ok (subtreeBytesClamped exOpts1 exDepthTree 1) ∧
      (∃ e, alLookup (posix_traverse ["root"] exDepthTree
            (TraversalContext.init exOpts1)).1.entries ["root"] = some e ∧
        e.depth = 0 ∧
        e.size_bytes = subtreeBytesClamped exOpts1 exDepthTree 1) ∧
      (∀ kv ∈ (posix_traverse ["root"] exDepthTree
          (TraversalContext.init exOpts1)).1.entries,
        ∃ rel sub, subtreeAt exDepthTree rel = some sub ∧
          kv.1 = ["root"] ++ rel ∧ kv.2.depth = rel.length ∧
          kv.2.size_bytes =
            subtreeBytesClamped exOpts1 sub (1 - rel.length)))) :=
  ⟨by decide, rfl, C1_depth_truncated_accounting ["root"] exDepthTree exOpts1
    1 rfl rfl rfl rfl rfl rfl (by decide)⟩

/-- Counterexample for C1 as stated: scanning `root/l1/l2/f.txt` (five
bytes in `f.txt`) with `max_depth = 1`, both strategies emit the directory
entry `root/l1` with `size_bytes = 0`, while the full inclusive subtree
total of `l1` is `5` — the depth limit does restrict the byte
accounting. -/
theorem C1_counterexample :
    alLookup (traverse_directory ["root"] exDepthTree
        (TraversalContext.init exOpts1)).1.entries ["root", "l1"] =
      some { path := "root/l1", parent_path := some "root", depth := 1,
             size_bytes := 0, file_count := 0, dir_count := 1 } ∧
    alLookup (posix_traverse ["root"] exDepthTree
        (TraversalContext.init exOpts1)).1.entries ["root", "l1"] =
      some { path := "root/l1", parent_path := some "root", depth := 1,
             size_bytes := 0, file_count := 0, dir_count := 1 } ∧
    subtreeBytesFull exOpts1 exL1 = 5 := by
  refine ⟨?_, ?_, ?_⟩
  · rfl
  · rfl
  · rfl
